import Mathlib

/-!
Higher Or Lower?! — verification of the quiz core of `script.js`

Shallow embedding of the round generator, the score tracker and the playback
sequencer of `src/script.js`.

Modelling conventions
* JavaScript numbers are IEEE 754 binary64.  `fl` is rounding to the nearest
  binary64 number (ties to even) on the rationals, `Num` is a JavaScript number
  (finite, infinite or `NaN`) with the arithmetic of the language, and the
  namespace `B64` holds the round generator and the pitch model computed on
  `Num` exactly as the source computes them.
* Pitches, octaves and bounds only ever hold integers.  The game state keeps
  them as `Int`, and `randomInt`, `pickIntervalSemitones`, `pickPair` and the
  pitch functions are also given on `Int`; these integer versions round the one
  product of `randomInt` and the three thresholds of `pickIntervalSemitones`
  with `fl`, and every other operation in them is exact on integers of
  magnitude at most `2^53`.  The theorems `pickPairRun_refines`,
  `pcFromPitch_refines`, `octFromPitch_refines`, `pitchFromPcOct_refines` and
  `computeTwoOctaveWindow_refines` prove that the integer versions compute what
  the binary64 versions compute on ranges of safe integers that contain the
  bounds of every mode (24 to 72).
  Score counters start at `0` and only grow by `1`; they are `Nat` here.
* A value returned by `Math.random()` is a binary64 number `r` with
  `0 ≤ r < 1`, given as a rational.  The source of randomness is a stream
  `rnd : Nat → ℚ` together with the index of the next unread draw.
* The asynchronous functions (`playPair`, `startNewRound`, `beginGame`) are
  split at their `await` points; a suspended continuation is a `Task` stored
  in the `pending` list of the game state and resumed by an event.
* DOM output (`setFeedback`, `renderScore`, `showPopup`) and the audio graph do
  not feed back into the game variables and are left out; `updateControls` is
  the function from the game variables to the `disabled` flags it writes, and
  `buildMiniKeyboard` is the function from the two notes to the list of keys
  it draws.
-/

namespace HigherOrLower

/-! ## Binary64 arithmetic -/

/-- The integer nearest to `t`; the even one of the two when `t` lies half-way
between two integers. -/
def roundHalfEven (t : ℚ) : Int :=
  let f := Int.floor t
  if t - f < 1 / 2 then f
  else if 1 / 2 < t - f then f + 1
  else if f % 2 = 0 then f else f + 1

/-- The exponent of the spacing of the binary64 numbers around `x`: with a
significand of 53 bits they are the multiples of `2 ^ (⌊log₂ |x|⌋ - 52)`, and
of `2 ^ (-1074)` in the subnormal range. -/
def ulpExp (x : ℚ) : Int := max (Int.log 2 |x| - 52) (-1074)

/-- IEEE 754 binary64 rounding to nearest, ties to even, of the exact value
`x`, with unbounded exponent; `Num.ofRat` adds the overflow to an infinity. -/
def fl (x : ℚ) : ℚ := (roundHalfEven (x / 2 ^ ulpExp x) : ℚ) * 2 ^ ulpExp x

/-- The rational `y` is unchanged by rounding: it is a binary64 number (when
its magnitude is below `2 ^ 1024`). -/
def IsDouble (y : ℚ) : Prop := fl y = y

instance : DecidablePred IsDouble := fun y => inferInstanceAs (Decidable (fl y = y))

/-- The rational `y` is `m * 2 ^ e` with a significand `m` of at most 53 bits
and an exponent `e ≥ -1074`: the description of the binary64 numbers that
`isDouble_iff` proves equivalent to `IsDouble`. -/
def Representable (y : ℚ) : Prop :=
  ∃ m e : Int, |m| ≤ 2 ^ 53 ∧ -1074 ≤ e ∧ y = (m : ℚ) * 2 ^ e

/-- A JavaScript number: a finite binary64 value (`-0` is not told apart from
`0`), an infinity, or `NaN`. -/
inductive Num where
  | fin (q : ℚ)
  | inf (negative : Bool)
  | nan
deriving DecidableEq, Repr

namespace Num

/-- The binary64 result of an operation whose exact value is `x`: `fl x`, or an
infinity when that is beyond the largest finite binary64 number. -/
def ofRat (x : ℚ) : Num :=
  if 2 ^ 1024 ≤ |fl x| then inf (decide (x < 0)) else fin (fl x)

/-- Unary minus `-a`. -/
def neg : Num → Num
  | fin x => fin (-x)
  | inf s => inf (!s)
  | nan => nan

/-- JavaScript `a + b`. -/
def add : Num → Num → Num
  | fin x, fin y => ofRat (x + y)
  | fin _, inf s => inf s
  | inf s, fin _ => inf s
  | inf s, inf t => if s = t then inf s else nan
  | _, _ => nan

/-- JavaScript `a - b`. -/
def sub (a b : Num) : Num := add a (neg b)

/-- JavaScript `a * b`. -/
def mul : Num → Num → Num
  | fin x, fin y => ofRat (x * y)
  | fin x, inf s => if x = 0 then nan else inf (xor s (decide (x < 0)))
  | inf s, fin y => if y = 0 then nan else inf (xor s (decide (y < 0)))
  | inf s, inf t => inf (xor s t)
  | _, _ => nan

/-- JavaScript `a / b`; a zero divisor counts as `+0`. -/
def div : Num → Num → Num
  | fin x, fin y =>
    if y = 0 then (if x = 0 then nan else inf (decide (x < 0))) else ofRat (x / y)
  | fin _, inf _ => fin 0
  | inf s, fin y => inf (xor s (decide (y < 0)))
  | _, _ => nan

/-- The integer part towards zero. -/
def trunc (q : ℚ) : Int := if 0 ≤ q then Int.floor q else Int.ceil q

/-- JavaScript `a % b`: the remainder with the sign of `a`, which is exact. -/
def rem : Num → Num → Num
  | fin x, fin y => if y = 0 then nan else fin (x - y * (trunc (x / y) : ℚ))
  | fin x, inf _ => fin x
  | _, _ => nan

/-- Source `Math.floor`. -/
def floor : Num → Num
  | fin x => fin (Int.floor x : ℚ)
  | a => a

/-- Source `Math.ceil`. -/
def ceil : Num → Num
  | fin x => fin (Int.ceil x : ℚ)
  | a => a

/-- Source `Math.abs`. -/
def abs : Num → Num
  | fin x => fin |x|
  | inf _ => inf false
  | nan => nan

/-- JavaScript `a < b`. -/
def lt : Num → Num → Bool
  | fin x, fin y => decide (x < y)
  | fin _, inf s => !s
  | inf s, fin _ => s
  | inf s, inf t => s && !t
  | _, _ => false

/-- JavaScript `a > b`. -/
def gt (a b : Num) : Bool := lt b a

/-- JavaScript `a === b` on numbers. -/
def strictEq : Num → Num → Bool
  | fin x, fin y => decide (x = y)
  | inf s, inf t => decide (s = t)
  | _, _ => false

/-- Source `Math.max(a, b)`. -/
def mathMax : Num → Num → Num
  | nan, _ => nan
  | _, nan => nan
  | a, b => if lt a b then b else a

/-- Source `Math.min(a, b)`. -/
def mathMin : Num → Num → Num
  | nan, _ => nan
  | _, nan => nan
  | a, b => if lt b a then b else a

end Num

/-! ## Constants and the pitch model -/

/-- One entry of the `RANGES` table. -/
structure Mode where
  label : String
  startOctave : Int
  octaves : Int
  endOnFinalC : Bool
deriving DecidableEq, Repr

/-- The entry `RANGES["expert-4oct"]`, which `currentMode` also uses as its
fallback. -/
def expert4oct : Mode := ⟨"Expert (4 octaves)", 2, 4, true⟩

/-- The table `RANGES` (script.js lines 38-43), as an association list. -/
def RANGES : List (String × Mode) :=
  [ ("easy-1oct",   ⟨"Easy (1 octave)",    4, 1, true⟩),
    ("med-2oct",    ⟨"Medium (2 octaves)", 3, 2, true⟩),
    ("hard-3oct",   ⟨"Hard (3 octaves)",   3, 3, true⟩),
    ("expert-4oct", expert4oct) ]

/-- The table `PC_TO_STEM` (script.js lines 20-33); a missing key is `none`. -/
def PC_TO_STEM (pc : Int) : Option String :=
  if pc = 0 then some "c"
  else if pc = 1 then some "csharp"
  else if pc = 2 then some "d"
  else if pc = 3 then some "dsharp"
  else if pc = 4 then some "e"
  else if pc = 5 then some "f"
  else if pc = 6 then some "fsharp"
  else if pc = 7 then some "g"
  else if pc = 8 then some "gsharp"
  else if pc = 9 then some "a"
  else if pc = 10 then some "asharp"
  else if pc = 11 then some "b"
  else none

/-- Source `pitchFromPcOct(pc, oct) = (oct * 12) + pc` over the integers; it is what the
source computes while the product and the sum are safe integers
(`pitchFromPcOct_refines`). -/
def pitchFromPcOct (pc oct : Int) : Int := (oct * 12) + pc

/-- Source `pcFromPitch(p) = ((p % 12) + 12) % 12` over the integers; the JavaScript `%`
is the truncated remainder `Int.tmod`, which binary64 computes exactly
(`pcFromPitch_refines`). -/
def pcFromPitch (p : Int) : Int := Int.tmod (Int.tmod p 12 + 12) 12

/-- Source `octFromPitch(p) = Math.floor(p / 12)` over the integers: the quotient rounded
towards minus infinity.  It is what the source computes for `|p| ≤ 2^53`
(`octFromPitch_refines`); beyond, the rounding of `p / 12` can change the
result. -/
def octFromPitch (p : Int) : Int := Int.fdiv p 12

/-- Source `getStemForPc(pc) = PC_TO_STEM[(pc + 12) % 12] || null`. -/
def getStemForPc (pc : Int) : Option String := PC_TO_STEM (Int.tmod (pc + 12) 12)

/-- Source `expectedAnswer(a, b)` (script.js lines 378-381). -/
def expectedAnswer (a b : Int) : String :=
  if b = a then "same"
  else if b > a then "higher" else "lower"

/-! ## Round generator -/

/-- Source `randomInt(min, max)` on integer arguments (`Math.ceil` and `Math.floor`
are the identity there); `r` is the value of `Math.random()`.  The product
`Math.random() * (b - a + 1)` is rounded to binary64. -/
def randomInt (r : ℚ) (min max : Int) : Int :=
  let a := min
  let b := max
  Int.floor (fl (r * ((b - a + 1 : Int) : ℚ))) + a

/-- Source `pickIntervalSemitones()`; `r` is the value of `Math.random()`.  The
literals `0.14`, `0.62` and `0.90` denote the nearest binary64 numbers. -/
def pickIntervalSemitones (r : ℚ) : Int :=
  if r < fl (14 / 100) then 0
  else if r < fl (62 / 100) then 1
  else if r < fl (90 / 100) then 2
  else 3

/-- The object `{ a, b }` returned by `pickPair`. -/
structure Pair where
  a : Int
  b : Int
deriving DecidableEq, Repr

/-- The outcome of one run of `pickPair`: the pair it returns, the index of the
next unread random draw, how many times the body of the retry loop was
entered, and whether the pair comes from the clamp fallback. -/
structure PickRun where
  pair : Pair
  pos : Nat
  bodyRuns : Nat
  fromFallback : Bool
deriving DecidableEq, Repr

/-- The retry loop `while (tries++ < 30) { ... }` of `pickPair` followed by the
clamp fallback (script.js lines 397-411).  `tries` is the loop variable before
the test, `pos` the index of the next random draw, `runs` counts the entries
into the loop body. -/
def pickPairLoop (rnd : Nat → ℚ) (pitchMin pitchMax a : Int)
    (tries pos runs : Nat) : PickRun :=
  if tries < 30 then
    let dist := pickIntervalSemitones (rnd pos)
    let dir : Int := if rnd (pos + 1) < 1 / 2 then -1 else 1
    let b0 := a + (dir * dist)
    let b := if dist = 0 then a else b0
    if b < pitchMin ∨ b > pitchMax then
      pickPairLoop rnd pitchMin pitchMax a (tries + 1) (pos + 2) (runs + 1)
    else if |b - a| > 3 then
      pickPairLoop rnd pitchMin pitchMax a (tries + 1) (pos + 2) (runs + 1)
    else
      { pair := ⟨a, b⟩, pos := pos + 2, bodyRuns := runs + 1, fromFallback := false }
  else
    let b := max pitchMin (min pitchMax (a + (if rnd pos < 1 / 2 then -1 else 1)))
    { pair := ⟨a, b⟩, pos := pos + 1, bodyRuns := runs, fromFallback := true }
termination_by 30 - tries
decreasing_by all_goals omega

/-- The body of `pickPair` after `computePitchBounds()`: it reads the globals
`pitchMin` and `pitchMax`, draws `a` and enters the retry loop with
`tries = 0`. -/
def pickPairRun (rnd : Nat → ℚ) (pitchMin pitchMax : Int) (pos : Nat) : PickRun :=
  let a := randomInt (rnd pos) pitchMin pitchMax
  pickPairLoop rnd pitchMin pitchMax a 0 (pos + 1) 0

/-! ## The round generator and the pitch model on JavaScript numbers -/

namespace B64

/-- Source `pitchFromPcOct(pc, oct)` in binary64. -/
def pitchFromPcOct (pc oct : Num) : Num := Num.add (Num.mul oct (.fin 12)) pc

/-- Source `pcFromPitch(p)` in binary64. -/
def pcFromPitch (p : Num) : Num :=
  Num.rem (Num.add (Num.rem p (.fin 12)) (.fin 12)) (.fin 12)

/-- Source `octFromPitch(p)` in binary64. -/
def octFromPitch (p : Num) : Num := Num.floor (Num.div p (.fin 12))

/-- Source `randomInt(min, max)` in binary64; `r` is the value of `Math.random()`. -/
def randomInt (r min max : Num) : Num :=
  let a := Num.ceil min
  let b := Num.floor max
  Num.add (Num.floor (Num.mul r (Num.add (Num.sub b a) (.fin 1)))) a

/-- Source `pickIntervalSemitones()` in binary64; the literals `0.14`, `0.62` and
`0.90` denote the nearest binary64 numbers. -/
def pickIntervalSemitones (r : Num) : Num :=
  if Num.lt r (.fin (fl (14 / 100))) then .fin 0
  else if Num.lt r (.fin (fl (62 / 100))) then .fin 1
  else if Num.lt r (.fin (fl (90 / 100))) then .fin 2
  else .fin 3

/-- The object `{ a, b }` returned by `pickPair`, as JavaScript numbers. -/
structure Pair where
  a : Num
  b : Num
deriving DecidableEq, Repr

/-- The outcome of one run of `pickPair` in binary64. -/
structure PickRun where
  pair : Pair
  pos : Nat
  bodyRuns : Nat
  fromFallback : Bool
deriving DecidableEq, Repr

/-- The retry loop and the clamp fallback of `pickPair` (script.js lines
397-411) in binary64. -/
def pickPairLoop (rnd : Nat → ℚ) (pitchMin pitchMax a : Num)
    (tries pos runs : Nat) : PickRun :=
  if tries < 30 then
    let dist := pickIntervalSemitones (.fin (rnd pos))
    let dir : Num := if Num.lt (.fin (rnd (pos + 1))) (.fin (1 / 2)) then .fin (-1) else .fin 1
    let b0 := Num.add a (Num.mul dir dist)
    let b := if Num.strictEq dist (.fin 0) then a else b0
    if Num.lt b pitchMin || Num.gt b pitchMax then
      pickPairLoop rnd pitchMin pitchMax a (tries + 1) (pos + 2) (runs + 1)
    else if Num.gt (Num.abs (Num.sub b a)) (.fin 3) then
      pickPairLoop rnd pitchMin pitchMax a (tries + 1) (pos + 2) (runs + 1)
    else
      { pair := ⟨a, b⟩, pos := pos + 2, bodyRuns := runs + 1, fromFallback := false }
  else
    let step : Num := if Num.lt (.fin (rnd pos)) (.fin (1 / 2)) then .fin (-1) else .fin 1
    let b := Num.mathMax pitchMin (Num.mathMin pitchMax (Num.add a step))
    { pair := ⟨a, b⟩, pos := pos + 1, bodyRuns := runs, fromFallback := true }
termination_by 30 - tries
decreasing_by all_goals omega

/-- The body of `pickPair` after `computePitchBounds()` in binary64. -/
def pickPairRun (rnd : Nat → ℚ) (pitchMin pitchMax : Num) (pos : Nat) : PickRun :=
  let a := randomInt (.fin (rnd pos)) pitchMin pitchMax
  pickPairLoop rnd pitchMin pitchMax a 0 (pos + 1) 0

end B64

/-- The pair of integers as a pair of JavaScript numbers. -/
def Pair.toNum (p : Pair) : B64.Pair := ⟨.fin p.a, .fin p.b⟩

/-- The outcome of a run of `pickPair` with its pair as JavaScript numbers. -/
def PickRun.toNum (r : PickRun) : B64.PickRun :=
  ⟨r.pair.toNum, r.pos, r.bodyRuns, r.fromFallback⟩

/-! ## Game state -/

/-- The object `score` (script.js line 344). -/
structure Score where
  asked : Nat
  correct : Nat
  streak : Nat
  longestStored : Nat
deriving DecidableEq, Repr

/-- A suspended continuation waiting in the event loop. -/
inductive Task where
  /-- Source `beginGame` suspended at `await resumeAudioIfNeeded()`. -/
  | beginResume
  /-- Source `startNewRound` suspended at `await new Promise(requestAnimationFrame)`. -/
  | frame
  /-- Source `playPair` suspended at `await playPitchWindowed(note1, ...)`; `token` and
  `allowAnswerAfter` are its locals, `pitch` the argument passed for `note1`. -/
  | firstNote (token : Nat) (pitch : Int) (allowAnswerAfter : Bool)
  /-- Source `playPair` suspended at `await playPitchWindowed(note2, ...)`. -/
  | secondNote (token : Nat) (pitch : Int) (allowAnswerAfter : Bool)
  /-- The callback given to `setTimeout` by `playPair`, with its captured
  `token`. -/
  | unlock (token : Nat)
deriving DecidableEq, Repr

/-- The environment of a session: the values `Math.random()` returns, which
sample files can be fetched and decoded (`loadBuffer` caches its promise per
URL, so the outcome for a pitch never changes), and whether the browser has
Web Audio (`ensureAudioGraph()` is non-null). -/
structure Env where
  rnd : Nat → ℚ
  sampleOk : Int → Bool
  audioSupported : Bool

/-- The mutable variables of the script (lines 344-353 and 640), the value of
the range selector, the index of the next random draw and the suspended
continuations. -/
structure Game where
  score : Score
  started : Bool
  awaitingNext : Bool
  canAnswer : Bool
  pitchMin : Int
  pitchMax : Int
  note1 : Option Int
  note2 : Option Int
  lastPlayToken : Nat
  noteRange : String
  rngPos : Nat
  pending : List Task
deriving DecidableEq, Repr

/-- Source `currentMode()`: `RANGES[noteRangeSel.value] || RANGES["expert-4oct"]`.  The
lookup is that of a table with exactly the four keys of `RANGES`: it is the
source's for the four values the selector offers and for every other string
that is not the name of a property every JavaScript object inherits (such as
"constructor", for which the source finds a truthy value without
`startOctave` and computes `NaN` bounds). -/
def currentMode (g : Game) : Mode :=
  match RANGES.lookup g.noteRange with
  | some m => m
  | none => expert4oct

/-- Source `computePitchBounds()` (script.js lines 369-376). -/
def computePitchBounds (g : Game) : Game :=
  let m := currentMode g
  let startOct := m.startOctave
  let octaves := m.octaves
  { g with
    pitchMin := pitchFromPcOct 0 startOct
    pitchMax := pitchFromPcOct 0 (startOct + octaves) }

/-- Source `pickPair()` (script.js lines 391-412): recompute the bounds, then draw. -/
def pickPair (env : Env) (g : Game) : Pair × Game :=
  let g1 := computePitchBounds g
  let r := pickPairRun env.rnd g1.pitchMin g1.pitchMax g1.rngPos
  (r.pair, { g1 with rngPos := r.pos })

/-- Source `displayLongest()`: `Math.max(score.longestStored, score.streak)`. -/
def displayLongest (g : Game) : Nat := max g.score.longestStored g.score.streak

/-- Source `scorePercent()` (script.js lines 414-417), for counters that are safe
integers.  The quotient, the product with `1000` and the division by `10` are
rounded to binary64; `Math.round(x)` is the exact `floor(x + 1/2)`. -/
def scorePercent (g : Game) : ℚ :=
  if g.score.asked ≤ 0 then 0
  else
    let quotient := fl ((g.score.correct : ℚ) / (g.score.asked : ℚ))
    let scaled := fl (quotient * 1000)
    fl ((Int.floor (scaled + 1 / 2) : ℚ) / 10)

/-- Source `clamp(v, lo, hi)`: `Math.max(lo, Math.min(hi, v))`. -/
def clamp (v lo hi : Int) : Int := max lo (min hi v)

/-- The object `{ lo, hi }` returned by `computeTwoOctaveWindow`. -/
structure Window where
  lo : Int
  hi : Int
deriving DecidableEq, Repr

/-- Source `computeTwoOctaveWindow(p1, p2)` (script.js lines 483-508) over the integers; it
reads the globals `pitchMin` and `pitchMax`.  It is what the source computes on
safe integers (`computeTwoOctaveWindow_refines`). -/
def computeTwoOctaveWindow (g : Game) (p1 p2 : Int) : Window :=
  let minP := min p1 p2
  let maxP := max p1 p2
  let startC0 := pitchFromPcOct 0 (octFromPitch minP)
  let endC0 := startC0 + 24
  let startC1 := if maxP > endC0 then startC0 + 12 else startC0
  let endC1 := if maxP > endC0 then startC1 + 24 else endC0
  let startC2 := if startC1 < g.pitchMin then g.pitchMin else startC1
  let endC2 := if startC1 < g.pitchMin then startC2 + 24 else endC1
  let endC3 := if endC2 > g.pitchMax then g.pitchMax else endC2
  let startC3 := if endC2 > g.pitchMax then endC3 - 24 else startC2
  let startC := clamp startC3 g.pitchMin g.pitchMax
  let endC := clamp endC3 g.pitchMin g.pitchMax
  { lo := startC, hi := endC }

namespace B64

/-- Source `clamp(v, lo, hi)` in binary64. -/
def clamp (v lo hi : Num) : Num := Num.mathMax lo (Num.mathMin hi v)

/-- The object `{ lo, hi }` returned by `computeTwoOctaveWindow`, as JavaScript
numbers. -/
structure Window where
  lo : Num
  hi : Num
deriving DecidableEq, Repr

/-- Source `computeTwoOctaveWindow(p1, p2)` (script.js lines 483-508) in binary64, with the
globals `pitchMin` and `pitchMax` as arguments. -/
def computeTwoOctaveWindow (pitchMin pitchMax p1 p2 : Num) : Window :=
  let minP := Num.mathMin p1 p2
  let maxP := Num.mathMax p1 p2
  let startC0 := pitchFromPcOct (.fin 0) (octFromPitch minP)
  let endC0 := Num.add startC0 (.fin 24)
  let startC1 := if Num.gt maxP endC0 then Num.add startC0 (.fin 12) else startC0
  let endC1 := if Num.gt maxP endC0 then Num.add startC1 (.fin 24) else endC0
  let startC2 := if Num.lt startC1 pitchMin then pitchMin else startC1
  let endC2 := if Num.lt startC1 pitchMin then Num.add startC2 (.fin 24) else endC1
  let endC3 := if Num.gt endC2 pitchMax then pitchMax else endC2
  let startC3 := if Num.gt endC2 pitchMax then Num.sub endC3 (.fin 24) else startC2
  let startC := clamp startC3 pitchMin pitchMax
  let endC := clamp endC3 pitchMin pitchMax
  { lo := startC, hi := endC }

end B64

/-- The window of integers as a window of JavaScript numbers. -/
def Window.toNum (w : Window) : B64.Window := ⟨.fin w.lo, .fin w.hi⟩

/-! ## Mini keyboard -/

/-- Source `isBlackPc(pc)`: `[1, 3, 6, 8, 10].includes(pc)`. -/
def isBlackPc (pc : Int) : Bool := [1, 3, 6, 8, 10].contains pc

/-- Source `whiteIndexInOctave(pc)`; `null` is `none`. -/
def whiteIndexInOctave (pc : Int) : Option Nat :=
  if pc = 0 then some 0
  else if pc = 2 then some 1
  else if pc = 4 then some 2
  else if pc = 5 then some 3
  else if pc = 7 then some 4
  else if pc = 9 then some 5
  else if pc = 11 then some 6
  else none

/-- The table `leftPcByBlack` of `buildMiniKeyboard` (script.js line 614); a missing key
is `none`. -/
def leftPcByBlack (pc : Int) : Option Int :=
  if pc = 1 then some 0
  else if pc = 3 then some 2
  else if pc = 6 then some 5
  else if pc = 8 then some 7
  else if pc = 10 then some 9
  else none

/-- A key that `buildMiniKeyboard` draws: its pitch, whether it is a black key,
the `x` coordinate of its rectangle, and whether it carries the highlight class
`hl1` of the first note and `hl2` of the second.  The text label of a white
`C` key is left out. -/
structure Key where
  pitch : Int
  black : Bool
  x : Int
  hl1 : Bool
  hl2 : Bool
deriving DecidableEq, Repr

/-- The pitches visited by `for (let p = lo; p <= hi; p++)`. -/
def pitchesFromTo (lo hi : Int) : List Int :=
  List.map (fun (i : Nat) => lo + (i : Int)) (List.range (hi + 1 - lo).toNat)

/-- The lookup `whiteIndexByPitch.get(p)` in the map that `buildMiniKeyboard` fills with
`whitePitches.forEach((p, i) => whiteIndexByPitch.set(p, i))`: the last index
at which `p` stands in `whitePitches`, or `none` (`undefined`). -/
def whiteIndexByPitch (whitePitches : List Int) (p : Int) : Option Nat :=
  let i := whitePitches.reverse.indexOf p
  if i < whitePitches.length then some (whitePitches.length - 1 - i) else none

/-- Source `buildMiniKeyboard(p1, p2)` (script.js lines 510-637), as the list of keys it
draws into the SVG, white keys first; the empty list is the empty SVG.  The
constants are `BORDER = 8`, `WHITE_W = 26` and `BLACK_W = 16`. -/
def buildMiniKeyboard (g : Game) (p1 p2 : Option Int) : List Key :=
  match p1, p2 with
  | some p1, some p2 =>
    let w := computeTwoOctaveWindow g p1 p2
    let pitches := pitchesFromTo w.lo w.hi
    let whitePitches :=
      pitches.filter (fun p => (whiteIndexInOctave (pcFromPitch p)).isSome)
    if whitePitches.length = 0 then []
    else
      let whiteKeys := (List.range whitePitches.length).map (fun (i : Nat) =>
        let p := whitePitches.getD i 0
        let x := 8 + (i : Int) * 26
        { pitch := p, black := false, x := x, hl1 := decide (p = p1), hl2 := decide (p = p2) })
      let blackKeys := pitches.filterMap (fun p =>
        let pc := pcFromPitch p
        if !isBlackPc pc then none
        else
          match leftPcByBlack pc with
          | none => none
          | some leftPc =>
            let oct := octFromPitch p
            let leftWhitePitch := pitchFromPcOct leftPc oct
            match whiteIndexByPitch whitePitches leftWhitePitch with
            | none => none
            | some wi =>
              let leftX := 8 + (wi : Int) * 26
              let x := leftX + 26 - (16 / 2)
              some { pitch := p, black := true, x := x, hl1 := decide (p = p1),
                     hl2 := decide (p = p2) })
      whiteKeys ++ blackKeys
  | _, _ => []

/-- The value `playPitchWindowed(pitch, ...)` resolves to: `false` when there
is no stem or `loadBuffer` yields `null` (no audio context, failed fetch or
decode), `true` otherwise. -/
def playPitchWindowed (env : Env) (pitch : Int) : Bool :=
  match getStemForPc (pcFromPitch pitch) with
  | none => false
  | some _ =>
    let buf := env.audioSupported && env.sampleOk pitch
    if !buf then false else true

/-! ## Playback sequencer -/

/-- Source `playPair({ allowAnswerAfter })` up to its first `await` (script.js lines
642-656).  A `null` note passed on is read as `0`, as JavaScript arithmetic
does. -/
def playPair (env : Env) (allowAnswerAfter : Bool) (g : Game) : Game :=
  if !g.started || g.note1.isNone || g.note2.isNone then g
  else
    let token := g.lastPlayToken + 1
    let g1 := { g with lastPlayToken := token, canAnswer := false }
    if !env.audioSupported then g1
    else
      { g1 with
        pending := g1.pending ++ [Task.firstNote token (g1.note1.getD 0) allowAnswerAfter] }

/-- Source `playPair` resumed after the first note (script.js lines 656-660). -/
def playPairAfterFirst (env : Env) (token : Nat) (pitch : Int) (allowAnswerAfter : Bool)
    (g : Game) : Game :=
  let ok1 := playPitchWindowed env pitch
  if !ok1 || token != g.lastPlayToken then g
  else
    { g with pending := g.pending ++ [Task.secondNote token (g.note2.getD 0) allowAnswerAfter] }

/-- Source `playPair` resumed after the second note (script.js lines 660-670). -/
def playPairAfterSecond (env : Env) (token : Nat) (pitch : Int) (allowAnswerAfter : Bool)
    (g : Game) : Game :=
  let ok2 := playPitchWindowed env pitch
  if !ok2 || token != g.lastPlayToken then g
  else if allowAnswerAfter then
    { g with pending := g.pending ++ [Task.unlock token] }
  else g

/-- The callback of the unlock timer (script.js lines 665-669). -/
def unlockCallback (token : Nat) (g : Game) : Game :=
  if token != g.lastPlayToken then g
  else { g with canAnswer := true }

/-- Source `startNewRound({ autoplay })` up to its `await` (script.js lines 673-689). -/
def startNewRound (env : Env) (autoplay : Bool) (g : Game) : Game :=
  if !g.started then g
  else
    let g1 := { g with awaitingNext := false, canAnswer := false }
    let pr := pickPair env g1
    let g2 := { pr.2 with note1 := some pr.1.a, note2 := some pr.1.b }
    if autoplay then { g2 with pending := g2.pending ++ [Task.frame] }
    else g2

/-- Source `startNewRound` resumed by the animation frame: it calls
`playPair({ allowAnswerAfter: true })`. -/
def startNewRoundAfterFrame (env : Env) (g : Game) : Game :=
  playPair env true g

/-- Source `replay()` (script.js lines 697-703). -/
def replay (env : Env) (g : Game) : Game :=
  if !g.started || g.note1.isNone || g.note2.isNone then g
  else playPair env true { g with awaitingNext := false }

/-! ## Score tracker -/

/-- Source `considerStreakForLongestOnFail(prevStreak)` (script.js lines 718-727). -/
def considerStreakForLongestOnFail (prevStreak : Nat) (g : Game) : Game :=
  if prevStreak > g.score.longestStored then
    { g with score := { g.score with longestStored := prevStreak } }
  else g

/-- Source `lockAfterAnswer()` (script.js lines 729-733). -/
def lockAfterAnswer (g : Game) : Game :=
  { g with canAnswer := false, awaitingNext := true }

/-- Source `answer(choice)` (script.js lines 735-765). -/
def answer (choice : String) (g : Game) : Game :=
  if !g.started || !g.canAnswer || g.note1.isNone || g.note2.isNone then g
  else
    let g1 := { g with score := { g.score with asked := g.score.asked + 1 } }
    let correct := expectedAnswer (g1.note1.getD 0) (g1.note2.getD 0)
    let isCorrect := decide (choice = correct)
    let g2 :=
      if isCorrect then
        { g1 with score := { g1.score with
            correct := g1.score.correct + 1, streak := g1.score.streak + 1 } }
      else
        let prev := g1.score.streak
        considerStreakForLongestOnFail prev { g1 with score := { g1.score with streak := 0 } }
    lockAfterAnswer g2

/-- Source `goNext()` (script.js lines 767-771). -/
def goNext (env : Env) (g : Game) : Game :=
  if !g.started || !g.awaitingNext then g
  else startNewRound env true g

/-- Source `beginGame()` after `await resumeAudioIfNeeded()` (script.js lines 776-785). -/
def beginGameAfterResume (env : Env) (g : Game) : Game :=
  let g1 := { g with started := true, score := ⟨0, 0, 0, 0⟩ }
  startNewRound env true g1

/-- Source `restartGame()` (script.js lines 788-806). -/
def restartGame (env : Env) (g : Game) : Game :=
  let g1 := { g with
    score := ⟨0, 0, 0, 0⟩
    awaitingNext := false
    canAnswer := false
    note1 := none
    note2 := none }
  startNewRound env true g1

/-- The `disabled` flags that `updateControls` writes to the replay button, the
three answer buttons and the next button. -/
structure Controls where
  replayDisabled : Bool
  answerDisabled : Bool
  nextDisabled : Bool
deriving DecidableEq, Repr

/-- Source `updateControls()` (script.js lines 444-453), as the flags it computes from
the game variables at the moment it is called. -/
def updateControls (g : Game) : Controls :=
  let answerDisabled :=
    !g.started || g.awaitingNext || !g.canAnswer || g.note1.isNone || g.note2.isNone
  { replayDisabled := !g.started || g.note1.isNone || g.note2.isNone
    answerDisabled := answerDisabled
    nextDisabled := !g.started || !g.awaitingNext }

/-! ## Event loop -/

/-- What can happen next: a user command (button or key) or the resumption of a
suspended continuation. -/
inductive Event where
  /-- A click on the begin button: `beginGame()` or `restartGame()`. -/
  | clickBegin
  /-- The replay button or the `R` key. -/
  | replay
  /-- An answer button or arrow key: `answer(choice)`. -/
  | answer (choice : String)
  /-- The next button, `Space` or `Enter`. -/
  | next
  /-- The change event of the range selector with its new value. -/
  | rangeChange (value : String)
  /-- A suspended continuation is resumed. -/
  | resume (t : Task)
deriving DecidableEq, Repr

/-- Run the continuation `t`. -/
def resumeTask (env : Env) (t : Task) (g : Game) : Game :=
  match t with
  | .beginResume => beginGameAfterResume env g
  | .frame => startNewRoundAfterFrame env g
  | .firstNote token pitch allow => playPairAfterFirst env token pitch allow g
  | .secondNote token pitch allow => playPairAfterSecond env token pitch allow g
  | .unlock token => unlockCallback token g

/-- One turn of the event loop (the handlers of `bind()`, script.js lines
954-996).  A continuation runs only if it is pending and is then removed. -/
def step (env : Env) (e : Event) (g : Game) : Game :=
  match e with
  | .clickBegin =>
    if !g.started then { g with pending := g.pending ++ [Task.beginResume] }
    else restartGame env g
  | .replay => replay env g
  | .answer choice => answer choice g
  | .next => goNext env g
  | .rangeChange value =>
    let g1 := computePitchBounds { g with noteRange := value }
    if g1.started then startNewRound env true g1 else g1
  | .resume t =>
    if t ∈ g.pending then resumeTask env t { g with pending := g.pending.erase t }
    else g

/-- Process a sequence of events, oldest first. -/
def run (env : Env) (es : List Event) (g : Game) : Game :=
  es.foldl (fun s e => step env e s) g

/-- The state after `init()` when the selector shows `sel`. -/
def initial (sel : String) : Game :=
  computePitchBounds
    { score := ⟨0, 0, 0, 0⟩, started := false, awaitingNext := false, canAnswer := false,
      pitchMin := 0, pitchMax := 0, note1 := none, note2 := none, lastPlayToken := 0,
      noteRange := sel, rngPos := 0, pending := [] }

/-- The states a session can be in. -/
def Reachable (env : Env) (g : Game) : Prop :=
  ∃ sel es, g = run env es (initial sel)

/-! ## Observers used in the statements -/

/-- Whether `answer` passes its guard in `g`. -/
def accepts (g : Game) : Bool :=
  g.started && g.canAnswer && g.note1.isSome && g.note2.isSome

/-- The log of a session fragment: for every answer command that passed the
guard of `answer`, in order, whether the choice was the expected answer. -/
def answerLog (env : Env) : List Event → Game → List Bool
  | [], _ => []
  | e :: es, g =>
    (match e with
      | .answer choice =>
        if accepts g then
          [decide (choice = expectedAnswer (g.note1.getD 0) (g.note2.getD 0))]
        else []
      | _ => []) ++ answerLog env es (step env e g)

/-- The events that lead to `beginGame` or `restartGame`, which reset the
score. -/
def isStart : Event → Bool
  | .clickBegin => true
  | .resume .beginResume => true
  | _ => false

/-- The score after one accepted answer, as `answer` updates it. -/
def scoreAfter (isCorrect : Bool) (s : Score) : Score :=
  if isCorrect then ⟨s.asked + 1, s.correct + 1, s.streak + 1, s.longestStored⟩
  else ⟨s.asked + 1, s.correct, 0, max s.longestStored s.streak⟩

/-- The score after the accepted answers of a log, oldest first. -/
def tally (log : List Bool) (s : Score) : Score :=
  log.foldl (fun acc isCorrect => scoreAfter isCorrect acc) s

/-- The playback token a continuation of `playPair` has captured. -/
def taskToken : Task → Option Nat
  | .firstNote token _ _ => some token
  | .secondNote token _ _ => some token
  | .unlock token => some token
  | _ => none

/-- The bookkeeping of playback tokens: pending continuations carry tokens that
were handed out, no two of them carry the same token, and while answers are
unlocked no continuation of the current token is pending. -/
def TokenInv (pending : List Task) (last : Nat) (canAnswer : Bool) : Prop :=
  (∀ task ∈ pending, ∀ t, taskToken task = some t → t ≤ last) ∧
  (pending.filterMap taskToken).Nodup ∧
  (canAnswer = true → ∀ task ∈ pending, taskToken task ≠ some last)

/-- The token bookkeeping holds in `g`. -/
def TokensOk (g : Game) : Prop :=
  TokenInv g.pending g.lastPlayToken g.canAnswer

/-- The events whose handler can call `startNewRound`: the begin button
(`restartGame`), the continuation of `beginGame`, the next command (`goNext`)
and a change of the range selector. -/
def startsRound : Event → Bool
  | .clickBegin => true
  | .resume .beginResume => true
  | .next => true
  | .rangeChange _ => true
  | _ => false

/-- Whether the event is the run of an unlock-timer callback. -/
def isUnlock : Event → Bool
  | .resume (.unlock _) => true
  | _ => false

/-- The number of unlock-timer callbacks among the events. -/
def unlockCount (es : List Event) : Nat := es.countP isUnlock

/-- The number `n` is the length of the longest run of consecutive correct
answers in `log`: `n` correct answers in a row occur in it and no longer row
does. -/
def IsLongestRun (log : List Bool) (n : Nat) : Prop :=
  List.replicate n true <:+: log ∧ ∀ m, List.replicate m true <:+: log → m ≤ n

/-- The round data are consistent: the bounds are those of the selected mode,
no notes exist before the game has started, and the notes of the round lie
within the bounds at most 3 semitones apart. -/
def RoundOk (g : Game) : Prop :=
  g.pitchMin = 12 * (currentMode g).startOctave ∧
  g.pitchMax = g.pitchMin + 12 * (currentMode g).octaves ∧
  (g.started = false → g.note1 = none ∧ g.note2 = none) ∧
  (∀ n1 n2, g.note1 = some n1 → g.note2 = some n2 →
    g.pitchMin ≤ n1 ∧ n1 ≤ g.pitchMax ∧ g.pitchMin ≤ n2 ∧ n2 ≤ g.pitchMax ∧ |n2 - n1| ≤ 3)

/-! ## Concrete sessions used as examples -/

/-- The stream in which `Math.random()` always returns `0.25`. -/
def quarterStream : Nat → ℚ := fun _ => 1 / 4

/-- The stream in which `Math.random()` always returns `0.5`. -/
def halfStream : Nat → ℚ := fun _ => 1 / 2

/-- A session with every sample present, Web Audio available and all random
draws equal to `0.5`. -/
def demoEnv : Env := ⟨halfStream, fun _ => true, true⟩

/-- The events from the click on the begin button to the unlock timer of the
first round. -/
def firstRoundEvents : List Event :=
  [.clickBegin, .resume .beginResume, .resume .frame,
    .resume (.firstNote 1 54 true), .resume (.secondNote 1 55 true), .resume (.unlock 1)]

/-- The state in which the first round (pitches 54 and 55) awaits its answer. -/
def roundOne : Game := run demoEnv firstRoundEvents (initial "easy-1oct")

/-- The events of one further round played with token `k`: next, animation
frame, both notes, unlock timer. -/
def nextRoundEvents (k : Nat) : List Event :=
  [.next, .resume .frame, .resume (.firstNote k 54 true), .resume (.secondNote k 55 true),
    .resume (.unlock k)]

/-- The stream whose first three draws are `0` and all later ones `0.5`. -/
def zeroThenHalf : Nat → ℚ := fun i => if i < 3 then 0 else 1 / 2

/-- A session in which the sample of pitch 36 (`audio/c3.mp3`) cannot be
loaded and every other sample can. -/
def missingC3Env : Env := ⟨zeroThenHalf, fun p => decide (p ≠ 36), true⟩

/-- A round on pitch 36 whose first sample is still being fetched is
superseded by a round on pitches 54 and 55 (the range selector changes), and
the second round plays and unlocks. -/
def supersededEvents : List Event :=
  [.clickBegin, .resume .beginResume, .resume .frame, .rangeChange "easy-1oct",
    .resume .frame, .resume (.firstNote 2 54 true), .resume (.secondNote 2 55 true),
    .resume (.unlock 2)]

/-- The state after `supersededEvents`: the fetch for pitch 36 on behalf of the
first `playPair` call is still pending. -/
def supersededState : Game := run missingC3Env supersededEvents (initial "med-2oct")

/-- The first round is scheduled (its unlock timer is pending), then the range
selector changes, which calls `startNewRound`. -/
def newRoundEvents : List Event :=
  [.clickBegin, .resume .beginResume, .resume .frame, .resume (.firstNote 1 54 true),
    .resume (.secondNote 1 55 true), .rangeChange "med-2oct"]

/-- The state after `newRoundEvents`: `startNewRound` waits for its animation
frame. -/
def newRoundState : Game := run demoEnv newRoundEvents (initial "easy-1oct")

/-- The state in which the first `playPair` call waits for the sample of pitch
36, which cannot be loaded. -/
def missingFirstState : Game :=
  run missingC3Env [.clickBegin, .resume .beginResume, .resume .frame] (initial "med-2oct")

/-- The first round is answered, replayed, and answered again after the unlock
timer of the replay. -/
def answerReplayAnswer : List Event :=
  [.answer "higher", .replay, .resume (.firstNote 2 54 true), .resume (.secondNote 2 55 true),
    .resume (.unlock 2), .answer "higher"]

/-- The state right after `beginGame` has called `startNewRound` for the first
round. -/
def roundStart : Game :=
  run demoEnv [.clickBegin, .resume .beginResume] (initial "easy-1oct")

/-- The playback of the first round, an answer, and a replay with its playback
and unlock timer; `startNewRound` is not called. -/
def replayedEvents : List Event :=
  [.resume .frame, .resume (.firstNote 1 54 true), .resume (.secondNote 1 55 true),
    .resume (.unlock 1), .answer "higher", .replay, .resume (.firstNote 2 54 true),
    .resume (.secondNote 2 55 true), .resume (.unlock 2)]

/-- The events of `replayedEvents` followed by a second answer. -/
def scoredTwiceEvents : List Event :=
  replayedEvents ++ [.answer "higher"]

/-! ## Binary64 rounding: lemmas -/

theorem roundHalfEven_cases (t : ℚ) :
    ((roundHalfEven t : ℚ) = Int.floor t ∧ t - Int.floor t ≤ 1 / 2) ∨
    ((roundHalfEven t : ℚ) = Int.floor t + 1 ∧ 1 / 2 ≤ t - Int.floor t) := by
  unfold roundHalfEven
  simp only []
  split_ifs with h1 h2 h3
  · left; exact ⟨rfl, le_of_lt h1⟩
  · right; exact ⟨by push_cast; rfl, le_of_lt h2⟩
  · left; exact ⟨rfl, by linarith⟩
  · right; exact ⟨by push_cast; rfl, by linarith⟩

theorem roundHalfEven_nearest (t : ℚ) (n : Int) :
    |(roundHalfEven t : ℚ) - t| ≤ |(n : ℚ) - t| := by
  have hf : (Int.floor t : ℚ) ≤ t := Int.floor_le t
  have hf' : t < Int.floor t + 1 := Int.lt_floor_add_one t
  rcases le_or_lt n (Int.floor t) with h | h
  · have hn : (n : ℚ) ≤ Int.floor t := by exact_mod_cast h
    rw [abs_of_nonpos (by linarith : (n : ℚ) - t ≤ 0)]
    rcases roundHalfEven_cases t with ⟨e, hd⟩ | ⟨e, hd⟩ <;> rw [e, abs_le] <;>
      constructor <;> linarith
  · have hn : (Int.floor t : ℚ) + 1 ≤ n := by exact_mod_cast h
    rw [abs_of_nonneg (by linarith : 0 ≤ (n : ℚ) - t)]
    rcases roundHalfEven_cases t with ⟨e, hd⟩ | ⟨e, hd⟩ <;> rw [e, abs_le] <;>
      constructor <;> linarith

theorem two_zpow_pos (e : Int) : (0 : ℚ) < 2 ^ e := zpow_pos (by norm_num) e

/-- The value of `fl x` is at least as close to `x` as any multiple of the
spacing. -/
theorem fl_nearest_grid (x : ℚ) (n : Int) :
    |fl x - x| ≤ |(n : ℚ) * 2 ^ ulpExp x - x| := by
  have hs := two_zpow_pos (ulpExp x)
  have h := roundHalfEven_nearest (x / 2 ^ ulpExp x) n
  have e1 : fl x - x = ((roundHalfEven (x / 2 ^ ulpExp x) : ℚ) - x / 2 ^ ulpExp x) *
      2 ^ ulpExp x := by
    unfold fl; field_simp
  have e2 : (n : ℚ) * 2 ^ ulpExp x - x = ((n : ℚ) - x / 2 ^ ulpExp x) * 2 ^ ulpExp x := by
    field_simp
  rw [e1, e2, abs_mul, abs_mul, abs_of_pos hs]
  exact mul_le_mul_of_nonneg_right h hs.le

theorem fl_zero : fl 0 = 0 := by
  simp [fl, roundHalfEven]

theorem ulpExp_spec (x : ℚ) (hx : x ≠ 0) (h : -1074 < ulpExp x) :
    (2 : ℚ) ^ (ulpExp x + 52) ≤ |x| := by
  have hpos : 0 < |x| := abs_pos.mpr hx
  have he : ulpExp x = Int.log 2 |x| - 52 := by
    unfold ulpExp at h ⊢
    rcases max_cases (Int.log 2 |x| - 52) (-1074) with ⟨e, _⟩ | ⟨e, _⟩
    · exact e
    · rw [e] at h; exact absurd h (lt_irrefl _)
  rw [he, sub_add_cancel]
  exact Int.zpow_log_le_self (by norm_num) hpos

theorem abs_lt_ulpExp (x : ℚ) : |x| < (2 : ℚ) ^ (ulpExp x + 53) := by
  have h1 : |x| < (2 : ℚ) ^ (Int.log 2 |x| + 1) := by
    have := Int.lt_zpow_succ_log_self (b := 2) (by norm_num) |x|
    exact_mod_cast this
  have h2 : Int.log 2 |x| + 1 ≤ ulpExp x + 53 := by
    unfold ulpExp
    have := le_max_left (Int.log 2 |x| - 52) (-1074)
    omega
  exact lt_of_lt_of_le h1 (zpow_le_zpow_right₀ (by norm_num) h2)

/-- Binary64 rounding returns a nearest binary64 number. -/
theorem fl_nearest (x y : ℚ) (hy : Representable y) : |fl x - x| ≤ |y - x| := by
  obtain ⟨m, f, hm, hf, rfl⟩ := hy
  by_cases hx : x = 0
  · subst hx; rw [fl_zero]; simp
  rcases le_or_lt (ulpExp x) f with hle | hlt
  · -- `y` is a multiple of the spacing
    obtain ⟨k, hk⟩ : ∃ k : ℕ, f = ulpExp x + k := ⟨(f - ulpExp x).toNat, by omega⟩
    have e : (m : ℚ) * 2 ^ f = ((m * 2 ^ k : Int) : ℚ) * 2 ^ ulpExp x := by
      rw [hk, zpow_add₀ (by norm_num : (2 : ℚ) ≠ 0)]
      push_cast
      rw [zpow_natCast]; ring
    rw [e]
    exact fl_nearest_grid x _
  · -- `y` is smaller in magnitude than `2 ^ (e + 52) ≤ |x|`
    have he : -1074 < ulpExp x := by omega
    have hxl := ulpExp_spec x hx he
    have hyl : |(m : ℚ) * 2 ^ f| ≤ 2 ^ (ulpExp x + 52) := by
      rw [abs_mul, abs_of_pos (two_zpow_pos f)]
      have hm' : |(m : ℚ)| ≤ 2 ^ (53 : ℤ) := by
        have : ((|m| : Int) : ℚ) ≤ ((2 ^ 53 : Int) : ℚ) := by exact_mod_cast hm
        rw [Int.cast_abs] at this
        have e : (((2 ^ 53 : Int)) : ℚ) = 2 ^ (53 : ℤ) := by norm_num
        rw [e] at this; exact this
      calc |(m : ℚ)| * 2 ^ f ≤ 2 ^ (53 : ℤ) * 2 ^ f :=
            mul_le_mul_of_nonneg_right hm' (two_zpow_pos f).le
        _ = 2 ^ (53 + f) := by rw [← zpow_add₀ (by norm_num : (2 : ℚ) ≠ 0)]
        _ ≤ 2 ^ (ulpExp x + 52) := zpow_le_zpow_right₀ (by norm_num) (by omega)
    have hg : (2 : ℚ) ^ (ulpExp x + 52) = ((2 ^ 52 : Int) : ℚ) * 2 ^ ulpExp x := by
      rw [zpow_add₀ (by norm_num : (2 : ℚ) ≠ 0)]; push_cast; norm_num; ring
    rcases le_or_lt 0 x with hx0 | hx0
    · have h1 := fl_nearest_grid x (2 ^ 52)
      rw [← hg] at h1
      rw [abs_of_nonneg hx0] at hxl
      have h2 : |(2 : ℚ) ^ (ulpExp x + 52) - x| = x - 2 ^ (ulpExp x + 52) := by
        rw [abs_of_nonpos (by linarith)]; ring
      have h3 : x - 2 ^ (ulpExp x + 52) ≤ |(m : ℚ) * 2 ^ f - x| := by
        have := neg_abs_le ((m : ℚ) * 2 ^ f - x)
        have := le_abs_self ((m : ℚ) * 2 ^ f)
        have := neg_le_abs ((m : ℚ) * 2 ^ f - x)
        linarith
      linarith
    · have h1 := fl_nearest_grid x (-(2 ^ 52))
      have hg' : ((-(2 ^ 52) : Int) : ℚ) * 2 ^ ulpExp x = -(2 : ℚ) ^ (ulpExp x + 52) := by
        rw [hg]; push_cast; ring
      rw [hg'] at h1
      rw [abs_of_neg hx0] at hxl
      have h2 : |-(2 : ℚ) ^ (ulpExp x + 52) - x| = -x - 2 ^ (ulpExp x + 52) := by
        rw [abs_of_nonneg (by linarith)]; ring
      have h3 : -x - 2 ^ (ulpExp x + 52) ≤ |(m : ℚ) * 2 ^ f - x| := by
        have := le_abs_self ((m : ℚ) * 2 ^ f - x)
        have := neg_abs_le ((m : ℚ) * 2 ^ f)
        linarith
      linarith

theorem fl_of_representable (y : ℚ) (hy : Representable y) : fl y = y := by
  have h := fl_nearest y y hy
  simp only [sub_self, abs_zero] at h
  have := abs_nonneg (fl y - y)
  have h0 : |fl y - y| = 0 := le_antisymm h this
  exact sub_eq_zero.mp (abs_eq_zero.mp h0)

theorem fl_le_of_le (x y : ℚ) (hy : Representable y) (h : x ≤ y) : fl x ≤ y := by
  by_contra hc
  push_neg at hc
  have h1 := fl_nearest x y hy
  rw [abs_of_nonneg (by linarith), abs_of_nonneg (by linarith)] at h1
  linarith

theorem le_fl_of_le (x y : ℚ) (hy : Representable y) (h : y ≤ x) : y ≤ fl x := by
  by_contra hc
  push_neg at hc
  have h1 := fl_nearest x y hy
  rw [abs_of_nonpos (by linarith), abs_of_nonpos (by linarith)] at h1
  linarith

/-! ## Binary64 numbers and the rounding fact of `randomInt` -/

theorem representable_of_scaled (y : ℚ) (m e : Int) (hm : |m| ≤ 2 ^ 53) (he : -1074 ≤ e)
    (h : y = (m : ℚ) * 2 ^ e) : Representable y := ⟨m, e, hm, he, h⟩

theorem representable_int (z : Int) (h : |z| ≤ 2 ^ 53) : Representable (z : ℚ) :=
  ⟨z, 0, h, by decide, by simp⟩

/-- A multiple of `2 ^ (-k)` of magnitude at most `2 ^ (53 - k)` is a binary64
number (`k ≤ 1074`). -/
theorem representable_dyadic (z : Int) (k : Nat) (hk : k ≤ 1074) (h : |z| ≤ 2 ^ 53) :
    Representable ((z : ℚ) / 2 ^ k) :=
  ⟨z, -(k : Int), h, by omega, by rw [zpow_neg, zpow_natCast]; ring⟩

theorem fl_int (z : Int) (h : |z| ≤ 2 ^ 53) : fl (z : ℚ) = z :=
  fl_of_representable _ (representable_int z h)

theorem abs_roundHalfEven_le (t : ℚ) (N : Int) (h : |t| ≤ N) : |roundHalfEven t| ≤ N := by
  have h1 := roundHalfEven_nearest t N
  have h2 := roundHalfEven_nearest t (-N)
  obtain ⟨ha, hb⟩ := abs_le.mp h
  rw [abs_of_nonneg (by linarith : (0 : ℚ) ≤ (N : ℚ) - t)] at h1
  rw [abs_of_nonpos (by push_cast; linarith : (((-N : Int)) : ℚ) - t ≤ 0)] at h2
  push_cast at h2
  have h3 := (abs_le.mp h1).2
  have h4 := (abs_le.mp h2).1
  have h5 : (roundHalfEven t : ℚ) ≤ N := by linarith
  have h6 : (-N : ℚ) ≤ roundHalfEven t := by linarith
  rw [abs_le]
  constructor
  · exact_mod_cast h6
  · exact_mod_cast h5

theorem fl_representable (x : ℚ) : Representable (fl x) := by
  refine ⟨roundHalfEven (x / 2 ^ ulpExp x), ulpExp x, ?_, le_max_right _ _, rfl⟩
  apply abs_roundHalfEven_le
  have hs := two_zpow_pos (ulpExp x)
  rw [abs_div, abs_of_pos hs, div_le_iff₀ hs]
  have h := abs_lt_ulpExp x
  have e : (2 : ℚ) ^ (ulpExp x + 53) = ((2 ^ 53 : Int) : ℚ) * 2 ^ ulpExp x := by
    rw [zpow_add₀ (by norm_num : (2 : ℚ) ≠ 0)]; push_cast; norm_num; ring
  rw [e] at h
  exact h.le

theorem isDouble_iff (y : ℚ) : IsDouble y ↔ Representable y := by
  constructor
  · intro h
    have := fl_representable y
    rw [h] at this
    exact this
  · exact fl_of_representable y

/-- A binary64 number below 1 is at most `1 - 2 ^ (-53)`. -/
theorem double_lt_one (r : ℚ) (hr : Representable r) (h1 : r < 1) :
    r ≤ 1 - 1 / 2 ^ 53 := by
  obtain ⟨m, f, hm, hf, rfl⟩ := hr
  have hm' : (m : ℚ) ≤ 2 ^ 53 := by
    have : m ≤ 2 ^ 53 := le_trans (le_abs_self m) hm
    exact_mod_cast this
  rcases le_or_lt (-53) f with h | h
  · obtain ⟨k, hk⟩ : ∃ k : ℕ, f = -53 + k := ⟨(f + 53).toNat, by omega⟩
    have e : (m : ℚ) * 2 ^ f = ((m * 2 ^ k : Int) : ℚ) / 2 ^ 53 := by
      rw [hk, zpow_add₀ (by norm_num : (2 : ℚ) ≠ 0), zpow_natCast]
      push_cast
      norm_num
      ring
    rw [e] at h1 ⊢
    have hlt : ((m * 2 ^ k : Int) : ℚ) < 2 ^ 53 := by
      rw [div_lt_one (by positivity)] at h1; exact h1
    have hlt' : m * 2 ^ k < 2 ^ 53 := by exact_mod_cast hlt
    have hle : m * 2 ^ k ≤ 2 ^ 53 - 1 := by omega
    have hle' : ((m * 2 ^ k : Int) : ℚ) ≤ 2 ^ 53 - 1 := by exact_mod_cast hle
    rw [div_le_iff₀ (by positivity)]
    have : (1 - 1 / 2 ^ 53 : ℚ) * 2 ^ 53 = 2 ^ 53 - 1 := by norm_num
    rw [this]; exact hle'
  · have h2 : (2 : ℚ) ^ f ≤ 2 ^ (-54 : ℤ) := zpow_le_zpow_right₀ (by norm_num) (by omega)
    have h3 : (m : ℚ) * 2 ^ f ≤ 2 ^ 53 * 2 ^ (-54 : ℤ) := by
      rcases le_or_lt 0 (m : ℚ) with hm0 | hm0
      · exact mul_le_mul hm' h2 (two_zpow_pos f).le (by positivity)
      · have : (m : ℚ) * 2 ^ f ≤ 0 := by
          apply mul_nonpos_of_nonpos_of_nonneg hm0.le (two_zpow_pos f).le
        have : (0 : ℚ) ≤ 2 ^ 53 * 2 ^ (-54 : ℤ) := by positivity
        linarith
    have : (2 : ℚ) ^ 53 * 2 ^ (-54 : ℤ) = 1 / 2 := by
      rw [zpow_neg]; norm_num
    rw [this] at h3
    have : (1 : ℚ) / 2 ≤ 1 - 1 / 2 ^ 53 := by norm_num
    linarith

theorem exists_pow_window (N : ℕ) (h1 : 1 ≤ N) : ∃ c : ℕ, N ≤ 2 ^ c ∧ 2 ^ c < 2 * N := by
  rcases Nat.lt_or_ge 1 N with h | h
  · refine ⟨Nat.clog 2 N, Nat.le_pow_clog (by norm_num) N, ?_⟩
    have hlt := Nat.pow_pred_clog_lt_self (b := 2) (by norm_num) h
    have hpos : 0 < Nat.clog 2 N := Nat.clog_pos (by norm_num) (by omega)
    obtain ⟨k, hk⟩ : ∃ k, Nat.clog 2 N = k + 1 := ⟨Nat.clog 2 N - 1, by omega⟩
    rw [hk] at hlt ⊢
    simp only [Nat.pred_succ] at hlt
    rw [pow_succ]; omega
  · have : N = 1 := by omega
    subst this
    exact ⟨0, by norm_num, by norm_num⟩

/-- The rounding fact behind `randomInt`: for a binary64 number `r` in `[0, 1)`
and an integer `1 ≤ n ≤ 2 ^ 53`, the rounded product `r * n` is below `n`. -/
theorem fl_mul_lt (r : ℚ) (n : Int) (hr : Representable r) (h0 : 0 ≤ r) (h1 : r < 1)
    (hn1 : 1 ≤ n) (hn : n ≤ 2 ^ 53) : 0 ≤ fl (r * n) ∧ fl (r * n) < n := by
  have hnq1 : (1 : ℚ) ≤ n := by exact_mod_cast hn1
  constructor
  · exact le_fl_of_le _ 0 (by simpa using representable_int 0 (by norm_num))
      (mul_nonneg h0 (by linarith))
  · have hr1 := double_lt_one r hr h1
    obtain ⟨N, rfl⟩ : ∃ N : ℕ, n = N := ⟨n.toNat, (Int.toNat_of_nonneg (by omega)).symm⟩
    have hN1 : 1 ≤ N := by exact_mod_cast hn1
    have hN : N ≤ 2 ^ 53 := by exact_mod_cast hn
    obtain ⟨c, hc1, hc2⟩ := exists_pow_window N hN1
    have hc53 : c < 54 := by
      have : 2 ^ c < 2 ^ 54 := by omega
      exact (Nat.pow_lt_pow_iff_right (by norm_num)).mp this
    obtain ⟨d, hd⟩ : ∃ d : ℕ, c + d = 53 := ⟨53 - c, by omega⟩
    have hpowN : 2 ^ c * 2 ^ d = 2 ^ 53 := by rw [← pow_add, hd]
    have hpow : (2 : ℚ) ^ c * 2 ^ d = 2 ^ 53 := by exact_mod_cast hpowN
    have hdpos : (0 : ℚ) < 2 ^ d := by positivity
    have hc1q : (N : ℚ) ≤ 2 ^ c := by exact_mod_cast hc1
    have hc2q : (2 : ℚ) ^ c < 2 * N := by exact_mod_cast hc2
    simp only [Int.cast_natCast]
    -- the binary64 number just below `N`
    have hy : Representable ((N : ℚ) - 1 / 2 ^ d) := by
      refine ⟨(N : ℤ) * 2 ^ d - 1, -(d : ℤ), ?_, by omega, ?_⟩
      · have hle : N * 2 ^ d ≤ 2 ^ 53 := by
          calc N * 2 ^ d ≤ 2 ^ c * 2 ^ d := Nat.mul_le_mul_right _ hc1
            _ = 2 ^ 53 := hpowN
        have hge : 1 ≤ N * 2 ^ d := Nat.one_le_iff_ne_zero.mpr (by positivity)
        have hle' : (N : ℤ) * 2 ^ d ≤ 2 ^ 53 := by exact_mod_cast hle
        have hge' : (1 : ℤ) ≤ (N : ℤ) * 2 ^ d := by exact_mod_cast hge
        rw [abs_of_nonneg (by omega)]; omega
      · rw [zpow_neg, zpow_natCast]; push_cast; field_simp
    have hx : r * (N : ℚ) ≤ N - N / 2 ^ 53 := by
      have : r * (N : ℚ) ≤ (1 - 1 / 2 ^ 53) * N :=
        mul_le_mul_of_nonneg_right hr1 (by linarith)
      linarith [this]
    have hgap : (1 : ℚ) / 2 ^ d < 2 * (N / 2 ^ 53) := by
      rw [← hpow]
      rw [div_lt_iff₀ hdpos]
      have hcpos : (0 : ℚ) < 2 ^ c := by positivity
      have : 2 * ((N : ℚ) / (2 ^ c * 2 ^ d)) * 2 ^ d = 2 * N / 2 ^ c := by
        field_simp; ring
      rw [this, lt_div_iff₀ hcpos]
      linarith
    rcases le_or_lt (r * (N : ℚ)) ((N : ℚ) - 1 / 2 ^ d) with hle | hlt
    · have := fl_le_of_le _ _ hy hle
      have : (0 : ℚ) < 1 / 2 ^ d := by positivity
      linarith
    · have hnear := fl_nearest (r * (N : ℚ)) _ hy
      rw [abs_of_nonpos (by linarith : (N : ℚ) - 1 / 2 ^ d - r * N ≤ 0)] at hnear
      have := (abs_le.mp hnear).2
      linarith

/-! ## Evaluating the rounding -/

theorem ulpExp_eq (x : ℚ) (e : Int) (he : -1074 ≤ e) (h1 : (2 : ℚ) ^ (e + 52) ≤ |x|)
    (h2 : |x| < (2 : ℚ) ^ (e + 53)) : ulpExp x = e := by
  have hx : 0 < |x| := lt_of_lt_of_le (two_zpow_pos _) h1
  have hl : Int.log 2 |x| = e + 52 := by
    apply le_antisymm
    · have := (Int.lt_zpow_iff_log_lt (b := 2) (by norm_num) hx).mp
        (by simpa [add_assoc] using h2 : |x| < ((2 : ℕ) : ℚ) ^ (e + 52 + 1))
      omega
    · exact (Int.zpow_le_iff_le_log (b := 2) (by norm_num) hx).mp (by simpa using h1)
  unfold ulpExp
  rw [hl]
  have : e + 52 - 52 = e := by ring
  rw [this]
  exact max_eq_left he

theorem roundHalfEven_eq_of_near (t : ℚ) (n : Int) (h1 : (n : ℚ) - 1 / 2 < t)
    (h2 : t < n + 1 / 2) : roundHalfEven t = n := by
  have h := roundHalfEven_nearest t n
  have habs : |(n : ℚ) - t| < 1 / 2 := by
    rw [abs_lt]; constructor <;> linarith
  have h3 : |(roundHalfEven t : ℚ) - t| < 1 / 2 := lt_of_le_of_lt h habs
  have h4 := abs_lt.mp h3
  have h5 : ((roundHalfEven t : Int) : ℚ) < (n : ℚ) + 1 := by linarith [h4.2]
  have h6 : (n : ℚ) - 1 < ((roundHalfEven t : Int) : ℚ) := by linarith [h4.1]
  have h7 : roundHalfEven t < n + 1 := by exact_mod_cast h5
  have h8 : n - 1 < roundHalfEven t := by exact_mod_cast h6
  omega

theorem roundHalfEven_eq_of_tie (t : ℚ) (n : Int) (h : t = n + 1 / 2) :
    roundHalfEven t = if n % 2 = 0 then n else n + 1 := by
  have hf : Int.floor t = n := by
    rw [Int.floor_eq_iff]; constructor <;> linarith
  unfold roundHalfEven
  simp only [hf]
  have e : t - (n : ℚ) = 1 / 2 := by linarith
  rw [e]
  simp

/-- The value of `fl x` from the binade of `x` and the nearest integer to the
scaled `x`. -/
theorem fl_eq_of_near (x : ℚ) (e n : Int) (he : -1074 ≤ e) (h1 : (2 : ℚ) ^ (e + 52) ≤ |x|)
    (h2 : |x| < (2 : ℚ) ^ (e + 53)) (h3 : (n : ℚ) - 1 / 2 < x / 2 ^ e)
    (h4 : x / 2 ^ e < n + 1 / 2) : fl x = (n : ℚ) * 2 ^ e := by
  unfold fl
  rw [ulpExp_eq x e he h1 h2, roundHalfEven_eq_of_near _ n h3 h4]

/-- The value of `fl x` when the scaled `x` is half-way between two integers. -/
theorem fl_eq_of_tie (x : ℚ) (e n : Int) (he : -1074 ≤ e) (h1 : (2 : ℚ) ^ (e + 52) ≤ |x|)
    (h2 : |x| < (2 : ℚ) ^ (e + 53)) (h3 : x / 2 ^ e = n + 1 / 2) :
    fl x = ((if n % 2 = 0 then n else n + 1 : Int) : ℚ) * 2 ^ e := by
  unfold fl
  rw [ulpExp_eq x e he h1 h2, roundHalfEven_eq_of_tie _ n h3]

theorem fl_fourteen : fl (14 / 100) = 1261007895663739 / 9007199254740992 := by
  rw [fl_eq_of_near (14 / 100) (-55) 5044031582654956 (by norm_num) (by norm_num [abs_of_pos])
    (by norm_num [abs_of_pos]) (by norm_num) (by norm_num)]
  norm_num

theorem fl_sixtytwo : fl (62 / 100) = 5584463537939415 / 9007199254740992 := by
  rw [fl_eq_of_near (62 / 100) (-53) 5584463537939415 (by norm_num) (by norm_num [abs_of_pos])
    (by norm_num [abs_of_pos]) (by norm_num) (by norm_num)]
  norm_num

theorem fl_ninety : fl (90 / 100) = 8106479329266893 / 9007199254740992 := by
  rw [fl_eq_of_near (90 / 100) (-53) 8106479329266893 (by norm_num) (by norm_num [abs_of_pos])
    (by norm_num [abs_of_pos]) (by norm_num) (by norm_num)]
  norm_num

/-! ## JavaScript arithmetic on safe integers -/

theorem two_pow_53_lt : ((2 : ℚ) ^ 53) < 2 ^ 1024 := by
  apply pow_lt_pow_right₀ <;> norm_num

theorem Num.ofRat_of_representable (y : ℚ) (hy : Representable y) (hb : |y| < 2 ^ 1024) :
    Num.ofRat y = .fin y := by
  unfold Num.ofRat
  rw [fl_of_representable y hy, if_neg (not_le.mpr hb)]

theorem abs_cast_le (z : Int) (h : |z| ≤ 2 ^ 53) : |(z : ℚ)| ≤ 2 ^ 53 := by
  have : ((|z| : Int) : ℚ) ≤ ((2 ^ 53 : Int) : ℚ) := by exact_mod_cast h
  simpa using this

theorem Num.ofRat_int (z : Int) (h : |z| ≤ 2 ^ 53) : Num.ofRat (z : ℚ) = .fin (z : ℚ) :=
  Num.ofRat_of_representable _ (representable_int z h)
    (lt_of_le_of_lt (abs_cast_le z h) two_pow_53_lt)

theorem Num.add_int (a b : Int) (h : |a + b| ≤ 2 ^ 53) :
    Num.add (.fin a) (.fin b) = .fin ((a + b : Int) : ℚ) := by
  have := Num.ofRat_int (a + b) h
  simp only [Num.add]
  rw [← this]; push_cast; rfl

theorem Num.sub_int (a b : Int) (h : |a - b| ≤ 2 ^ 53) :
    Num.sub (.fin a) (.fin b) = .fin ((a - b : Int) : ℚ) := by
  have := Num.ofRat_int (a - b) h
  simp only [Num.sub, Num.neg, Num.add]
  rw [← this]; push_cast; ring_nf

theorem Num.mul_int (a b : Int) (h : |a * b| ≤ 2 ^ 53) :
    Num.mul (.fin a) (.fin b) = .fin ((a * b : Int) : ℚ) := by
  have := Num.ofRat_int (a * b) h
  simp only [Num.mul]
  rw [← this]; push_cast; rfl

theorem Num.lt_int (a b : Int) : Num.lt (.fin a) (.fin b) = decide (a < b) := by
  simp [Num.lt]

theorem Num.strictEq_int (a b : Int) : Num.strictEq (.fin a) (.fin b) = decide (a = b) := by
  simp [Num.strictEq]

theorem Num.abs_int (a : Int) : Num.abs (.fin a) = .fin ((|a| : Int) : ℚ) := by
  simp [Num.abs]

theorem Num.mathMax_int (a b : Int) :
    Num.mathMax (.fin a) (.fin b) = .fin ((max a b : Int) : ℚ) := by
  simp only [Num.mathMax, Num.lt_int]
  by_cases h : a < b
  · simp [h, max_eq_right (le_of_lt h)]
  · simp [h, max_eq_left (not_lt.mp h)]

theorem Num.mathMin_int (a b : Int) :
    Num.mathMin (.fin a) (.fin b) = .fin ((min a b : Int) : ℚ) := by
  simp only [Num.mathMin, Num.lt_int]
  by_cases h : b < a
  · simp [h, min_eq_right (le_of_lt h)]
  · simp [h, min_eq_left (not_lt.mp h)]

theorem Num.floor_int (a : Int) : Num.floor (.fin a) = .fin (a : ℚ) := by
  simp [Num.floor]

theorem Num.ceil_int (a : Int) : Num.ceil (.fin a) = .fin (a : ℚ) := by
  simp [Num.ceil]

/-! ## Round generator: lemmas -/

theorem pickIntervalSemitones_range (r : ℚ) :
    0 ≤ pickIntervalSemitones r ∧ pickIntervalSemitones r ≤ 3 := by
  unfold pickIntervalSemitones
  split_ifs <;> omega

/-- The rounding fact behind `randomInt`: a draw below `1` times the size of the
range rounds to a product below that size, so the result is at most `hi`. -/
theorem randomInt_range (r : ℚ) (lo hi : Int) (hb : lo ≤ hi) (hs : hi - lo < 2 ^ 53)
    (hr : IsDouble r) (h0 : 0 ≤ r) (h1 : r < 1) :
    lo ≤ randomInt r lo hi ∧ randomInt r lo hi ≤ hi := by
  unfold randomInt
  obtain ⟨hp0, hp1⟩ := fl_mul_lt r (hi - lo + 1) ((isDouble_iff r).mp hr) h0 h1
    (by omega) (by omega)
  have hfl0 : 0 ≤ Int.floor (fl (r * ((hi - lo + 1 : Int) : ℚ))) := Int.floor_nonneg.mpr hp0
  have hfl1 : Int.floor (fl (r * ((hi - lo + 1 : Int) : ℚ))) < hi - lo + 1 := by
    rw [Int.floor_lt]; exact hp1
  constructor <;> simp only [] <;> omega

theorem pickPairLoop_spec (rnd : Nat → ℚ) (lo hi a : Int) (hlo : lo ≤ a) (hhi : a ≤ hi) :
    ∀ (n tries pos runs : Nat), 30 - tries = n →
      (pickPairLoop rnd lo hi a tries pos runs).pair.a = a ∧
      lo ≤ (pickPairLoop rnd lo hi a tries pos runs).pair.b ∧
      (pickPairLoop rnd lo hi a tries pos runs).pair.b ≤ hi ∧
      |(pickPairLoop rnd lo hi a tries pos runs).pair.b - a| ≤ 3 := by
  intro n
  induction n with
  | zero =>
    intro tries pos runs hn
    have ht : ¬ tries < 30 := by omega
    rw [pickPairLoop]
    simp only [ht, if_false]
    refine ⟨trivial, ?_, ?_, ?_⟩
    · exact le_max_left _ _
    · exact max_le (by omega) (min_le_left _ _)
    · rw [abs_le]
      split_ifs <;> constructor <;> omega
  | succ n ih =>
    intro tries pos runs hn
    have ht : tries < 30 := by omega
    rw [pickPairLoop]
    simp only [ht, if_true]
    split_ifs
    all_goals first
      | exact ih (tries + 1) (pos + 2) (runs + 1) (by omega)
      | (simp only [not_or, not_lt, gt_iff_lt] at *
         refine ⟨?_, ?_, ?_, ?_⟩ <;> first | trivial | omega)

theorem pickPairLoop_runs (rnd : Nat → ℚ) (lo hi a : Int) :
    ∀ (n tries pos runs : Nat), 30 - tries = n →
      runs ≤ (pickPairLoop rnd lo hi a tries pos runs).bodyRuns ∧
      (pickPairLoop rnd lo hi a tries pos runs).bodyRuns ≤ runs + n ∧
      (pickPairLoop rnd lo hi a tries pos runs).pos ≤ pos + 2 * n + 1 ∧
      (0 < n → runs < (pickPairLoop rnd lo hi a tries pos runs).bodyRuns) := by
  intro n
  induction n with
  | zero =>
    intro tries pos runs hn
    have ht : ¬ tries < 30 := by omega
    rw [pickPairLoop]
    simp [ht]
  | succ n ih =>
    intro tries pos runs hn
    have ht : tries < 30 := by omega
    rw [pickPairLoop]
    simp only [ht, if_true]
    have h := ih (tries + 1) (pos + 2) (runs + 1) (by omega)
    split_ifs
    all_goals first
      | (refine ⟨?_, ?_, ?_, ?_⟩ <;> omega)
      | (simp only []; omega)

/-! ## Round generator: the integer version computes what binary64 computes -/

theorem randomInt_refines (r : ℚ) (lo hi : Int) (hb : lo ≤ hi) (hlo : -(2 ^ 52) < lo)
    (hhi : hi < 2 ^ 52) (hr : IsDouble r) (h0 : 0 ≤ r) (h1 : r < 1) :
    B64.randomInt (.fin r) (.fin lo) (.fin hi) = .fin (randomInt r lo hi : Int) := by
  obtain ⟨hp0, hp1⟩ := fl_mul_lt r (hi - lo + 1) ((isDouble_iff r).mp hr) h0 h1
    (by omega) (by omega)
  obtain ⟨hr0, hr1⟩ := randomInt_range r lo hi hb (by omega) hr h0 h1
  have hfl0 : 0 ≤ Int.floor (fl (r * ((hi - lo + 1 : Int) : ℚ))) := Int.floor_nonneg.mpr hp0
  have hfl1 : Int.floor (fl (r * ((hi - lo + 1 : Int) : ℚ))) < hi - lo + 1 := by
    rw [Int.floor_lt]; exact hp1
  have hn : ((hi - lo + 1 : Int) : ℚ) ≤ 2 ^ 53 := by
    have : hi - lo + 1 ≤ 2 ^ 53 := by omega
    exact_mod_cast this
  have hmul : Num.mul (.fin r) (.fin ((hi - lo + 1 : Int) : ℚ)) =
      .fin (fl (r * ((hi - lo + 1 : Int) : ℚ))) := by
    simp only [Num.mul, Num.ofRat]
    rw [if_neg]
    rw [not_le, abs_of_nonneg hp0]
    exact lt_trans (lt_of_lt_of_le hp1 hn) two_pow_53_lt
  have h1' : ((1 : Int) : ℚ) = 1 := by norm_num
  unfold B64.randomInt
  simp only [Num.ceil_int, Num.floor_int]
  rw [Num.sub_int hi lo (by rw [abs_le]; constructor <;> omega)]
  rw [← h1', Num.add_int (hi - lo) 1 (by rw [abs_le]; constructor <;> omega), hmul]
  simp only [Num.floor]
  rw [Num.add_int _ lo (by rw [abs_le]; constructor <;> omega)]
  rfl

theorem pickIntervalSemitones_refines (r : ℚ) :
    B64.pickIntervalSemitones (.fin r) = .fin (pickIntervalSemitones r : Int) := by
  unfold B64.pickIntervalSemitones pickIntervalSemitones
  simp only [Num.lt, decide_eq_true_eq]
  split_ifs <;> norm_num

/-- One pass through the loop body of `pickPair` computes the same candidate in
binary64 as over the integers. -/
theorem candidate_refines (a d : Int) (r : ℚ) (ha1 : -(2 ^ 52) < a) (ha2 : a < 2 ^ 52)
    (hd0 : 0 ≤ d) (hd3 : d ≤ 3) :
    (if Num.strictEq (.fin (d : ℚ)) (.fin 0) then Num.fin (a : ℚ)
      else Num.add (.fin a)
        (Num.mul (if Num.lt (.fin r) (.fin (1 / 2)) then .fin (-1) else .fin 1) (.fin d))) =
    .fin (((if d = 0 then a
      else a + ((if r < 1 / 2 then -1 else 1) * d) : Int)) : ℚ) := by
  have e0 : (0 : ℚ) = ((0 : Int) : ℚ) := by norm_num
  have em : (-1 : ℚ) = ((-1 : Int) : ℚ) := by norm_num
  have e1 : (1 : ℚ) = ((1 : Int) : ℚ) := by norm_num
  rw [e0, Num.strictEq_int]
  by_cases hd : d = 0
  · simp [hd]
  · simp only [hd, decide_False, Bool.false_eq_true, if_false, Num.lt, decide_eq_true_eq]
    by_cases hr : r < 1 / 2
    · simp only [hr, if_true]
      rw [em, Num.mul_int (-1) d (by rw [abs_le]; constructor <;> omega),
        Num.add_int a (-1 * d) (by rw [abs_le]; constructor <;> omega)]
    · simp only [hr, if_false]
      rw [e1, Num.mul_int 1 d (by rw [abs_le]; constructor <;> omega),
        Num.add_int a (1 * d) (by rw [abs_le]; constructor <;> omega)]

theorem pickPairLoop_refines (rnd : Nat → ℚ) (lo hi a : Int) (hlo : -(2 ^ 52) < lo)
    (hhi : hi < 2 ^ 52) (ha1 : lo ≤ a) (ha2 : a ≤ hi) :
    ∀ (n tries pos runs : Nat), 30 - tries = n →
      B64.pickPairLoop rnd (.fin lo) (.fin hi) (.fin a) tries pos runs =
        (pickPairLoop rnd lo hi a tries pos runs).toNum := by
  have e3 : (3 : ℚ) = ((3 : Int) : ℚ) := by norm_num
  have em : (-1 : ℚ) = ((-1 : Int) : ℚ) := by norm_num
  have e1 : (1 : ℚ) = ((1 : Int) : ℚ) := by norm_num
  intro n
  induction n with
  | zero =>
    intro tries pos runs hn
    have ht : ¬ tries < 30 := by omega
    rw [B64.pickPairLoop, pickPairLoop]
    simp only [ht, if_false, Num.lt, decide_eq_true_eq, PickRun.toNum, Pair.toNum]
    by_cases hr : rnd pos < 1 / 2
    · simp only [hr, if_true]
      rw [em, Num.add_int a (-1) (by rw [abs_le]; constructor <;> omega), Num.mathMin_int,
        Num.mathMax_int]
    · simp only [hr, if_false]
      rw [e1, Num.add_int a 1 (by rw [abs_le]; constructor <;> omega), Num.mathMin_int,
        Num.mathMax_int]
  | succ n ih =>
    intro tries pos runs hn
    have ht : tries < 30 := by omega
    obtain ⟨hd0, hd3⟩ := pickIntervalSemitones_range (rnd pos)
    rw [B64.pickPairLoop, pickPairLoop]
    simp only [ht, if_true, pickIntervalSemitones_refines]
    rw [candidate_refines a (pickIntervalSemitones (rnd pos)) (rnd (pos + 1)) (by omega)
      (by omega) hd0 hd3]
    generalize hbd : (if pickIntervalSemitones (rnd pos) = 0 then a
      else a + ((if rnd (pos + 1) < 1 / 2 then -1 else 1) *
        pickIntervalSemitones (rnd pos))) = b
    have hb : |b - a| ≤ 2 ^ 53 := by
      rw [← hbd, abs_le]
      split_ifs <;> constructor <;> omega
    rw [Num.sub_int b a hb, Num.abs_int, e3]
    simp only [Num.gt, Num.lt_int, Bool.or_eq_true, decide_eq_true_eq, gt_iff_lt]
    rw [ih (tries + 1) (pos + 2) (runs + 1) (by omega)]
    split_ifs <;> rfl

theorem pickPairRun_refines (rnd : Nat → ℚ) (lo hi : Int) (pos : Nat) (hb : lo ≤ hi)
    (hlo : -(2 ^ 52) < lo) (hhi : hi < 2 ^ 52) (hr : IsDouble (rnd pos))
    (h0 : 0 ≤ rnd pos) (h1 : rnd pos < 1) :
    B64.pickPairRun rnd (.fin lo) (.fin hi) pos = (pickPairRun rnd lo hi pos).toNum := by
  obtain ⟨ha1, ha2⟩ := randomInt_range (rnd pos) lo hi hb (by omega) hr h0 h1
  unfold B64.pickPairRun pickPairRun
  simp only [randomInt_refines (rnd pos) lo hi hb hlo hhi hr h0 h1]
  exact pickPairLoop_refines rnd lo hi _ hlo hhi ha1 ha2 30 0 (pos + 1) 0 rfl

theorem pickIntervalSemitones_half : pickIntervalSemitones (1 / 2) = 1 := by
  unfold pickIntervalSemitones
  rw [fl_fourteen, fl_sixtytwo]
  norm_num

theorem pickIntervalSemitones_quarter : pickIntervalSemitones (1 / 4) = 1 := by
  unfold pickIntervalSemitones
  rw [fl_fourteen, fl_sixtytwo]
  norm_num

theorem pickIntervalSemitones_zero : pickIntervalSemitones 0 = 0 := by
  unfold pickIntervalSemitones
  rw [fl_fourteen]
  norm_num

/-- With the first note at `Infinity` every candidate of the loop is
`Infinity`. -/
theorem candidate_infinite (d : Int) (r : ℚ) (hd0 : 0 ≤ d) (hd3 : d ≤ 3) :
    (if Num.strictEq (.fin (d : ℚ)) (.fin 0) then Num.inf false
      else Num.add (.inf false)
        (Num.mul (if Num.lt (.fin r) (.fin (1 / 2)) then .fin (-1) else .fin 1) (.fin d))) =
    .inf false := by
  have em : (-1 : ℚ) = ((-1 : Int) : ℚ) := by norm_num
  have e1 : (1 : ℚ) = ((1 : Int) : ℚ) := by norm_num
  split_ifs
  · rfl
  · rw [em, Num.mul_int (-1) d (by rw [abs_le]; constructor <;> omega)]; rfl
  · rw [e1, Num.mul_int 1 d (by rw [abs_le]; constructor <;> omega)]; rfl

/-- Once the first note is `Infinity`, every candidate is rejected as above
`pitchMax`, and the clamp fallback returns `pitchMax` for the second note. -/
theorem pickPairLoop_infinite (rnd : Nat → ℚ) (lo hi : ℚ) (h : lo < hi) :
    ∀ (n tries pos runs : Nat), 30 - tries = n → tries ≤ 30 →
      B64.pickPairLoop rnd (.fin lo) (.fin hi) (.inf false) tries pos runs =
        ⟨⟨.inf false, .fin hi⟩, pos + 2 * n + 1, runs + n, true⟩ := by
  have hmin : Num.mathMin (.fin hi) (.inf false) = .fin hi := by
    simp [Num.mathMin, Num.lt]
  have hmax : Num.mathMax (.fin lo) (.fin hi) = .fin hi := by
    simp [Num.mathMax, Num.lt, h]
  intro n
  induction n with
  | zero =>
    intro tries pos runs hn hle
    have ht : ¬ tries < 30 := by omega
    have hstep : Num.add (.inf false)
        (if Num.lt (.fin (rnd pos)) (.fin (1 / 2)) then .fin (-1) else .fin 1) = .inf false := by
      split_ifs <;> rfl
    rw [B64.pickPairLoop]
    simp only [ht, if_false, hstep, hmin, hmax]
    rfl
  | succ n ih =>
    intro tries pos runs hn hle
    have ht : tries < 30 := by omega
    obtain ⟨hd0, hd3⟩ := pickIntervalSemitones_range (rnd pos)
    have hgt : (Num.lt (.inf false) (.fin lo) || Num.gt (.inf false) (.fin hi)) = true := rfl
    rw [B64.pickPairLoop]
    simp only [ht, if_true, pickIntervalSemitones_refines]
    rw [candidate_infinite (pickIntervalSemitones (rnd pos)) (rnd (pos + 1)) hd0 hd3]
    rw [if_pos hgt, ih (tries + 1) (pos + 2) (runs + 1) (by omega) (by omega)]
    simp only [B64.PickRun.mk.injEq, and_true, true_and]
    constructor <;> omega

theorem ofRat_overflow : Num.ofRat (2 ^ 1023 + 2 ^ 1023) = .inf false := by
  have e : (2 ^ 1023 + 2 ^ 1023 : ℚ) = 2 ^ 1024 := by norm_num
  have hr : Representable ((2 : ℚ) ^ 1024) :=
    ⟨1, 1024, by norm_num, by norm_num, by norm_num⟩
  unfold Num.ofRat
  rw [e, fl_of_representable _ hr, if_pos (le_abs_self _)]
  norm_num

/-- On the bounds `-2^1023` and `2^1023` the size of the range overflows: every
positive draw makes `randomInt` return `Infinity`. -/
theorem randomInt_overflow (r : ℚ) (hr : 0 < r) :
    B64.randomInt (.fin r) (.fin (-(2 ^ 1023))) (.fin (2 ^ 1023)) = .inf false := by
  have e1 : (2 ^ 1023 : ℚ) = ((2 ^ 1023 : Int) : ℚ) := by norm_num
  have e2 : (-(2 ^ 1023) : ℚ) = ((-(2 ^ 1023) : Int) : ℚ) := by norm_num
  have h3 : Num.ceil (.fin (-(2 ^ 1023))) = .fin (-(2 ^ 1023)) := by
    rw [e2, Num.ceil_int]
  have h4 : Num.floor (.fin (2 ^ 1023)) = .fin (2 ^ 1023) := by
    rw [e1, Num.floor_int]
  have h5 : Num.sub (.fin (2 ^ 1023)) (.fin (-(2 ^ 1023))) = .inf false := by
    simp only [Num.sub, Num.neg, Num.add, neg_neg, ofRat_overflow]
  have h6 : Num.mul (.fin r) (.inf false) = .inf false := by
    simp only [Num.mul, if_neg (ne_of_gt hr)]
    simp [not_lt.mpr (le_of_lt hr)]
  unfold B64.randomInt
  simp only [h3, h4, h5]
  have h7 : Num.add (.inf false) (.fin 1) = .inf false := rfl
  rw [h7, h6]
  rfl

/-- The rounding of the product in `randomInt` is visible in the result: for the
binary64 draw `3117876665102651 / 2^52` on the range 48 to 60 the exact product
is just below 9 and rounds to 9, so the result is 57 (not 56). -/
theorem randomInt_rounds_up : randomInt (3117876665102651 / 2 ^ 52) 48 60 = 57 := by
  have h : fl ((3117876665102651 / 2 ^ 52 : ℚ) * ((60 - 48 + 1 : Int) : ℚ)) = 9 := by
    rw [fl_eq_of_near _ (-49) 5066549580791808 (by norm_num) (by norm_num [abs_of_pos])
      (by norm_num [abs_of_pos]) (by norm_num) (by norm_num)]
    norm_num
  unfold randomInt
  simp only [h]
  norm_num

/-- The thresholds of `pickIntervalSemitones` are the binary64 numbers: the draw
that equals the literal `0.62` is not below it and yields 2. -/
theorem pickIntervalSemitones_at_threshold : pickIntervalSemitones (fl (62 / 100)) = 2 := by
  unfold pickIntervalSemitones
  rw [fl_fourteen, fl_sixtytwo, fl_ninety]
  norm_num

/-! ## Score tracker: lemmas -/

theorem playPair_score (env : Env) (al : Bool) (g : Game) :
    (playPair env al g).score = g.score := by
  unfold playPair
  split_ifs <;> rfl

theorem startNewRound_score (env : Env) (ap : Bool) (g : Game) :
    (startNewRound env ap g).score = g.score := by
  unfold startNewRound
  split_ifs <;> rfl

theorem answer_of_not_accepts (c : String) (g : Game) (h : accepts g = false) :
    answer c g = g := by
  unfold answer
  rw [if_pos]
  revert h
  unfold accepts
  cases g.started <;> cases g.canAnswer <;> cases g.note1 <;> cases g.note2 <;> simp

theorem step_score_of_other (env : Env) (e : Event) (g : Game)
    (hs : isStart e = false) (ha : ∀ c, e = .answer c → accepts g = false) :
    (step env e g).score = g.score := by
  cases e with
  | clickBegin => simp [isStart] at hs
  | replay =>
    simp only [step, replay]
    split_ifs
    · rfl
    · rw [playPair_score]
  | answer c =>
    simp only [step, answer_of_not_accepts c g (ha c rfl)]
  | next =>
    simp only [step, goNext]
    split_ifs
    · rfl
    · rw [startNewRound_score]
  | rangeChange v =>
    simp only [step]
    split_ifs
    · rw [startNewRound_score]; rfl
    · rfl
  | resume t =>
    simp only [step]
    split_ifs
    · cases t with
      | beginResume => simp [isStart] at hs
      | frame => simp only [resumeTask, startNewRoundAfterFrame, playPair_score]
      | firstNote tk p al =>
        simp only [resumeTask, playPairAfterFirst]
        split_ifs <;> rfl
      | secondNote tk p al =>
        simp only [resumeTask, playPairAfterSecond]
        split_ifs <;> rfl
      | unlock tk =>
        simp only [resumeTask, unlockCallback]
        split_ifs <;> rfl
    · rfl

theorem answer_of_accepts (c : String) (g : Game) (h : accepts g = true) :
    answer c g =
      if c = expectedAnswer (g.note1.getD 0) (g.note2.getD 0) then
        { g with
          score := ⟨g.score.asked + 1, g.score.correct + 1, g.score.streak + 1,
            g.score.longestStored⟩
          canAnswer := false, awaitingNext := true }
      else
        { g with
          score := ⟨g.score.asked + 1, g.score.correct, 0,
            max g.score.longestStored g.score.streak⟩
          canAnswer := false, awaitingNext := true } := by
  simp only [accepts, Bool.and_eq_true] at h
  obtain ⟨⟨⟨h1, h2⟩, h3⟩, h4⟩ := h
  have h3' : g.note1.isNone = false := by
    cases hn : g.note1 <;> simp_all
  have h4' : g.note2.isNone = false := by
    cases hn : g.note2 <;> simp_all
  simp only [answer, h1, h2, h3', h4', Bool.not_true, Bool.or_false, Bool.false_eq_true,
    if_false, lockAfterAnswer, considerStreakForLongestOnFail, decide_eq_true_eq]
  split_ifs with hc hl
  · rfl
  · have : max g.score.longestStored g.score.streak = g.score.streak := by
      apply max_eq_right; omega
    rw [this]
  · have : max g.score.longestStored g.score.streak = g.score.longestStored := by
      apply max_eq_left; omega
    rw [this]

theorem tally_replicate_true (n : Nat) (s : Score) :
    tally (List.replicate n true) s =
      ⟨s.asked + n, s.correct + n, s.streak + n, s.longestStored⟩ := by
  induction n generalizing s with
  | zero => rfl
  | succ n ih =>
    rw [List.replicate_succ, tally, List.foldl_cons]
    have := ih (scoreAfter true s)
    rw [tally] at this
    rw [this]
    simp only [scoreAfter, if_true, Score.mk.injEq]
    refine ⟨?_, ?_, ?_, trivial⟩ <;> omega

theorem run_cons (env : Env) (e : Event) (es : List Event) (g : Game) :
    run env (e :: es) g = run env es (step env e g) := rfl

theorem answer_score (c : String) (g : Game) (h : accepts g = true) :
    (answer c g).score =
      scoreAfter (decide (c = expectedAnswer (g.note1.getD 0) (g.note2.getD 0))) g.score := by
  rw [answer_of_accepts c g h]
  unfold scoreAfter
  by_cases hc : c = expectedAnswer (g.note1.getD 0) (g.note2.getD 0) <;> simp [hc]

theorem answerLog_answer (env : Env) (c : String) (es : List Event) (g : Game) :
    answerLog env (.answer c :: es) g =
      (if accepts g then
        [decide (c = expectedAnswer (g.note1.getD 0) (g.note2.getD 0))]
       else []) ++ answerLog env es (answer c g) := rfl

theorem answerLog_other (env : Env) (e : Event) (es : List Event) (g : Game)
    (h : ∀ c, e ≠ .answer c) :
    answerLog env (e :: es) g = answerLog env es (step env e g) := by
  cases e with
  | answer c => exact absurd rfl (h c)
  | _ => rfl

theorem run_score (env : Env) (es : List Event) :
    ∀ g : Game, (∀ e ∈ es, isStart e = false) →
      (run env es g).score = tally (answerLog env es g) g.score := by
  induction es with
  | nil => intro g _; rfl
  | cons e es ih =>
    intro g hno
    have hno' : ∀ x ∈ es, isStart x = false := fun x hx => hno x (List.mem_cons_of_mem _ hx)
    have he : isStart e = false := hno e (List.mem_cons_self _ _)
    rw [run_cons, ih _ hno']
    by_cases hans : ∃ c, e = .answer c
    · obtain ⟨c, rfl⟩ := hans
      rw [answerLog_answer]
      cases ha : accepts g with
      | true =>
        simp only [if_true, step, tally, List.singleton_append, List.foldl_cons]
        rw [answer_score c g ha]
      | false =>
        simp only [step, answer_of_not_accepts c g ha, Bool.false_eq_true, if_false,
          List.nil_append]
    · have hne : ∀ c, e ≠ .answer c := fun c hc => hans ⟨c, hc⟩
      rw [answerLog_other env e es g hne,
        step_score_of_other env e g he (fun c hc => absurd hc (hne c))]

/-! ## Claims about the round generator -/

theorem computePitchBounds_lt (g : Game) :
    (computePitchBounds g).pitchMin < (computePitchBounds g).pitchMax := by
  simp only [computePitchBounds, currentMode, RANGES, List.lookup, pitchFromPcOct, expert4oct]
  cases (g.noteRange == "easy-1oct") <;> cases (g.noteRange == "med-2oct") <;>
    cases (g.noteRange == "hard-3oct") <;> cases (g.noteRange == "expert-4oct") <;> simp

theorem isDouble_quarter : IsDouble (1 / 4) :=
  (isDouble_iff _).mpr ⟨1, -2, by norm_num, by norm_num, by norm_num⟩

theorem isDouble_half : IsDouble (1 / 2) :=
  (isDouble_iff _).mpr ⟨1, -1, by norm_num, by norm_num, by norm_num⟩

theorem isDouble_zero : IsDouble 0 := fl_zero

/-- The draw `0.5` makes `randomInt` return the middle of the range. -/
theorem randomInt_half (lo hi : Int) (h : |hi - lo + 1| ≤ 2 ^ 53) :
    randomInt (1 / 2) lo hi = (hi - lo + 1) / 2 + lo := by
  have hr : Representable (((hi - lo + 1 : Int) : ℚ) / 2 ^ 1) :=
    representable_dyadic _ 1 (by norm_num) h
  have e : (1 / 2 : ℚ) * ((hi - lo + 1 : Int) : ℚ) = ((hi - lo + 1 : Int) : ℚ) / 2 ^ 1 := by
    ring
  have e2 : ((hi - lo + 1 : Int) : ℚ) / 2 ^ 1 = ((hi - lo + 1 : Int) : ℚ) / ((2 : ℕ) : ℚ) := by
    norm_num
  unfold randomInt
  simp only []
  rw [e, fl_of_representable _ hr, e2, Rat.floor_intCast_div_natCast]
  rfl

/-- The draw `0` makes `randomInt` return the lower bound. -/
theorem randomInt_zero (lo hi : Int) : randomInt 0 lo hi = lo := by
  unfold randomInt
  simp [fl_zero]

/-- On the constant stream `1/4` with the one-note range `[lo, lo]` every
attempt proposes `lo - 1`, so the loop runs out and the clamp fallback
answers. -/
theorem pickPairLoop_quarter (lo : Int) :
    ∀ (n tries pos runs : Nat), 30 - tries = n → tries ≤ 30 →
      pickPairLoop quarterStream lo lo lo tries pos runs =
        ⟨⟨lo, lo⟩, pos + 2 * n + 1, runs + n, true⟩ := by
  intro n
  induction n with
  | zero =>
    intro tries pos runs hn hle
    have ht : ¬ tries < 30 := by omega
    rw [pickPairLoop]
    simp only [ht, if_false, quarterStream]
    norm_num
  | succ n ih =>
    intro tries pos runs hn hle
    have ht : tries < 30 := by omega
    rw [pickPairLoop]
    have hd : pickIntervalSemitones (quarterStream pos) = 1 := pickIntervalSemitones_quarter
    have hdir : (if quarterStream (pos + 1) < 1 / 2 then (-1 : Int) else 1) = -1 := by
      norm_num [quarterStream]
    simp only [ht, if_true, hd, hdir]
    norm_num
    rw [ih (tries + 1) (pos + 2) (runs + 1) (by omega) (by omega)]
    simp only [PickRun.mk.injEq, and_true, true_and]
    constructor <;> omega

theorem pickPairRun_fallback_reached :
    pickPairRun quarterStream 48 48 0 = ⟨⟨48, 48⟩, 62, 30, true⟩ := by
  have hf : randomInt (quarterStream 0) 48 48 = 48 := by
    have := randomInt_range (quarterStream 0) 48 48 (le_refl _) (by norm_num)
      isDouble_quarter (by norm_num [quarterStream]) (by norm_num [quarterStream])
    omega
  unfold pickPairRun
  simp only [hf]
  rw [pickPairLoop_quarter 48 30 0 1 0 rfl (by omega)]

theorem pickPairRun_bounds (rnd : Nat → ℚ) (lo hi : Int) (p : Nat) (hle : lo ≤ hi)
    (hs : hi - lo < 2 ^ 53) (hr : IsDouble (rnd p)) (h0 : 0 ≤ rnd p) (h1 : rnd p < 1) :
    lo ≤ (pickPairRun rnd lo hi p).pair.a ∧ (pickPairRun rnd lo hi p).pair.a ≤ hi ∧
    lo ≤ (pickPairRun rnd lo hi p).pair.b ∧ (pickPairRun rnd lo hi p).pair.b ≤ hi ∧
    |(pickPairRun rnd lo hi p).pair.b - (pickPairRun rnd lo hi p).pair.a| ≤ 3 := by
  obtain ⟨ha1, ha2⟩ := randomInt_range (rnd p) lo hi hle hs hr h0 h1
  obtain ⟨e, h1, h2, h3⟩ :=
    pickPairLoop_spec rnd lo hi (randomInt (rnd p) lo hi) ha1 ha2 30 0 (p + 1) 0 rfl
  unfold pickPairRun
  simp only [e]
  exact ⟨ha1, ha2, h1, h2, h3⟩

/-- The bounds of the four modes are safe integers. -/
theorem computePitchBounds_safe (g : Game) :
    -(2 ^ 52) < (computePitchBounds g).pitchMin ∧ (computePitchBounds g).pitchMax < 2 ^ 52 := by
  simp only [computePitchBounds, currentMode, RANGES, List.lookup, pitchFromPcOct, expert4oct]
  cases (g.noteRange == "easy-1oct") <;> cases (g.noteRange == "med-2oct") <;>
    cases (g.noteRange == "hard-3oct") <;> cases (g.noteRange == "expert-4oct") <;> simp

/-- C1 (counterexample): the claim fails for integer bounds whose distance is
not a finite binary64 number.  With `pitchMin = -2^1023`, `pitchMax = 2^1023`
(both binary64 integers) and every draw of `Math.random()` equal to `0.5`, the
difference `b - a` in `randomInt` overflows to `Infinity`, the first note is
`Infinity`, all 30 attempts of the loop are rejected, and the clamp fallback
returns `{ a: Infinity, b: 2^1023 }`: the first note is above `pitchMax`. -/
theorem pickPair_first_note_infinite :
    Num.ofRat (2 ^ 1023) = .fin (2 ^ 1023) ∧
    (∀ i, IsDouble (halfStream i) ∧ 0 ≤ halfStream i ∧ halfStream i < 1) ∧
    B64.pickPairRun halfStream (.fin (-(2 ^ 1023))) (.fin (2 ^ 1023)) 0 =
      ⟨⟨.inf false, .fin (2 ^ 1023)⟩, 62, 30, true⟩ ∧
    Num.gt (B64.pickPairRun halfStream (.fin (-(2 ^ 1023))) (.fin (2 ^ 1023)) 0).pair.a
      (.fin (2 ^ 1023)) = true := by
  have hrun : B64.pickPairRun halfStream (.fin (-(2 ^ 1023))) (.fin (2 ^ 1023)) 0 =
      ⟨⟨.inf false, .fin (2 ^ 1023)⟩, 62, 30, true⟩ := by
    unfold B64.pickPairRun
    simp only [halfStream, randomInt_overflow (1 / 2) (by norm_num)]
    exact pickPairLoop_infinite (fun _ => 1 / 2) (-(2 ^ 1023)) (2 ^ 1023) (by norm_num)
      30 0 1 0 rfl (by omega)
  refine ⟨?_, ?_, hrun, ?_⟩
  · apply Num.ofRat_of_representable _ ⟨1, 1023, by norm_num, by norm_num, by norm_num⟩
    rw [abs_of_pos (by positivity)]
    exact pow_lt_pow_right₀ (by norm_num) (by norm_num)
  · intro i
    exact ⟨isDouble_half, by norm_num [halfStream], by norm_num [halfStream]⟩
  · rw [hrun]
    rfl

/-- C1 (amended): for integer bounds with `-2^52 < pitchMin ≤ pitchMax < 2^52`
(in particular the bounds of the four modes) and draws of `Math.random` that
are binary64 numbers in `[0, 1)`, `pickPair` computed in binary64 returns two
integers `a` and `b` with `pitchMin ≤ a, b ≤ pitchMax` and `|b - a| ≤ 3`, on
the loop path and on the fallback path, and they are the integers the integer
version `pickPairRun` returns; the same holds for `pickPair` of the game on the
bounds it computes for each of the four modes. -/
theorem pickPair_within_bounds (rnd : Nat → ℚ) (pitchMin pitchMax : Int) (pos : Nat)
    (hb : pitchMin ≤ pitchMax) (hlo : -(2 ^ 52) < pitchMin) (hhi : pitchMax < 2 ^ 52)
    (hr : ∀ i, IsDouble (rnd i) ∧ 0 ≤ rnd i ∧ rnd i < 1) :
    (∃ a b : Int,
      (B64.pickPairRun rnd (.fin pitchMin) (.fin pitchMax) pos).pair = ⟨.fin a, .fin b⟩ ∧
      (pickPairRun rnd pitchMin pitchMax pos).pair = ⟨a, b⟩ ∧
      pitchMin ≤ a ∧ a ≤ pitchMax ∧ pitchMin ≤ b ∧ b ≤ pitchMax ∧ |b - a| ≤ 3) ∧
    (∀ (env : Env) (g : Game) (key : String) (m : Mode),
      env.rnd = rnd → (key, m) ∈ RANGES → g.noteRange = key →
      (B64.pickPairRun rnd (.fin (pickPair env g).2.pitchMin)
        (.fin (pickPair env g).2.pitchMax) g.rngPos).pair = (pickPair env g).1.toNum ∧
      (pickPair env g).2.pitchMin ≤ (pickPair env g).1.a ∧
      (pickPair env g).1.a ≤ (pickPair env g).2.pitchMax ∧
      (pickPair env g).2.pitchMin ≤ (pickPair env g).1.b ∧
      (pickPair env g).1.b ≤ (pickPair env g).2.pitchMax ∧
      |(pickPair env g).1.b - (pickPair env g).1.a| ≤ 3) := by
  have key : ∀ (lo hi : Int) (p : Nat), lo ≤ hi → -(2 ^ 52) < lo → hi < 2 ^ 52 →
      B64.pickPairRun rnd (.fin lo) (.fin hi) p = (pickPairRun rnd lo hi p).toNum ∧
      lo ≤ (pickPairRun rnd lo hi p).pair.a ∧ (pickPairRun rnd lo hi p).pair.a ≤ hi ∧
      lo ≤ (pickPairRun rnd lo hi p).pair.b ∧ (pickPairRun rnd lo hi p).pair.b ≤ hi ∧
      |(pickPairRun rnd lo hi p).pair.b - (pickPairRun rnd lo hi p).pair.a| ≤ 3 := by
    intro lo hi p hle h1 h2
    exact ⟨pickPairRun_refines rnd lo hi p hle h1 h2 (hr p).1 (hr p).2.1 (hr p).2.2,
      pickPairRun_bounds rnd lo hi p hle (by omega) (hr p).1 (hr p).2.1 (hr p).2.2⟩
  constructor
  · obtain ⟨h1, h2⟩ := key pitchMin pitchMax pos hb hlo hhi
    exact ⟨(pickPairRun rnd pitchMin pitchMax pos).pair.a,
      (pickPairRun rnd pitchMin pitchMax pos).pair.b, by rw [h1]; rfl, rfl, h2⟩
  · intro env g k m he _ _
    subst he
    obtain ⟨h1, h2⟩ := key _ _ g.rngPos (le_of_lt (computePitchBounds_lt g))
      (computePitchBounds_safe g).1 (computePitchBounds_safe g).2
    refine ⟨?_, h2⟩
    simp only [pickPair]
    rw [h1]; rfl

theorem pickPair_within_bounds_witness :
    ((∃ a b : Int,
      (B64.pickPairRun quarterStream (.fin ((48 : Int) : ℚ)) (.fin ((48 : Int) : ℚ)) 0).pair =
        ⟨.fin a, .fin b⟩ ∧
      (pickPairRun quarterStream 48 48 0).pair = ⟨a, b⟩ ∧
      48 ≤ a ∧ a ≤ 48 ∧ 48 ≤ b ∧ b ≤ 48 ∧ |b - a| ≤ 3) ∧
    (∀ (env : Env) (g : Game) (key : String) (m : Mode),
      env.rnd = quarterStream → (key, m) ∈ RANGES → g.noteRange = key →
      (B64.pickPairRun quarterStream (.fin (pickPair env g).2.pitchMin)
        (.fin (pickPair env g).2.pitchMax) g.rngPos).pair = (pickPair env g).1.toNum ∧
      (pickPair env g).2.pitchMin ≤ (pickPair env g).1.a ∧
      (pickPair env g).1.a ≤ (pickPair env g).2.pitchMax ∧
      (pickPair env g).2.pitchMin ≤ (pickPair env g).1.b ∧
      (pickPair env g).1.b ≤ (pickPair env g).2.pitchMax ∧
      |(pickPair env g).1.b - (pickPair env g).1.a| ≤ 3)) ∧
    (pickPairRun quarterStream 48 48 0).fromFallback = true :=
  ⟨pickPair_within_bounds quarterStream 48 48 0 (le_refl _) (by norm_num) (by norm_num)
    (fun _ => ⟨isDouble_quarter, by norm_num [quarterStream], by norm_num [quarterStream]⟩),
   by rw [pickPairRun_fallback_reached]⟩

/-- C7: for all bounds, the one-note range `pitchMin = pitchMax` included, and
all random draws, `pickPair` returns after entering the body of its retry loop
at least once and at most 30 times, having read at most 62 random draws. -/
theorem pickPair_terminates (rnd : Nat → ℚ) (pitchMin pitchMax : Int) (pos : Nat) :
    1 ≤ (pickPairRun rnd pitchMin pitchMax pos).bodyRuns ∧
    (pickPairRun rnd pitchMin pitchMax pos).bodyRuns ≤ 30 ∧
    (pickPairRun rnd pitchMin pitchMax pos).pos ≤ pos + 62 ∧
    (pickPairRun rnd pitchMin pitchMin pos).bodyRuns ≤ 30 := by
  have key : ∀ (lo hi : Int),
      1 ≤ (pickPairRun rnd lo hi pos).bodyRuns ∧ (pickPairRun rnd lo hi pos).bodyRuns ≤ 30 ∧
      (pickPairRun rnd lo hi pos).pos ≤ pos + 62 := by
    intro lo hi
    obtain ⟨_, h2, h3, h4⟩ :=
      pickPairLoop_runs rnd lo hi (randomInt (rnd pos) lo hi) 30 0 (pos + 1) 0 rfl
    simp only [pickPairRun]
    have h5 := h4 (by omega)
    refine ⟨?_, ?_, ?_⟩ <;> omega
  exact ⟨(key pitchMin pitchMax).1, (key pitchMin pitchMax).2.1, (key pitchMin pitchMax).2.2,
    (key pitchMin pitchMin).2.1⟩

theorem currentMode_of_mem (key : String) (m : Mode) (hm : (key, m) ∈ RANGES)
    (g : Game) (hg : g.noteRange = key) : currentMode g = m := by
  simp only [RANGES, List.mem_cons, Prod.mk.injEq, List.mem_singleton, List.not_mem_nil,
    or_false] at hm
  rcases hm with ⟨rfl, rfl⟩ | ⟨rfl, rfl⟩ | ⟨rfl, rfl⟩ | ⟨rfl, rfl⟩ <;>
    simp [currentMode, RANGES, List.lookup, hg]

/-- C2: for each of the four entries of `RANGES`, when it is the selected
mode `computePitchBounds` yields `pitchMin < pitchMax`,
`pitchMax - pitchMin = 12 * octaves` and `pitchMin = 12 * startOctave`; for
`easy-1oct` the bounds are 48 and 60. -/
theorem computePitchBounds_modes (key : String) (m : Mode) (hm : (key, m) ∈ RANGES)
    (g : Game) (hg : g.noteRange = key) :
    currentMode g = m ∧
    (computePitchBounds g).pitchMin < (computePitchBounds g).pitchMax ∧
    (computePitchBounds g).pitchMax - (computePitchBounds g).pitchMin = 12 * m.octaves ∧
    (computePitchBounds g).pitchMin = 12 * m.startOctave ∧
    (key = "easy-1oct" →
      (computePitchBounds g).pitchMin = 48 ∧ (computePitchBounds g).pitchMax = 60) := by
  have hc := currentMode_of_mem key m hm g hg
  simp only [RANGES, List.mem_cons, Prod.mk.injEq, List.mem_singleton, List.not_mem_nil,
    or_false] at hm
  refine ⟨hc, ?_⟩
  simp only [computePitchBounds, hc, pitchFromPcOct]
  rcases hm with ⟨rfl, rfl⟩ | ⟨rfl, rfl⟩ | ⟨rfl, rfl⟩ | ⟨rfl, rfl⟩ <;>
    simp [expert4oct]

theorem computePitchBounds_modes_witness :
    currentMode (initial "easy-1oct") = ⟨"Easy (1 octave)", 4, 1, true⟩ ∧
    (computePitchBounds (initial "easy-1oct")).pitchMin <
      (computePitchBounds (initial "easy-1oct")).pitchMax ∧
    (computePitchBounds (initial "easy-1oct")).pitchMax -
      (computePitchBounds (initial "easy-1oct")).pitchMin = 12 * 1 ∧
    (computePitchBounds (initial "easy-1oct")).pitchMin = 12 * 4 ∧
    ("easy-1oct" = "easy-1oct" →
      (computePitchBounds (initial "easy-1oct")).pitchMin = 48 ∧
      (computePitchBounds (initial "easy-1oct")).pitchMax = 60) :=
  computePitchBounds_modes "easy-1oct" ⟨"Easy (1 octave)", 4, 1, true⟩
    (by simp [RANGES]) (initial "easy-1oct") rfl

/-- C3: `expectedAnswer(a, b)` is one of "same", "higher", "lower"; it is
"same" exactly when `b = a`, "higher" exactly when `b > a` and "lower" exactly
when `b < a`; `expectedAnswer(50, 50)` is "same". -/
theorem expectedAnswer_spec (a b : Int) :
    (expectedAnswer a b = "same" ∨ expectedAnswer a b = "higher" ∨
      expectedAnswer a b = "lower") ∧
    (expectedAnswer a b = "same" ↔ b = a) ∧
    (expectedAnswer a b = "higher" ↔ b > a) ∧
    (expectedAnswer a b = "lower" ↔ b < a) ∧
    expectedAnswer 50 50 = "same" := by
  unfold expectedAnswer
  refine ⟨?_, ?_, ?_, ?_, by decide⟩
  all_goals
    split_ifs with h1 h2
    all_goals simp
    all_goals omega

/-! ## Claims about the score tracker and the answer guard -/

theorem pickPairRun_half (pos : Nat) :
    pickPairRun halfStream 48 60 pos = ⟨⟨54, 55⟩, pos + 3, 1, false⟩ := by
  have hf : randomInt (1 / 2) 48 60 = 54 := by
    rw [randomInt_half 48 60 (by norm_num)]; norm_num
  unfold pickPairRun
  rw [pickPairLoop]
  simp only [halfStream, hf, pickIntervalSemitones_half]
  norm_num

theorem roundOne_eq :
    roundOne =
      { score := ⟨0, 0, 0, 0⟩, started := true, awaitingNext := false, canAnswer := true,
        pitchMin := 48, pitchMax := 60, note1 := some 54, note2 := some 55,
        lastPlayToken := 1, noteRange := "easy-1oct", rngPos := 3, pending := [] } := by
  simp [roundOne, firstRoundEvents, run, step, initial, computePitchBounds, currentMode,
    RANGES, List.lookup, pitchFromPcOct, beginGameAfterResume, startNewRound, pickPair,
    demoEnv, pickPairRun_half, resumeTask, startNewRoundAfterFrame, playPair,
    playPairAfterFirst, playPairAfterSecond, unlockCallback, playPitchWindowed, getStemForPc,
    pcFromPitch, PC_TO_STEM, Int.tmod]

theorem roundOne_log_two :
    answerLog demoEnv (.answer "higher" :: nextRoundEvents 2 ++ [.answer "higher"]) roundOne =
      [true, true] := by
  simp [roundOne_eq, nextRoundEvents, answerLog, accepts, expectedAnswer, answer,
    lockAfterAnswer, step, computePitchBounds, currentMode, RANGES, List.lookup, goNext,
    pitchFromPcOct, startNewRound, pickPair, demoEnv, pickPairRun_half, resumeTask,
    startNewRoundAfterFrame, playPair, playPairAfterFirst, playPairAfterSecond,
    unlockCallback, playPitchWindowed, getStemForPc, pcFromPitch, PC_TO_STEM, Int.tmod]

theorem roundOne_log_four :
    answerLog demoEnv
      (.answer "higher" :: nextRoundEvents 2 ++ .answer "higher" :: nextRoundEvents 3 ++
        .answer "higher" :: nextRoundEvents 4 ++ [.answer "same"]) roundOne =
      [true, true, true, false] := by
  simp [roundOne_eq, nextRoundEvents, answerLog, accepts, expectedAnswer, answer,
    lockAfterAnswer, step, computePitchBounds, currentMode, RANGES, List.lookup, goNext,
    pitchFromPcOct, startNewRound, pickPair, demoEnv, pickPairRun_half, resumeTask,
    startNewRoundAfterFrame, playPair, playPairAfterFirst, playPairAfterSecond,
    unlockCallback, playPitchWindowed, getStemForPc, pcFromPitch, PC_TO_STEM, Int.tmod]

/-- C4: in a session fragment without (re)start that begins with the reset
score and in which exactly `n` answers are accepted, all of them correct, the
score ends as `asked = correct = streak = n` and `longestStored = 0`; an
accepted correct answer never changes `longestStored`. -/
theorem correct_answers_score (env : Env) (es : List Event) (g : Game) (n : Nat)
    (h0 : g.score = ⟨0, 0, 0, 0⟩) (hno : ∀ e ∈ es, isStart e = false)
    (hlog : answerLog env es g = List.replicate n true) :
    (run env es g).score = ⟨n, n, n, 0⟩ ∧
    (∀ (c : String) (s : Game), accepts s = true →
      c = expectedAnswer (s.note1.getD 0) (s.note2.getD 0) →
      (answer c s).score = ⟨s.score.asked + 1, s.score.correct + 1, s.score.streak + 1,
        s.score.longestStored⟩) := by
  constructor
  · rw [run_score env es g hno, hlog, tally_replicate_true, h0]
    simp
  · intro c s hs hc
    rw [answer_of_accepts c s hs, if_pos hc]

theorem correct_answers_score_witness :
    roundOne.score = ⟨0, 0, 0, 0⟩ ∧
    (run demoEnv (.answer "higher" :: nextRoundEvents 2 ++ [.answer "higher"]) roundOne).score
      = ⟨2, 2, 2, 0⟩ :=
  ⟨by rw [roundOne_eq],
   (correct_answers_score demoEnv (.answer "higher" :: nextRoundEvents 2 ++ [.answer "higher"])
      roundOne 2 (by rw [roundOne_eq]) (by simp [nextRoundEvents, isStart])
      roundOne_log_two).1⟩

/-- C5: an accepted incorrect answer adds 1 to `asked`, keeps `correct`, sets
`streak` to 0 and sets `longestStored` to the maximum of its old value and the
old streak; three accepted correct answers followed by an accepted incorrect
one, from the reset score, give `asked = 4, correct = 3, streak = 0,
longestStored = 3`. -/
theorem incorrect_answer_score (choice : String) (g : Game) (hacc : accepts g = true)
    (hw : choice ≠ expectedAnswer (g.note1.getD 0) (g.note2.getD 0)) :
    (answer choice g).score =
      ⟨g.score.asked + 1, g.score.correct, 0, max g.score.longestStored g.score.streak⟩ ∧
    (∀ (env : Env) (es : List Event) (s : Game), s.score = ⟨0, 0, 0, 0⟩ →
      (∀ e ∈ es, isStart e = false) →
      answerLog env es s = [true, true, true, false] →
      (run env es s).score = ⟨4, 3, 0, 3⟩) := by
  constructor
  · rw [answer_of_accepts choice g hacc, if_neg hw]
  · intro env es s h0 hno hlog
    rw [run_score env es s hno, hlog, h0]
    rfl

theorem incorrect_answer_score_witness :
    accepts roundOne = true ∧
    (answer "same" roundOne).score =
      ⟨roundOne.score.asked + 1, roundOne.score.correct, 0,
        max roundOne.score.longestStored roundOne.score.streak⟩ ∧
    (run demoEnv
      (.answer "higher" :: nextRoundEvents 2 ++ .answer "higher" :: nextRoundEvents 3 ++
        .answer "higher" :: nextRoundEvents 4 ++ [.answer "same"]) roundOne).score =
      ⟨4, 3, 0, 3⟩ :=
  have h := incorrect_answer_score "same" roundOne (by rw [roundOne_eq]; rfl)
    (by rw [roundOne_eq]; decide)
  ⟨by rw [roundOne_eq]; rfl, h.1,
   h.2 demoEnv _ roundOne (by rw [roundOne_eq]) (by simp [nextRoundEvents, isStart])
     roundOne_log_four⟩

/-- C6: when the game is not started, answers are locked or a note is missing,
`answer(choice)` changes nothing at all; an accepted answer counts one
question, locks answers (`canAnswer = false`, `awaitingNext = true`) and a
directly following answer command is rejected. -/
theorem answer_only_while_awaited (choice : String) (g : Game) :
    ((g.started = false ∨ g.canAnswer = false ∨ g.note1 = none ∨ g.note2 = none) →
      answer choice g = g) ∧
    ((g.started = true ∧ g.canAnswer = true ∧ g.note1 ≠ none ∧ g.note2 ≠ none) →
      (answer choice g).score.asked = g.score.asked + 1 ∧
      (answer choice g).canAnswer = false ∧
      (answer choice g).awaitingNext = true ∧
      ∀ choice2 : String, answer choice2 (answer choice g) = answer choice g) := by
  constructor
  · intro h
    apply answer_of_not_accepts
    unfold accepts
    rcases h with h | h | h | h <;> simp [h]
  · rintro ⟨h1, h2, h3, h4⟩
    have hacc : accepts g = true := by
      unfold accepts
      cases hn1 : g.note1 with
      | none => exact absurd hn1 h3
      | some a =>
        cases hn2 : g.note2 with
        | none => exact absurd hn2 h4
        | some b => simp [h1, h2]
    have hca : (answer choice g).canAnswer = false := by
      rw [answer_of_accepts choice g hacc]; split_ifs <;> rfl
    refine ⟨?_, hca, ?_, ?_⟩
    · rw [answer_of_accepts choice g hacc]; split_ifs <;> rfl
    · rw [answer_of_accepts choice g hacc]; split_ifs <;> rfl
    · intro choice2
      apply answer_of_not_accepts
      unfold accepts
      simp [hca]

theorem answer_only_while_awaited_witness :
    answer "higher" (initial "easy-1oct") = initial "easy-1oct" ∧
    (answer "higher" roundOne).score.asked = roundOne.score.asked + 1 ∧
    (answer "higher" roundOne).canAnswer = false ∧
    (answer "higher" roundOne).awaitingNext = true ∧
    (∀ choice2 : String, answer choice2 (answer "higher" roundOne) = answer "higher" roundOne) :=
  ⟨(answer_only_while_awaited "higher" (initial "easy-1oct")).1 (Or.inl rfl),
   (answer_only_while_awaited "higher" roundOne).2
     (by rw [roundOne_eq]; exact ⟨rfl, rfl, by simp, by simp⟩)⟩

/-! ## Playback tokens: invariant -/

theorem TokenInv.weaken {p : List Task} {last : Nat} {ca ca2 : Bool}
    (h : TokenInv p last ca) (hc : ca2 = true → ca = true) : TokenInv p last ca2 :=
  ⟨h.1, h.2.1, fun h2 => h.2.2 (hc h2)⟩

theorem TokenInv.add_plain {p : List Task} {last : Nat} {ca : Bool}
    (h : TokenInv p last ca) (x : Task) (hx : taskToken x = none) :
    TokenInv (p ++ [x]) last ca := by
  refine ⟨?_, ?_, ?_⟩
  · intro task hm t ht
    rcases List.mem_append.mp hm with hm | hm
    · exact h.1 task hm t ht
    · rw [List.mem_singleton.mp hm, hx] at ht; cases ht
  · rw [List.filterMap_append]
    simpa [List.filterMap, hx] using h.2.1
  · intro hc task hm
    rcases List.mem_append.mp hm with hm | hm
    · exact h.2.2 hc task hm
    · rw [List.mem_singleton.mp hm, hx]; simp

theorem mem_filterMap_taskToken {p : List Task} {x : Task} {k : Nat}
    (hx : x ∈ p) (hk : taskToken x = some k) : k ∈ p.filterMap taskToken :=
  List.mem_filterMap.mpr ⟨x, hx, hk⟩

theorem TokenInv.add_fresh {p : List Task} {last : Nat} {ca : Bool}
    (h : TokenInv p last ca) (x : Task) (hx : taskToken x = some (last + 1)) :
    TokenInv (p ++ [x]) (last + 1) false := by
  refine ⟨?_, ?_, ?_⟩
  · intro task hm t ht
    rcases List.mem_append.mp hm with hm | hm
    · exact Nat.le_succ_of_le (h.1 task hm t ht)
    · rw [List.mem_singleton.mp hm, hx] at ht
      cases ht; exact le_refl _
  · rw [List.filterMap_append]
    have hs : [x].filterMap taskToken = [last + 1] := by simp [List.filterMap, hx]
    rw [hs, List.nodup_append]
    refine ⟨h.2.1, List.nodup_singleton _, ?_⟩
    intro a ha hb
    rw [List.mem_singleton] at hb
    obtain ⟨y, hy, hya⟩ := List.mem_filterMap.mp ha
    have := h.1 y hy a hya
    omega
  · intro hc; cases hc

theorem TokenInv.bump {p : List Task} {last : Nat} {ca : Bool}
    (h : TokenInv p last ca) : TokenInv p (last + 1) false :=
  ⟨fun task hm t ht => Nat.le_succ_of_le (h.1 task hm t ht), h.2.1, fun hc => by cases hc⟩

theorem erase_token_free (p : List Task) (x : Task) (k : Nat)
    (hnd : (p.filterMap taskToken).Nodup) (hx : x ∈ p) (hk : taskToken x = some k) :
    ∀ y ∈ p.erase x, taskToken y ≠ some k := by
  induction p with
  | nil => cases hx
  | cons a l ih =>
    intro y hy
    by_cases hax : a = x
    · subst hax
      rw [List.erase_cons_head] at hy
      rw [List.filterMap_cons_some hk, List.nodup_cons] at hnd
      intro hyk
      exact hnd.1 (mem_filterMap_taskToken hy hyk)
    · have hxl : x ∈ l := by
        rcases List.mem_cons.mp hx with h | h
        · exact absurd h.symm hax
        · exact h
      have hnl : (l.filterMap taskToken).Nodup := by
        cases hta : taskToken a with
        | none => rw [List.filterMap_cons_none hta] at hnd; exact hnd
        | some j => rw [List.filterMap_cons_some hta, List.nodup_cons] at hnd; exact hnd.2
      rw [List.erase_cons_tail (by simpa using hax)] at hy
      rcases List.mem_cons.mp hy with h | h
      · subst h
        intro hyk
        rw [List.filterMap_cons_some hyk, List.nodup_cons] at hnd
        exact hnd.1 (mem_filterMap_taskToken hxl hk)
      · exact ih hnl hxl y h

theorem TokenInv.erase {p : List Task} {last : Nat} {ca : Bool}
    (h : TokenInv p last ca) (x : Task) : TokenInv (p.erase x) last ca :=
  ⟨fun task hm t ht => h.1 task (List.mem_of_mem_erase hm) t ht,
   h.2.1.sublist ((List.erase_sublist x p).filterMap taskToken),
   fun hc task hm => h.2.2 hc task (List.mem_of_mem_erase hm)⟩

theorem TokenInv.add_same {p : List Task} {last : Nat} {ca : Bool} (x y : Task)
    (h : TokenInv p last ca) (hx : x ∈ p) (hxt : taskToken x = some last)
    (hy : taskToken y = some last) :
    TokenInv (p.erase x ++ [y]) last ca := by
  have hca : ca = false := by
    cases ca with
    | false => rfl
    | true => exact absurd hxt (h.2.2 rfl x hx)
  subst hca
  have hfree := erase_token_free p x last h.2.1 hx hxt
  refine ⟨?_, ?_, fun hc => by cases hc⟩
  · intro task hm t ht
    rcases List.mem_append.mp hm with hm | hm
    · exact h.1 task (List.mem_of_mem_erase hm) t ht
    · rw [List.mem_singleton.mp hm, hy] at ht
      cases ht; exact le_refl _
  · rw [List.filterMap_append]
    have hs : [y].filterMap taskToken = [last] := by simp [List.filterMap, hy]
    rw [hs, List.nodup_append]
    refine ⟨(h.erase x).2.1, List.nodup_singleton _, ?_⟩
    intro a ha hb
    rw [List.mem_singleton] at hb
    subst hb
    obtain ⟨z, hz, hza⟩ := List.mem_filterMap.mp ha
    exact hfree z hz hza

theorem TokenInv.unlocked {p : List Task} {last : Nat} {ca : Bool} (x : Task)
    (h : TokenInv p last ca) (hx : x ∈ p) (hxt : taskToken x = some last) :
    TokenInv (p.erase x) last true :=
  ⟨(h.erase x).1, (h.erase x).2.1, fun _ => erase_token_free p x last h.2.1 hx hxt⟩

theorem playPair_tokensOk (env : Env) (al : Bool) (g : Game) (h : TokensOk g) :
    TokensOk (playPair env al g) := by
  unfold playPair
  split_ifs
  · exact h
  · exact TokenInv.bump h
  · exact TokenInv.add_fresh h _ rfl

theorem startNewRound_tokensOk (env : Env) (ap : Bool) (g : Game) (h : TokensOk g) :
    TokensOk (startNewRound env ap g) := by
  unfold startNewRound
  split_ifs
  · exact h
  · exact TokenInv.add_plain (TokenInv.weaken h (fun hc => by cases hc)) _ rfl
  · exact TokenInv.weaken h (fun hc => by cases hc)

theorem answer_tokensOk (c : String) (g : Game) (h : TokensOk g) : TokensOk (answer c g) := by
  cases ha : accepts g with
  | false => rw [answer_of_not_accepts c g ha]; exact h
  | true =>
    rw [answer_of_accepts c g ha]
    split_ifs <;> exact TokenInv.weaken h (fun hc => by cases hc)

theorem resumeTask_tokensOk (env : Env) (t : Task) (g : Game) (h : TokensOk g)
    (ht : t ∈ g.pending) :
    TokensOk (resumeTask env t { g with pending := g.pending.erase t }) := by
  have he : TokensOk { g with pending := g.pending.erase t } := TokenInv.erase h t
  cases t with
  | beginResume =>
    exact startNewRound_tokensOk env true _ he
  | frame =>
    exact playPair_tokensOk env true _ he
  | firstNote tk p al =>
    simp only [resumeTask, playPairAfterFirst]
    split_ifs with hc
    · exact he
    · have htk : tk = g.lastPlayToken := by
        have := hc; simp at this; exact this.2
      subst htk
      exact TokenInv.add_same _ _ h ht rfl rfl
  | secondNote tk p al =>
    simp only [resumeTask, playPairAfterSecond]
    split_ifs with hc hal
    · exact he
    · have htk : tk = g.lastPlayToken := by
        have := hc; simp at this; exact this.2
      subst htk
      exact TokenInv.add_same _ _ h ht rfl rfl
    · exact he
  | unlock tk =>
    simp only [resumeTask, unlockCallback]
    split_ifs with hc
    · exact he
    · have htk : tk = g.lastPlayToken := by simpa using hc
      subst htk
      exact TokenInv.unlocked _ h ht rfl

theorem step_tokensOk (env : Env) (e : Event) (g : Game) (h : TokensOk g) :
    TokensOk (step env e g) := by
  cases e with
  | clickBegin =>
    simp only [step]
    split_ifs
    · exact TokenInv.add_plain h _ rfl
    · exact startNewRound_tokensOk env true _ (TokenInv.weaken h (fun hc => by cases hc))
  | replay =>
    simp only [step, replay]
    split_ifs
    · exact h
    · exact playPair_tokensOk env true _ h
  | answer c => exact answer_tokensOk c g h
  | next =>
    simp only [step, goNext]
    split_ifs
    · exact h
    · exact startNewRound_tokensOk env true _ h
  | rangeChange v =>
    simp only [step]
    split_ifs
    · exact startNewRound_tokensOk env true _ h
    · exact h
  | resume t =>
    simp only [step]
    split_ifs with ht
    · exact resumeTask_tokensOk env t g h ht
    · exact h

theorem run_tokensOk (env : Env) (es : List Event) :
    ∀ g : Game, TokensOk g → TokensOk (run env es g) := by
  induction es with
  | nil => intro g h; exact h
  | cons e es ih => intro g h; exact ih _ (step_tokensOk env e g h)

theorem initial_tokensOk (sel : String) : TokensOk (initial sel) := by
  unfold TokensOk TokenInv
  simp [initial, computePitchBounds]

theorem reachable_tokensOk (env : Env) (g : Game) (h : Reachable env g) : TokensOk g := by
  obtain ⟨sel, es, rfl⟩ := h
  exact run_tokensOk env es _ (initial_tokensOk sel)

/-! ## Playback tokens: effect of one event -/

theorem step_lastPlayToken_le (env : Env) (e : Event) (g : Game) :
    g.lastPlayToken ≤ (step env e g).lastPlayToken := by
  cases e with
  | resume t =>
    cases t <;>
      simp only [step, resumeTask, beginGameAfterResume, startNewRoundAfterFrame, startNewRound,
        pickPair, computePitchBounds, playPair, playPairAfterFirst, playPairAfterSecond,
        unlockCallback] <;>
      split_ifs <;> simp
  | _ =>
    simp only [step, replay, answer, goNext, restartGame, startNewRound, pickPair,
      computePitchBounds, playPair, lockAfterAnswer, considerStreakForLongestOnFail]
    split_ifs <;> simp

theorem run_lastPlayToken_le (env : Env) (es : List Event) :
    ∀ g : Game, g.lastPlayToken ≤ (run env es g).lastPlayToken := by
  induction es with
  | nil => intro g; exact le_refl _
  | cons e es ih =>
    intro g
    exact le_trans (step_lastPlayToken_le env e g) (ih _)

theorem canAnswer_rises_only_by_unlock (env : Env) (e : Event) (g : Game)
    (h0 : g.canAnswer = false) (h1 : (step env e g).canAnswer = true) :
    ∃ token, e = .resume (.unlock token) ∧ token = g.lastPlayToken ∧
      Task.unlock token ∈ g.pending := by
  cases e with
  | resume t =>
    cases t with
    | unlock tk =>
      refine ⟨tk, rfl, ?_⟩
      revert h1
      simp only [step, resumeTask, unlockCallback]
      split_ifs with hm hc
      · simp [h0]
      · intro _
        exact ⟨by simpa using hc, hm⟩
      · simp [h0]
    | _ =>
      exfalso
      revert h1
      simp only [step, resumeTask, beginGameAfterResume, startNewRoundAfterFrame, startNewRound,
        pickPair, computePitchBounds, playPair, playPairAfterFirst, playPairAfterSecond]
      split_ifs <;> simp [h0]
  | _ =>
    exfalso
    revert h1
    simp only [step, replay, answer, goNext, restartGame, startNewRound, pickPair,
      computePitchBounds, playPair, lockAfterAnswer, considerStreakForLongestOnFail]
    split_ifs <;> simp [h0]

theorem step_pending_origin (env : Env) (e : Event) (g : Game) (x : Task)
    (hx : x ∈ (step env e g).pending) :
    x ∈ g.pending ∨ taskToken x = none ∨ taskToken x = some (g.lastPlayToken + 1) ∨
      ∃ y, e = .resume y ∧ y ∈ g.pending ∧ taskToken x = taskToken y ∧
        taskToken y = some g.lastPlayToken := by
  cases e with
  | resume t =>
    revert hx
    cases t <;>
      simp only [step, resumeTask, beginGameAfterResume, startNewRoundAfterFrame, startNewRound,
        pickPair, computePitchBounds, playPair, playPairAfterFirst, playPairAfterSecond,
        unlockCallback] <;>
      split_ifs <;>
      (try simp only [List.mem_append, List.mem_singleton]) <;>
      intro hx <;>
      first
        | exact Or.inl hx
        | exact Or.inl (List.mem_of_mem_erase hx)
        | (rcases hx with hx | hx
           · exact Or.inl (List.mem_of_mem_erase hx)
           · subst hx
             first
               | exact Or.inr (Or.inl rfl)
               | exact Or.inr (Or.inr (Or.inl rfl))
               | (refine Or.inr (Or.inr (Or.inr ⟨_, rfl, ‹_›, rfl, ?_⟩))
                  simp_all [taskToken]))
  | _ =>
    revert hx
    simp only [step, replay, answer, goNext, restartGame, startNewRound, pickPair,
      computePitchBounds, playPair, lockAfterAnswer, considerStreakForLongestOnFail]
    split_ifs <;>
    (try simp only [List.mem_append, List.mem_singleton]) <;>
    intro hx <;>
    first
      | exact Or.inl hx
      | (rcases hx with hx | hx
         · exact Or.inl hx
         · subst hx
           first
             | exact Or.inr (Or.inl rfl)
             | exact Or.inr (Or.inr (Or.inl rfl)))

/-! ## Claims about the playback sequencer -/

theorem pickPairRun_half_med (pos : Nat) :
    pickPairRun halfStream 36 60 pos = ⟨⟨48, 49⟩, pos + 3, 1, false⟩ := by
  have hf : randomInt (1 / 2) 36 60 = 48 := by
    rw [randomInt_half 36 60 (by norm_num)]; norm_num
  unfold pickPairRun
  rw [pickPairLoop]
  simp only [halfStream, hf, pickIntervalSemitones_half]
  norm_num

theorem pickPairRun_zeroThenHalf_first :
    pickPairRun zeroThenHalf 36 60 0 = ⟨⟨36, 36⟩, 3, 1, false⟩ := by
  have h0 : zeroThenHalf 0 = 0 := by norm_num [zeroThenHalf]
  have h1 : zeroThenHalf (0 + 1) = 0 := by norm_num [zeroThenHalf]
  have h2 : zeroThenHalf (0 + 1 + 1) = 0 := by norm_num [zeroThenHalf]
  unfold pickPairRun
  rw [pickPairLoop]
  simp only [h0, h1, h2, randomInt_zero, pickIntervalSemitones_zero]
  norm_num

theorem pickPairRun_zeroThenHalf_second :
    pickPairRun zeroThenHalf 48 60 3 = ⟨⟨54, 55⟩, 6, 1, false⟩ := by
  have hf : randomInt (1 / 2) 48 60 = 54 := by
    rw [randomInt_half 48 60 (by norm_num)]; norm_num
  have h0 : zeroThenHalf 3 = 1 / 2 := by norm_num [zeroThenHalf]
  have h1 : zeroThenHalf (3 + 1) = 1 / 2 := by norm_num [zeroThenHalf]
  have h2 : zeroThenHalf (3 + 1 + 1) = 1 / 2 := by norm_num [zeroThenHalf]
  unfold pickPairRun
  rw [pickPairLoop]
  simp only [h0, h1, h2, hf, pickIntervalSemitones_half]
  norm_num

theorem supersededState_eq :
    supersededState =
      { score := ⟨0, 0, 0, 0⟩, started := true, awaitingNext := false, canAnswer := true,
        pitchMin := 48, pitchMax := 60, note1 := some 54, note2 := some 55,
        lastPlayToken := 2, noteRange := "easy-1oct", rngPos := 6,
        pending := [Task.firstNote 1 36 true] } := by
  simp [supersededState, supersededEvents, run, step, initial, computePitchBounds,
    currentMode, RANGES, List.lookup, pitchFromPcOct, beginGameAfterResume, startNewRound,
    pickPair, missingC3Env, pickPairRun_zeroThenHalf_first, pickPairRun_zeroThenHalf_second,
    resumeTask, startNewRoundAfterFrame, playPair, playPairAfterFirst, playPairAfterSecond,
    unlockCallback, playPitchWindowed, getStemForPc, pcFromPitch, PC_TO_STEM, Int.tmod]

theorem newRoundState_eq :
    newRoundState =
      { score := ⟨0, 0, 0, 0⟩, started := true, awaitingNext := false, canAnswer := false,
        pitchMin := 36, pitchMax := 60, note1 := some 48, note2 := some 49,
        lastPlayToken := 1, noteRange := "med-2oct", rngPos := 6,
        pending := [Task.unlock 1, Task.frame] } := by
  simp [newRoundState, newRoundEvents, run, step, initial, computePitchBounds,
    currentMode, RANGES, List.lookup, pitchFromPcOct, beginGameAfterResume, startNewRound,
    pickPair, demoEnv, pickPairRun_half, pickPairRun_half_med,
    resumeTask, startNewRoundAfterFrame, playPair, playPairAfterFirst, playPairAfterSecond,
    unlockCallback, playPitchWindowed, getStemForPc, pcFromPitch, PC_TO_STEM, Int.tmod]

theorem missingFirstState_eq :
    missingFirstState =
      { score := ⟨0, 0, 0, 0⟩, started := true, awaitingNext := false, canAnswer := false,
        pitchMin := 36, pitchMax := 60, note1 := some 36, note2 := some 36,
        lastPlayToken := 1, noteRange := "med-2oct", rngPos := 3,
        pending := [Task.firstNote 1 36 true] } := by
  simp [missingFirstState, run, step, initial, computePitchBounds,
    currentMode, RANGES, List.lookup, pitchFromPcOct, beginGameAfterResume, startNewRound,
    pickPair, missingC3Env, pickPairRun_zeroThenHalf_first,
    resumeTask, startNewRoundAfterFrame, playPair]

/-- Once no pending continuation carries the handed-out token `t`, none ever
will. -/
theorem token_dead_run (env : Env) (t : Nat) (es : List Event) :
    ∀ g : Game, t ≤ g.lastPlayToken → (∀ x ∈ g.pending, taskToken x ≠ some t) →
      ∀ x ∈ (run env es g).pending, taskToken x ≠ some t := by
  induction es with
  | nil => intro g _ h; exact h
  | cons e es ih =>
    intro g hle h
    apply ih (step env e g) (le_trans hle (step_lastPlayToken_le env e g))
    intro x hx
    rcases step_pending_origin env e g x hx with h1 | h1 | h1 | ⟨y, _, hy, hxy, _⟩
    · exact h x h1
    · rw [h1]; simp
    · rw [h1]; intro h2; cases h2; omega
    · rw [hxy]; exact h y hy

/-- C8 (as amended): in a reachable state, when the sample awaited by a
`playPair` call (first or second note) fails to load, the call returns having
changed nothing: no second note is requested, no unlock timer is scheduled, no
continuation of that call exists afterwards or ever again, and `canAnswer` is
false on return whenever the call's token is still the current one. -/
theorem load_failure_aborts (env : Env) (g : Game) (hr : Reachable env g)
    (token : Nat) (pitch : Int) (al : Bool) (t : Task)
    (ht : t = .firstNote token pitch al ∨ t = .secondNote token pitch al)
    (hp : t ∈ g.pending) (hfail : playPitchWindowed env pitch = false) :
    step env (.resume t) g = { g with pending := g.pending.erase t } ∧
    (token = g.lastPlayToken → (step env (.resume t) g).canAnswer = false) ∧
    (∀ (es : List Event) (x : Task),
      x ∈ (run env es (step env (.resume t) g)).pending → taskToken x ≠ some token) := by
  have hinv := reachable_tokensOk env g hr
  have htok : taskToken t = some token := by
    rcases ht with rfl | rfl <;> rfl
  have hstep : step env (.resume t) g = { g with pending := g.pending.erase t } := by
    rcases ht with rfl | rfl
    · simp [step, hp, resumeTask, playPairAfterFirst, hfail]
    · simp [step, hp, resumeTask, playPairAfterSecond, hfail]
  refine ⟨hstep, ?_, ?_⟩
  · intro hcur
    rw [hstep]
    show g.canAnswer = false
    cases hca : g.canAnswer with
    | false => rfl
    | true => exact absurd (hcur ▸ htok) (hinv.2.2 hca t hp)
  · intro es x hx
    rw [hstep] at hx
    exact token_dead_run env token es { g with pending := g.pending.erase t }
      (hinv.1 t hp token htok)
      (erase_token_free g.pending t token hinv.2.1 hp htok) x hx

theorem load_failure_aborts_witness :
    Reachable missingC3Env missingFirstState ∧
    Task.firstNote 1 36 true ∈ missingFirstState.pending ∧
    playPitchWindowed missingC3Env 36 = false ∧
    step missingC3Env (.resume (.firstNote 1 36 true)) missingFirstState =
      { missingFirstState with
        pending := missingFirstState.pending.erase (.firstNote 1 36 true) } ∧
    (1 = missingFirstState.lastPlayToken →
      (step missingC3Env (.resume (.firstNote 1 36 true)) missingFirstState).canAnswer
        = false) ∧
    (∀ (es : List Event) (x : Task),
      x ∈ (run missingC3Env es
        (step missingC3Env (.resume (.firstNote 1 36 true)) missingFirstState)).pending →
      taskToken x ≠ some 1) :=
  have hr : Reachable missingC3Env missingFirstState := ⟨"med-2oct", _, rfl⟩
  have hp : Task.firstNote 1 36 true ∈ missingFirstState.pending := by
    rw [missingFirstState_eq]; simp
  have hf : playPitchWindowed missingC3Env 36 = false := by
    simp [playPitchWindowed, getStemForPc, pcFromPitch, PC_TO_STEM, Int.tmod, missingC3Env]
  ⟨hr, hp, hf,
    load_failure_aborts missingC3Env missingFirstState hr 1 36 true _ (Or.inl rfl) hp hf⟩

/-- C8 (counterexample): the `playPair` call with token 1 waits for the sample
of pitch 36, which cannot be loaded; a later call (token 2) has played and
unlocked its round in the meantime.  When the load fails the first call
returns, and `canAnswer` is true at that moment. -/
theorem load_failure_returns_unlocked :
    Reachable missingC3Env supersededState ∧
    Task.firstNote 1 36 true ∈ supersededState.pending ∧
    playPitchWindowed missingC3Env 36 = false ∧
    (step missingC3Env (.resume (.firstNote 1 36 true)) supersededState).pending = [] ∧
    (step missingC3Env (.resume (.firstNote 1 36 true)) supersededState).canAnswer = true := by
  refine ⟨⟨"med-2oct", _, rfl⟩, ?_, ?_, ?_, ?_⟩
  · rw [supersededState_eq]; simp
  · simp [playPitchWindowed, getStemForPc, pcFromPitch, PC_TO_STEM, Int.tmod, missingC3Env]
  · rw [supersededState_eq]
    simp [step, resumeTask, playPairAfterFirst, playPitchWindowed, getStemForPc, pcFromPitch,
      PC_TO_STEM, Int.tmod, missingC3Env]
  · rw [supersededState_eq]
    simp [step, resumeTask, playPairAfterFirst, playPitchWindowed, getStemForPc, pcFromPitch,
      PC_TO_STEM, Int.tmod, missingC3Env]

theorem unlock_scheduled_only_after_second (env : Env) (e : Event) (g : Game) (token : Nat)
    (hn : Task.unlock token ∉ g.pending)
    (hin : Task.unlock token ∈ (step env e g).pending) :
    ∃ pitch, e = .resume (.secondNote token pitch true) ∧
      Task.secondNote token pitch true ∈ g.pending ∧
      playPitchWindowed env pitch = true ∧ token = g.lastPlayToken := by
  cases e with
  | resume t =>
    cases t with
    | secondNote tk p al =>
      revert hin
      simp only [step, resumeTask, playPairAfterSecond]
      split_ifs with hm hc hal
      · intro hin; exact absurd (List.mem_of_mem_erase hin) hn
      · simp only [List.mem_append, List.mem_singleton, Task.unlock.injEq]
        rintro (hin | hin)
        · exact absurd (List.mem_of_mem_erase hin) hn
        · subst hin
          subst hal
          have := hc
          simp at this
          exact ⟨p, rfl, hm, this.1, this.2⟩
      · intro hin; exact absurd (List.mem_of_mem_erase hin) hn
      · intro hin; exact absurd hin hn
    | _ =>
      exfalso
      revert hin
      simp only [step, resumeTask, beginGameAfterResume, startNewRoundAfterFrame, startNewRound,
        pickPair, computePitchBounds, playPair, playPairAfterFirst, unlockCallback]
      split_ifs <;>
      (try simp only [List.mem_append, List.mem_singleton, reduceCtorEq, or_false]) <;>
      intro hin <;>
      first
        | exact hn hin
        | exact hn (List.mem_of_mem_erase hin)
  | _ =>
    exfalso
    revert hin
    simp only [step, replay, answer, goNext, restartGame, startNewRound, pickPair,
      computePitchBounds, playPair, lockAfterAnswer, considerStreakForLongestOnFail]
    split_ifs <;>
    (try simp only [List.mem_append, List.mem_singleton, reduceCtorEq, or_false]) <;>
    intro hin <;>
    exact hn hin

theorem second_requested_only_after_first (env : Env) (e : Event) (g : Game) (token : Nat)
    (pitch : Int) (al : Bool)
    (hn : Task.secondNote token pitch al ∉ g.pending)
    (hin : Task.secondNote token pitch al ∈ (step env e g).pending) :
    ∃ p1, e = .resume (.firstNote token p1 al) ∧
      Task.firstNote token p1 al ∈ g.pending ∧
      playPitchWindowed env p1 = true ∧ token = g.lastPlayToken := by
  cases e with
  | resume t =>
    cases t with
    | firstNote tk p al1 =>
      revert hin
      simp only [step, resumeTask, playPairAfterFirst]
      split_ifs with hm hc
      · intro hin; exact absurd (List.mem_of_mem_erase hin) hn
      · simp only [List.mem_append, List.mem_singleton, Task.secondNote.injEq]
        rintro (hin | hin)
        · exact absurd (List.mem_of_mem_erase hin) hn
        · obtain ⟨h1, _, h3⟩ := hin
          subst h1
          subst h3
          have := hc
          simp at this
          exact ⟨p, rfl, hm, this.1, this.2⟩
      · intro hin; exact absurd hin hn
    | _ =>
      exfalso
      revert hin
      simp only [step, resumeTask, beginGameAfterResume, startNewRoundAfterFrame, startNewRound,
        pickPair, computePitchBounds, playPair, playPairAfterSecond, unlockCallback]
      split_ifs <;>
      (try simp only [List.mem_append, List.mem_singleton, reduceCtorEq, or_false]) <;>
      intro hin <;>
      first
        | exact hn hin
        | exact hn (List.mem_of_mem_erase hin)
  | _ =>
    exfalso
    revert hin
    simp only [step, replay, answer, goNext, restartGame, startNewRound, pickPair,
      computePitchBounds, playPair, lockAfterAnswer, considerStreakForLongestOnFail]
    split_ifs <;>
    (try simp only [List.mem_append, List.mem_singleton, reduceCtorEq, or_false]) <;>
    intro hin <;>
    exact hn hin

/-- C9: `playPair`, once past its guard, sets `canAnswer` to false and
increments `lastPlayToken`; the unlock callback sets `canAnswer` to true when
its token equals `lastPlayToken` and changes nothing otherwise; a turn of the
event loop can only raise `canAnswer` by running a pending unlock callback of
the current token; and an unlock callback is only scheduled when the second
note of the current token was played, which in turn is only requested when the
first one was. -/
theorem unlock_only_by_current_token (env : Env) (g : Game) :
    (∀ al : Bool, g.started = true → g.note1 ≠ none → g.note2 ≠ none →
      (playPair env al g).canAnswer = false ∧
      (playPair env al g).lastPlayToken = g.lastPlayToken + 1) ∧
    (unlockCallback g.lastPlayToken g = { g with canAnswer := true }) ∧
    (∀ token : Nat, token ≠ g.lastPlayToken → unlockCallback token g = g) ∧
    (∀ e : Event, g.canAnswer = false → (step env e g).canAnswer = true →
      ∃ token, e = .resume (.unlock token) ∧ token = g.lastPlayToken ∧
        Task.unlock token ∈ g.pending) ∧
    (∀ (e : Event) (token : Nat), Task.unlock token ∉ g.pending →
      Task.unlock token ∈ (step env e g).pending →
      ∃ pitch, e = .resume (.secondNote token pitch true) ∧
        Task.secondNote token pitch true ∈ g.pending ∧
        playPitchWindowed env pitch = true ∧ token = g.lastPlayToken) ∧
    (∀ (e : Event) (token : Nat) (pitch : Int) (al : Bool),
      Task.secondNote token pitch al ∉ g.pending →
      Task.secondNote token pitch al ∈ (step env e g).pending →
      ∃ p1, e = .resume (.firstNote token p1 al) ∧
        Task.firstNote token p1 al ∈ g.pending ∧
        playPitchWindowed env p1 = true ∧ token = g.lastPlayToken) := by
  refine ⟨?_, ?_, ?_, ?_, ?_, ?_⟩
  · intro al hs h1 h2
    have h1' : g.note1.isNone = false := by
      cases hn : g.note1 with
      | none => exact absurd hn h1
      | some _ => rfl
    have h2' : g.note2.isNone = false := by
      cases hn : g.note2 with
      | none => exact absurd hn h2
      | some _ => rfl
    simp only [playPair, hs, h1', h2', Bool.not_true, Bool.or_false, Bool.false_eq_true,
      if_false]
    split_ifs <;> exact ⟨rfl, rfl⟩
  · simp [unlockCallback]
  · intro token hne
    simp [unlockCallback, hne]
  · intro e h0 h1
    exact canAnswer_rises_only_by_unlock env e g h0 h1
  · intro e token hn hin
    exact unlock_scheduled_only_after_second env e g token hn hin
  · intro e token pitch al hn hin
    exact second_requested_only_after_first env e g token pitch al hn hin

theorem unlock_only_by_current_token_witness :
    ((playPair demoEnv true roundOne).canAnswer = false ∧
      (playPair demoEnv true roundOne).lastPlayToken = roundOne.lastPlayToken + 1) ∧
    unlockCallback 0 roundOne = roundOne :=
  ⟨(unlock_only_by_current_token demoEnv roundOne).1 true
      (by rw [roundOne_eq]) (by rw [roundOne_eq]; simp) (by rw [roundOne_eq]; simp),
   (unlock_only_by_current_token demoEnv roundOne).2.2.1 0 (by rw [roundOne_eq]; simp)⟩

/-- The path that does invalidate: `replay` past its guard increments
`lastPlayToken` at once, so whatever happens later, an unlock callback with a
token handed out before the replay changes nothing. -/
theorem replay_invalidates_earlier_unlocks (env : Env) (g : Game) (es : List Event)
    (token : Nat) (hs : g.started = true) (h1 : g.note1 ≠ none) (h2 : g.note2 ≠ none)
    (ht : token ≤ g.lastPlayToken) :
    (replay env g).lastPlayToken = g.lastPlayToken + 1 ∧
    unlockCallback token (run env es (replay env g)) = run env es (replay env g) := by
  have h1' : g.note1.isNone = false := by
    cases hn : g.note1 with
    | none => exact absurd hn h1
    | some _ => rfl
  have h2' : g.note2.isNone = false := by
    cases hn : g.note2 with
    | none => exact absurd hn h2
    | some _ => rfl
  have hl : (replay env g).lastPlayToken = g.lastPlayToken + 1 := by
    simp only [replay, playPair, hs, h1', h2', Bool.not_true, Bool.or_false,
      Bool.false_eq_true, if_false]
    split_ifs <;> rfl
  refine ⟨hl, ?_⟩
  have hm := run_lastPlayToken_le env es (replay env g)
  have hne : token ≠ (run env es (replay env g)).lastPlayToken := by omega
  simp [unlockCallback, hne]

/-- C10 (failing run): the first round is scheduled and its unlock timer
(token 1) is pending when the range selector changes.  `startNewRound` locks
answers and picks the new pair 48, 49, but waits for an animation frame before
`playPair` increments the token.  The old timer fires first: its token still
equals `lastPlayToken`, so `canAnswer` becomes true for a pair that has not been
played, and an answer is then accepted and counted. -/
theorem stale_unlock_after_new_round :
    Reachable demoEnv newRoundState ∧
    newRoundState.canAnswer = false ∧
    newRoundState.note1 = some 48 ∧ newRoundState.note2 = some 49 ∧
    newRoundState.lastPlayToken = 1 ∧
    newRoundState.pending = [Task.unlock 1, Task.frame] ∧
    (step demoEnv (.resume (.unlock 1)) newRoundState).canAnswer = true ∧
    (step demoEnv (.resume (.unlock 1)) newRoundState).pending = [Task.frame] ∧
    (run demoEnv [.resume (.unlock 1), .answer "higher"] newRoundState).score.asked = 1 := by
  refine ⟨⟨"easy-1oct", _, rfl⟩, ?_⟩
  rw [newRoundState_eq]
  simp [run, step, resumeTask, unlockCallback, answer, lockAfterAnswer, expectedAnswer]

/-! ## Claims about the pitch model -/

theorem tmod_twelve (p : Int) :
    -12 < Int.tmod p 12 ∧ Int.tmod p 12 < 12 ∧ (p - Int.tmod p 12) % 12 = 0 := by
  have h1 := Int.tmod_add_tdiv p 12
  have h2 : Int.tmod p 12 < 12 := Int.tmod_lt_of_pos p (by decide)
  have h3 : -12 < Int.tmod p 12 := by
    rcases Int.le_total 0 p with hp | hp
    · have := Int.tmod_nonneg 12 hp; omega
    · have h4 : Int.tmod (-p) 12 < 12 := Int.tmod_lt_of_pos (-p) (by decide)
      have h5 : Int.tmod (-p) 12 = -Int.tmod p 12 := by
        rw [Int.tmod_def, Int.tmod_def, Int.neg_tdiv]; omega
      omega
  refine ⟨h3, h2, ?_⟩
  omega

theorem pcFromPitch_eq_emod (p : Int) : pcFromPitch p = p % 12 := by
  obtain ⟨h1, h2, h3⟩ := tmod_twelve p
  unfold pcFromPitch
  rw [Int.tmod_eq_emod (by omega) (by decide)]
  omega

theorem octFromPitch_eq_ediv (p : Int) : octFromPitch p = p / 12 :=
  Int.fdiv_eq_ediv p (by decide)

/-- The quotient of an integer by 12, truncated towards zero. -/
theorem trunc_div_twelve (p : Int) : Num.trunc ((p : ℚ) / 12) = Int.tdiv p 12 := by
  have h12 : ((12 : ℕ) : ℚ) = 12 := by norm_num
  unfold Num.trunc
  rcases Int.le_total 0 p with hp | hp
  · have h0 : (0 : ℚ) ≤ (p : ℚ) / 12 := by
      have : (0 : ℚ) ≤ (p : ℚ) := by exact_mod_cast hp
      positivity
    rw [if_pos h0, ← h12, Rat.floor_intCast_div_natCast]
    have := Int.tdiv_eq_ediv hp (by decide : (0 : Int) ≤ 12)
    simp only [Nat.cast_ofNat]
    omega
  · by_cases hz : p = 0
    · subst hz; simp
    · have hneg : ¬ (0 : ℚ) ≤ (p : ℚ) / 12 := by
        have : (p : ℚ) < 0 := by exact_mod_cast (lt_of_le_of_ne hp hz)
        rw [not_le]
        exact div_neg_of_neg_of_pos this (by norm_num)
      rw [if_neg hneg]
      have e : ((p : ℚ) / 12) = -(((-p : Int) : ℚ) / ((12 : ℕ) : ℚ)) := by
        push_cast; ring
      rw [e, Int.ceil_neg, Rat.floor_intCast_div_natCast]
      have h1 : Int.tdiv p 12 = -(Int.tdiv (-p) 12) := by
        have := Int.neg_tdiv p 12
        omega
      have h2 := Int.tdiv_eq_ediv (by omega : (0 : Int) ≤ -p) (by decide : (0 : Int) ≤ 12)
      simp only [Nat.cast_ofNat]
      omega

theorem rem_twelve (p : Int) :
    Num.rem (.fin p) (.fin 12) = .fin ((Int.tmod p 12 : Int) : ℚ) := by
  have h := Int.tmod_add_tdiv p 12
  have h2 : (Int.tmod p 12 : ℚ) = (p : ℚ) - 12 * (Int.tdiv p 12 : ℚ) := by
    have : Int.tmod p 12 = p - 12 * Int.tdiv p 12 := by omega
    rw [this]; push_cast; ring
  simp only [Num.rem]
  rw [if_neg (by norm_num), trunc_div_twelve, h2]

theorem pcFromPitch_refines (p : Int) :
    B64.pcFromPitch (.fin p) = .fin ((pcFromPitch p : Int) : ℚ) := by
  obtain ⟨h1, h2, _⟩ := tmod_twelve p
  have e12 : (12 : ℚ) = ((12 : Int) : ℚ) := by norm_num
  unfold B64.pcFromPitch pcFromPitch
  rw [rem_twelve]
  nth_rewrite 1 [e12]
  rw [Num.add_int _ 12 (by rw [abs_le]; constructor <;> omega), rem_twelve]

/-- Dividing a safe integer by 12 in binary64 and rounding down gives the exact
quotient rounded down. -/
theorem floor_fl_div_twelve (p : Int) (hp : |p| ≤ 2 ^ 53) :
    Int.floor (fl ((p : ℚ) / 12)) = p / 12 := by
  rw [abs_le] at hp
  have hk : Representable (((p / 12 : Int)) : ℚ) :=
    representable_int _ (by rw [abs_le]; constructor <;> omega)
  have hy : Representable (((8 * (p / 12) + 7 : Int) : ℚ) / 2 ^ 3) :=
    representable_dyadic _ 3 (by norm_num) (by rw [abs_le]; constructor <;> omega)
  have hx : (p : ℚ) / 12 = ((p / 12 : Int) : ℚ) + ((p % 12 : Int) : ℚ) / 12 := by
    have : p = 12 * (p / 12) + p % 12 := by omega
    nth_rewrite 1 [this]
    push_cast; ring
  have hj0 : (0 : ℚ) ≤ ((p % 12 : Int) : ℚ) := by
    have : 0 ≤ p % 12 := by omega
    exact_mod_cast this
  have hj1 : ((p % 12 : Int) : ℚ) ≤ 11 := by
    have : p % 12 ≤ 11 := by omega
    exact_mod_cast this
  have hye : ((8 * (p / 12) + 7 : Int) : ℚ) / 2 ^ 3 = ((p / 12 : Int) : ℚ) + 7 / 8 := by
    push_cast; ring
  rw [Int.floor_eq_iff]
  constructor
  · exact le_fl_of_le _ _ hk (by rw [hx]; linarith [div_nonneg hj0 (by norm_num : (0 : ℚ) ≤ 12)])
  · by_cases hc : (p : ℚ) / 12 ≤ ((p / 12 : Int) : ℚ) + 7 / 8
    · have := fl_le_of_le ((p : ℚ) / 12) _ hy (by rw [hye]; exact hc)
      rw [hye] at this
      linarith
    · have hn := fl_nearest ((p : ℚ) / 12) _ hy
      rw [hye] at hn
      have h1 := (abs_le.mp (le_trans hn (le_of_eq (abs_of_neg (by linarith))))).2
      have h2 : (p : ℚ) / 12 ≤ ((p / 12 : Int) : ℚ) + 11 / 12 := by
        rw [hx]; linarith [div_le_div_of_nonneg_right hj1 (by norm_num : (0 : ℚ) ≤ 12)]
      linarith

theorem abs_fl_le (x : ℚ) (B : Int) (hB : |B| ≤ 2 ^ 53) (hx : |x| ≤ B) : |fl x| ≤ B := by
  have hr := representable_int B hB
  have hr2 : Representable ((-B : Int) : ℚ) := representable_int (-B) (by rwa [abs_neg])
  rw [abs_le] at hx ⊢
  constructor
  · have := le_fl_of_le x _ hr2 (by push_cast; exact hx.1)
    push_cast at this; exact this
  · exact fl_le_of_le x _ hr hx.2

theorem octFromPitch_refines (p : Int) (hp : |p| ≤ 2 ^ 53) :
    B64.octFromPitch (.fin p) = .fin ((octFromPitch p : Int) : ℚ) := by
  have hb : |fl ((p : ℚ) / 12)| ≤ ((2 ^ 53 : Int) : ℚ) := by
    apply abs_fl_le _ _ (by norm_num)
    have h1 := abs_cast_le p hp
    rw [abs_div]
    have : |(12 : ℚ)| = 12 := by norm_num
    rw [this]
    push_cast
    linarith [div_le_self (abs_nonneg (p : ℚ)) (by norm_num : (1 : ℚ) ≤ 12)]
  unfold B64.octFromPitch
  simp only [Num.div]
  rw [if_neg (by norm_num)]
  unfold Num.ofRat
  rw [if_neg]
  · simp only [Num.floor]
    rw [floor_fl_div_twelve p hp, octFromPitch_eq_ediv]
  · rw [not_le]
    push_cast at hb
    exact lt_of_le_of_lt hb two_pow_53_lt

theorem mul_twelve (oct : Int) (h : |oct * 3| ≤ 2 ^ 53) :
    Num.mul (.fin oct) (.fin 12) = .fin ((oct * 12 : Int) : ℚ) := by
  have hr : Representable ((oct * 12 : Int) : ℚ) :=
    ⟨oct * 3, 2, h, by norm_num, by push_cast; ring⟩
  have hb : |((oct * 12 : Int) : ℚ)| < 2 ^ 1024 := by
    have h1 := abs_cast_le _ h
    have h2 : ((oct * 12 : Int) : ℚ) = ((oct * 3 : Int) : ℚ) * 4 := by push_cast; ring
    rw [h2, abs_mul]
    have h3 : |(4 : ℚ)| = 4 := by norm_num
    rw [h3]
    calc |((oct * 3 : Int) : ℚ)| * 4 ≤ 2 ^ 53 * 4 := by linarith
      _ < 2 ^ 1024 := by norm_num
  simp only [Num.mul]
  rw [← Num.ofRat_of_representable _ hr hb]
  push_cast; rfl

theorem pitchFromPcOct_refines (pc oct : Int) (h1 : |oct * 3| ≤ 2 ^ 53)
    (h2 : |oct * 12 + pc| ≤ 2 ^ 53) :
    B64.pitchFromPcOct (.fin pc) (.fin oct) = .fin ((pitchFromPcOct pc oct : Int) : ℚ) := by
  unfold B64.pitchFromPcOct pitchFromPcOct
  rw [mul_twelve oct h1, Num.add_int _ pc h2]

theorem ofRat_eq (x v : ℚ) (h : fl x = v) (hv : |v| < 2 ^ 1024) : Num.ofRat x = .fin v := by
  unfold Num.ofRat
  rw [h, if_neg (not_le.mpr hv)]

theorem pitchFromPcOct_beyond_safe :
    B64.pitchFromPcOct (.fin 1) (.fin (2 ^ 53)) = .fin 108086391056891904 := by
  have hm : Num.mul (.fin (2 ^ 53)) (.fin 12) = .fin 108086391056891904 := by
    simp only [Num.mul]
    apply ofRat_eq
    · rw [fl_of_representable _ ⟨3, 55, by norm_num, by norm_num, by norm_num⟩]; norm_num
    · norm_num [abs_of_pos]
  unfold B64.pitchFromPcOct
  rw [hm]
  simp only [Num.add]
  apply ofRat_eq
  · rw [fl_eq_of_near _ 4 6755399441055744 (by norm_num) (by norm_num [abs_of_pos])
      (by norm_num [abs_of_pos]) (by norm_num) (by norm_num)]
    norm_num
  · norm_num [abs_of_pos]

theorem octFromPitch_beyond_safe :
    B64.octFromPitch (.fin (-(2 ^ 55))) = .fin (-3002399751580331) := by
  unfold B64.octFromPitch
  simp only [Num.div]
  rw [if_neg (by norm_num)]
  rw [ofRat_eq _ (-6004799503160661 / 2)]
  · simp only [Num.floor]
    have : Int.floor ((-6004799503160661 / 2 : ℚ)) = -3002399751580331 := by
      rw [Int.floor_eq_iff]; norm_num
    rw [this]; norm_num
  · rw [fl_eq_of_near _ (-1) (-6004799503160661) (by norm_num)
      (by norm_num [abs_of_neg]) (by norm_num [abs_of_neg]) (by norm_num) (by norm_num)]
    norm_num
  · norm_num [abs_of_neg]

theorem pitch_round_trip_beyond_safe :
    B64.pitchFromPcOct (B64.pcFromPitch (.fin (-(2 ^ 55))))
      (B64.octFromPitch (.fin (-(2 ^ 55)))) = .fin (-36028797018963964) := by
  have e : (-(2 ^ 55) : ℚ) = ((-36028797018963968 : Int) : ℚ) := by norm_num
  have hpc : B64.pcFromPitch (.fin (-(2 ^ 55))) = .fin 4 := by
    rw [e, pcFromPitch_refines]
    have : pcFromPitch (-36028797018963968) = 4 := by decide
    rw [this]; norm_num
  have hm : Num.mul (.fin (-3002399751580331)) (.fin 12) = .fin (-36028797018963968) := by
    simp only [Num.mul]
    apply ofRat_eq
    · rw [fl_eq_of_tie _ 3 (-4503599627370497) (by norm_num) (by norm_num [abs_of_neg])
        (by norm_num [abs_of_neg]) (by norm_num)]
      norm_num
    · norm_num [abs_of_neg]
  rw [hpc, octFromPitch_beyond_safe]
  unfold B64.pitchFromPcOct
  rw [hm]
  simp only [Num.add]
  apply ofRat_eq
  · rw [fl_of_representable _ ⟨-9007199254740991, 2, by norm_num [abs_of_neg], by norm_num,
      by norm_num⟩]
    norm_num
  · norm_num [abs_of_neg]

/-- C12 (counterexample): beyond the safe integers the round trips fail.  In
binary64 `pitchFromPcOct(1, 2^53)` is `108086391056891904` (the sum
`12 * 2^53 + 1` is not a binary64 number), whose pitch class is `0`, not `1`;
and the pitch `-2^55` is taken to pitch class `4` and octave
`-3002399751580331`, from which `pitchFromPcOct` gives `-36028797018963964`,
not `-2^55 = -36028797018963968`. -/
theorem pitch_round_trip_fails :
    B64.pitchFromPcOct (.fin 1) (.fin (2 ^ 53)) = .fin 108086391056891904 ∧
    B64.pcFromPitch (B64.pitchFromPcOct (.fin 1) (.fin (2 ^ 53))) = .fin 0 ∧
    B64.pcFromPitch (B64.pitchFromPcOct (.fin 1) (.fin (2 ^ 53))) ≠ .fin 1 ∧
    B64.pitchFromPcOct (B64.pcFromPitch (.fin (-(2 ^ 55))))
      (B64.octFromPitch (.fin (-(2 ^ 55)))) = .fin (-36028797018963964) ∧
    B64.pitchFromPcOct (B64.pcFromPitch (.fin (-(2 ^ 55))))
      (B64.octFromPitch (.fin (-(2 ^ 55)))) ≠ .fin (-(2 ^ 55)) := by
  have e : (108086391056891904 : ℚ) = ((108086391056891904 : Int) : ℚ) := by norm_num
  have h0 : B64.pcFromPitch (.fin 108086391056891904) = .fin 0 := by
    rw [e, pcFromPitch_refines]
    have : pcFromPitch 108086391056891904 = 0 := by decide
    rw [this]; norm_num
  refine ⟨pitchFromPcOct_beyond_safe, ?_, ?_, pitch_round_trip_beyond_safe, ?_⟩
  · rw [pitchFromPcOct_beyond_safe, h0]
  · rw [pitchFromPcOct_beyond_safe, h0]
    intro h; injection h with h; norm_num at h
  · rw [pitch_round_trip_beyond_safe]
    intro h; injection h with h; norm_num at h

/-- C12 (amended): on the safe integers the pitch model is a bijection, in
binary64 as the source computes it.  For every integer pitch `p` with
`|p| ≤ 2^53`, negative ones included, `pcFromPitch(p)` is an integer in
`[0, 11]`, `octFromPitch(p)` is an integer, and `pitchFromPcOct` of the two is
`p`; for every `pc` in `[0, 11]` and integer `oct` with `|oct| ≤ 2^49`,
`pcFromPitch` and `octFromPitch` give back `pc` and `oct` from
`pitchFromPcOct(pc, oct)`.  On these ranges the binary64 functions agree with
the integer functions `pitchFromPcOct`, `pcFromPitch` and `octFromPitch`. -/
theorem pitch_model_bijection (p pc oct : Int) (hp : |p| ≤ 2 ^ 53)
    (hpc0 : 0 ≤ pc) (hpc1 : pc ≤ 11) (hoct : |oct| ≤ 2 ^ 49) :
    (B64.pcFromPitch (.fin p) = .fin ((pcFromPitch p : Int) : ℚ) ∧
      B64.octFromPitch (.fin p) = .fin ((octFromPitch p : Int) : ℚ) ∧
      0 ≤ pcFromPitch p ∧ pcFromPitch p ≤ 11 ∧
      pitchFromPcOct (pcFromPitch p) (octFromPitch p) = p ∧
      B64.pitchFromPcOct (B64.pcFromPitch (.fin p)) (B64.octFromPitch (.fin p)) = .fin p) ∧
    (B64.pitchFromPcOct (.fin pc) (.fin oct) = .fin ((pitchFromPcOct pc oct : Int) : ℚ) ∧
      pcFromPitch (pitchFromPcOct pc oct) = pc ∧
      octFromPitch (pitchFromPcOct pc oct) = oct ∧
      B64.pcFromPitch (B64.pitchFromPcOct (.fin pc) (.fin oct)) = .fin pc ∧
      B64.octFromPitch (B64.pitchFromPcOct (.fin pc) (.fin oct)) = .fin oct) := by
  rw [abs_le] at hp hoct
  have hpcm := pcFromPitch_eq_emod p
  have hocm := octFromPitch_eq_ediv p
  have hrt : pitchFromPcOct (pcFromPitch p) (octFromPitch p) = p := by
    rw [hpcm, hocm]; unfold pitchFromPcOct; omega
  have hq : pitchFromPcOct pc oct = oct * 12 + pc := rfl
  have hpc' : pcFromPitch (pitchFromPcOct pc oct) = pc := by
    rw [pcFromPitch_eq_emod, hq]; omega
  have hoc' : octFromPitch (pitchFromPcOct pc oct) = oct := by
    rw [octFromPitch_eq_ediv, hq]; omega
  have hf := pitchFromPcOct_refines pc oct (by rw [abs_le]; constructor <;> omega)
    (by rw [abs_le]; constructor <;> omega)
  refine ⟨⟨pcFromPitch_refines p, octFromPitch_refines p (abs_le.mpr hp), by omega, by omega,
    hrt, ?_⟩, hf, hpc', hoc', ?_, ?_⟩
  · rw [pcFromPitch_refines, octFromPitch_refines p (abs_le.mpr hp),
      pitchFromPcOct_refines _ _ (by rw [abs_le, hocm]; constructor <;> omega)
        (by rw [abs_le, hocm, hpcm]; constructor <;> omega), hrt]
  · rw [hf, pcFromPitch_refines, hpc']
  · rw [hf, octFromPitch_refines _ (by rw [abs_le, hq]; constructor <;> omega), hoc']

theorem pitch_model_bijection_witness :
    (B64.pcFromPitch (.fin ((-1 : Int) : ℚ)) = .fin ((pcFromPitch (-1) : Int) : ℚ) ∧
      B64.octFromPitch (.fin ((-1 : Int) : ℚ)) = .fin ((octFromPitch (-1) : Int) : ℚ) ∧
      0 ≤ pcFromPitch (-1) ∧ pcFromPitch (-1) ≤ 11 ∧
      pitchFromPcOct (pcFromPitch (-1)) (octFromPitch (-1)) = -1 ∧
      B64.pitchFromPcOct (B64.pcFromPitch (.fin ((-1 : Int) : ℚ)))
        (B64.octFromPitch (.fin ((-1 : Int) : ℚ))) = .fin ((-1 : Int) : ℚ)) ∧
    (B64.pitchFromPcOct (.fin ((11 : Int) : ℚ)) (.fin ((-1 : Int) : ℚ)) =
        .fin ((pitchFromPcOct 11 (-1) : Int) : ℚ) ∧
      pcFromPitch (pitchFromPcOct 11 (-1)) = 11 ∧
      octFromPitch (pitchFromPcOct 11 (-1)) = -1 ∧
      B64.pcFromPitch (B64.pitchFromPcOct (.fin ((11 : Int) : ℚ)) (.fin ((-1 : Int) : ℚ))) =
        .fin ((11 : Int) : ℚ) ∧
      B64.octFromPitch (B64.pitchFromPcOct (.fin ((11 : Int) : ℚ)) (.fin ((-1 : Int) : ℚ))) =
        .fin ((-1 : Int) : ℚ)) :=
  pitch_model_bijection (-1) 11 (-1) (by decide) (by decide) (by decide) (by decide)

/-! ## Runs of correct answers -/

theorem tally_concat (l : List Bool) (b : Bool) (s : Score) :
    tally (l ++ [b]) s = scoreAfter b (tally l s) := by
  simp [tally, List.foldl_append]

theorem replicate_suffix_concat_true (m : Nat) (l : List Bool)
    (h : List.replicate (m + 1) true <:+ l ++ [true]) : List.replicate m true <:+ l := by
  rw [List.replicate_succ', List.suffix_concat_iff] at h
  rcases h with h | ⟨t, ht, hs⟩
  · simp at h
  · have := List.append_inj_left' ht rfl
    rw [this]; exact hs

theorem replicate_suffix_concat_false (m : Nat) (l : List Bool)
    (h : List.replicate m true <:+ l ++ [false]) : m = 0 := by
  cases m with
  | zero => rfl
  | succ m =>
    rw [List.replicate_succ', List.suffix_concat_iff] at h
    rcases h with h | ⟨t, ht, _⟩
    · simp at h
    · have := List.append_inj_right' ht rfl
      simp at this

/-- The streak is the length of the run of correct answers that ends the log,
the stored longest streak is the length of some run, and no run is longer than
both. -/
theorem tally_runs (l : List Bool) :
    List.replicate (tally l ⟨0, 0, 0, 0⟩).streak true <:+ l ∧
    (∀ m, List.replicate m true <:+ l → m ≤ (tally l ⟨0, 0, 0, 0⟩).streak) ∧
    List.replicate (tally l ⟨0, 0, 0, 0⟩).longestStored true <:+: l ∧
    (∀ m, List.replicate m true <:+: l →
      m ≤ max (tally l ⟨0, 0, 0, 0⟩).longestStored (tally l ⟨0, 0, 0, 0⟩).streak) := by
  induction l using List.reverseRecOn with
  | nil =>
    refine ⟨?_, ?_, ?_, ?_⟩
    · exact List.nil_suffix
    · intro m hm
      have := hm.sublist.length_le
      simp at this
      omega
    · exact List.nil_infix
    · intro m hm
      have := hm.sublist.length_le
      simp at this
      omega
  | append_singleton l b ih =>
    obtain ⟨h1, h2, h3, h4⟩ := ih
    rw [tally_concat]
    cases b with
    | true =>
      simp only [scoreAfter, if_true]
      refine ⟨?_, ?_, ?_, ?_⟩
      · rw [List.replicate_succ']
        obtain ⟨p, hp⟩ := h1
        exact ⟨p, by rw [← List.append_assoc, hp]⟩
      · intro m hm
        cases m with
        | zero => omega
        | succ m =>
          have := h2 m (replicate_suffix_concat_true m l hm)
          omega
      · exact h3.trans (List.infix_append' [] l [true] |> fun h => by simpa using h)
      · intro m hm
        rcases List.infix_concat_iff.mp hm with hs | hi
        · cases m with
          | zero => omega
          | succ m =>
            have := h2 m (replicate_suffix_concat_true m l hs)
            omega
        · have := h4 m hi
          omega
    | false =>
      simp only [scoreAfter, Bool.false_eq_true, if_false]
      have hl : l <:+: l ++ [false] := by
        have := List.infix_append' [] l [false]
        simpa using this
      refine ⟨?_, ?_, ?_, ?_⟩
      · exact List.nil_suffix
      · intro m hm
        have := replicate_suffix_concat_false m l hm
        omega
      · rcases le_total (tally l ⟨0, 0, 0, 0⟩).longestStored (tally l ⟨0, 0, 0, 0⟩).streak
          with hle | hle
        · rw [max_eq_right hle]; exact h1.isInfix.trans hl
        · rw [max_eq_left hle]; exact h3.trans hl
      · intro m hm
        rcases List.infix_concat_iff.mp hm with hs | hi
        · have := replicate_suffix_concat_false m l hs
          omega
        · have := h4 m hi
          omega

/-! ## Answers and unlock callbacks -/

theorem playPair_accepts (env : Env) (al : Bool) (g : Game)
    (h : accepts (playPair env al g) = true) : accepts g = true := by
  revert h
  unfold playPair
  split_ifs <;> simp [accepts]

theorem startNewRound_accepts (env : Env) (ap : Bool) (g : Game) :
    accepts (startNewRound env ap g) = true → accepts g = true := by
  unfold startNewRound
  split_ifs <;> simp [accepts, pickPair, computePitchBounds]

theorem credit_mono (a u : Nat) (b1 b2 : Bool) (h : b1 = true → b2 = true) :
    a + (if b1 = true then 1 else 0) ≤ a + (if b2 = true then 1 else 0) + u := by
  cases b1 <;> cases b2 <;> simp at h ⊢
  all_goals omega

/-- An accepted answer uses up the permission to answer and only an unlock
callback gives a new one. -/
theorem step_credit (env : Env) (e : Event) (g : Game) (hs : isStart e = false) :
    (step env e g).score.asked + (if accepts (step env e g) then 1 else 0) ≤
      g.score.asked + (if accepts g then 1 else 0) + (if isUnlock e then 1 else 0) := by
  cases e with
  | clickBegin => simp [isStart] at hs
  | answer c =>
    cases ha : accepts g with
    | true =>
      simp only [step, answer_of_accepts c g ha]
      split_ifs <;> simp_all [accepts, isUnlock]
    | false =>
      simp only [step, answer_of_not_accepts c g ha, ha, isUnlock]
      simp
  | replay =>
    have hsc : (step env .replay g).score = g.score :=
      step_score_of_other env _ g rfl (fun c hc => by cases hc)
    rw [hsc]
    have : accepts (step env .replay g) = true → accepts g = true := by
      simp only [step, replay]
      split_ifs
      · exact id
      · intro h
        have := playPair_accepts env true _ h
        simpa [accepts] using this
    exact credit_mono _ _ _ _ this
  | next =>
    have hsc : (step env .next g).score = g.score :=
      step_score_of_other env _ g rfl (fun c hc => by cases hc)
    rw [hsc]
    have : accepts (step env .next g) = true → accepts g = true := by
      simp only [step, goNext]
      split_ifs
      · exact id
      · exact startNewRound_accepts env true g
    exact credit_mono _ _ _ _ this
  | rangeChange v =>
    have hsc : (step env (.rangeChange v) g).score = g.score :=
      step_score_of_other env _ g rfl (fun c hc => by cases hc)
    rw [hsc]
    have : accepts (step env (.rangeChange v) g) = true → accepts g = true := by
      simp only [step]
      split_ifs
      · intro h
        have := startNewRound_accepts env true _ h
        simpa [accepts, computePitchBounds] using this
      · simp [accepts, computePitchBounds]
    exact credit_mono _ _ _ _ this
  | resume t =>
    have hsc : (step env (.resume t) g).score = g.score :=
      step_score_of_other env _ g hs (fun c hc => by cases hc)
    rw [hsc]
    cases t with
    | beginResume => simp [isStart] at hs
    | unlock tk =>
      simp only [isUnlock, if_true]
      split_ifs <;> omega
    | frame =>
      have : accepts (step env (.resume .frame) g) = true → accepts g = true := by
        simp only [step, resumeTask, startNewRoundAfterFrame]
        split_ifs
        · intro h
          have := playPair_accepts env true _ h
          simpa [accepts] using this
        · exact id
      exact credit_mono _ _ _ _ this
    | firstNote tk p al =>
      have : accepts (step env (.resume (.firstNote tk p al)) g) = accepts g := by
        simp only [step, resumeTask, playPairAfterFirst]
        split_ifs <;> rfl
      rw [this]; omega
    | secondNote tk p al =>
      have : accepts (step env (.resume (.secondNote tk p al)) g) = accepts g := by
        simp only [step, resumeTask, playPairAfterSecond]
        split_ifs <;> rfl
      rw [this]; omega

theorem run_credit (env : Env) (es : List Event) :
    ∀ g : Game, (∀ e ∈ es, isStart e = false) →
      (run env es g).score.asked + (if accepts (run env es g) then 1 else 0) ≤
        g.score.asked + (if accepts g then 1 else 0) + unlockCount es := by
  induction es with
  | nil => intro g _; simp [run, unlockCount]
  | cons e es ih =>
    intro g hno
    have h1 := step_credit env e g (hno e (List.mem_cons_self _ _))
    have h2 := ih (step env e g) (fun x hx => hno x (List.mem_cons_of_mem _ hx))
    rw [run_cons]
    have h3 : unlockCount (e :: es) = unlockCount es + (if isUnlock e then 1 else 0) := by
      simp [unlockCount, List.countP_cons]
    omega

theorem startNewRound_not_accepts (env : Env) (ap : Bool) (g : Game) :
    accepts (startNewRound env ap g) = false := by
  unfold startNewRound
  split_ifs with h <;> simp_all [accepts, pickPair, computePitchBounds]

theorem tally_asked (l : List Bool) :
    ∀ s : Score, (tally l s).asked = s.asked + l.length := by
  induction l with
  | nil => intro s; rfl
  | cons b l ih =>
    intro s
    have h : tally (b :: l) s = tally l (scoreAfter b s) := rfl
    rw [h, ih]
    cases b <;> simp [scoreAfter] <;> omega

theorem startsRound_of_isStart (e : Event) (h : startsRound e = false) : isStart e = false := by
  cases e with
  | resume t => cases t <;> simp_all [startsRound, isStart]
  | _ => simp_all [startsRound, isStart]

theorem roundStart_eq :
    roundStart =
      { score := ⟨0, 0, 0, 0⟩, started := true, awaitingNext := false, canAnswer := false,
        pitchMin := 48, pitchMax := 60, note1 := some 54, note2 := some 55,
        lastPlayToken := 0, noteRange := "easy-1oct", rngPos := 3,
        pending := [Task.frame] } := by
  simp [roundStart, run, step, initial, computePitchBounds, currentMode,
    RANGES, List.lookup, pitchFromPcOct, beginGameAfterResume, startNewRound, pickPair,
    demoEnv, pickPairRun_half, resumeTask]

theorem replayed_eq :
    run demoEnv replayedEvents roundStart =
      { score := ⟨1, 1, 1, 0⟩, started := true, awaitingNext := false, canAnswer := true,
        pitchMin := 48, pitchMax := 60, note1 := some 54, note2 := some 55,
        lastPlayToken := 2, noteRange := "easy-1oct", rngPos := 3, pending := [] } := by
  simp [roundStart_eq, replayedEvents, run, step, replay, answer,
    lockAfterAnswer, expectedAnswer, resumeTask, startNewRoundAfterFrame, playPair,
    playPairAfterFirst, playPairAfterSecond, unlockCallback, playPitchWindowed, getStemForPc,
    pcFromPitch, PC_TO_STEM, Int.tmod, demoEnv]

theorem scoredTwice_eq :
    run demoEnv scoredTwiceEvents roundStart =
      { score := ⟨2, 2, 2, 0⟩, started := true, awaitingNext := true, canAnswer := false,
        pitchMin := 48, pitchMax := 60, note1 := some 54, note2 := some 55,
        lastPlayToken := 2, noteRange := "easy-1oct", rngPos := 3, pending := [] } := by
  simp [roundStart_eq, scoredTwiceEvents, replayedEvents, run, step, replay, answer,
    lockAfterAnswer, expectedAnswer, resumeTask, startNewRoundAfterFrame, playPair,
    playPairAfterFirst, playPairAfterSecond, unlockCallback, playPitchWindowed, getStemForPc,
    pcFromPitch, PC_TO_STEM, Int.tmod, demoEnv]

/-- C13 (as amended): between one call of `startNewRound` and the next,
`score.asked` grows by exactly the number of accepted answers, and that number
is at most the number of unlock-timer callbacks run in between: every accepted
answer locks the input again and only an unlock callback re-opens it. -/
theorem asked_bounded_by_unlocks (env : Env) (autoplay : Bool) (g0 : Game) (es : List Event)
    (hno : ∀ e ∈ es, startsRound e = false) :
    (run env es (startNewRound env autoplay g0)).score.asked =
      (startNewRound env autoplay g0).score.asked +
        (answerLog env es (startNewRound env autoplay g0)).length ∧
    (answerLog env es (startNewRound env autoplay g0)).length ≤ unlockCount es := by
  have hno' : ∀ e ∈ es, isStart e = false := fun e he => startsRound_of_isStart e (hno e he)
  have h1 := run_score env es (startNewRound env autoplay g0) hno'
  have h2 := run_credit env es (startNewRound env autoplay g0) hno'
  rw [startNewRound_not_accepts] at h2
  have h3 : (run env es (startNewRound env autoplay g0)).score.asked =
      (startNewRound env autoplay g0).score.asked +
        (answerLog env es (startNewRound env autoplay g0)).length := by
    rw [h1, tally_asked]
  refine ⟨h3, ?_⟩
  simp only [Bool.false_eq_true, if_false] at h2
  have : 0 ≤ (if accepts (run env es (startNewRound env autoplay g0)) = true then 1 else 0) :=
    Nat.zero_le _
  omega

theorem asked_bounded_by_unlocks_witness :
    (∀ e ∈ answerReplayAnswer, startsRound e = false) ∧
    (run demoEnv answerReplayAnswer (startNewRound demoEnv true roundOne)).score.asked =
      (startNewRound demoEnv true roundOne).score.asked +
        (answerLog demoEnv answerReplayAnswer (startNewRound demoEnv true roundOne)).length ∧
    (answerLog demoEnv answerReplayAnswer (startNewRound demoEnv true roundOne)).length ≤
      unlockCount answerReplayAnswer :=
  have h : ∀ e ∈ answerReplayAnswer, startsRound e = false := by
    simp [answerReplayAnswer, startsRound]
  ⟨h, asked_bounded_by_unlocks demoEnv true roundOne answerReplayAnswer h⟩

/-- C13 (counterexample): after `startNewRound` has picked the pair 54, 55 the
round is played and answered, then replayed; the unlock timer of the replay
re-opens the input (`updateControls` enables the answer buttons again) and a
second answer is accepted.  `startNewRound` is not called in between and
`score.asked` has grown by 2. -/
theorem round_scored_twice :
    Reachable demoEnv roundStart ∧
    roundStart.pending = [Task.frame] ∧
    roundStart.note1 = some 54 ∧ roundStart.note2 = some 55 ∧
    (∀ e ∈ scoredTwiceEvents, startsRound e = false) ∧
    (run demoEnv replayedEvents roundStart).score.asked = roundStart.score.asked + 1 ∧
    (updateControls (run demoEnv replayedEvents roundStart)).answerDisabled = false ∧
    (run demoEnv scoredTwiceEvents roundStart).note1 = some 54 ∧
    (run demoEnv scoredTwiceEvents roundStart).note2 = some 55 ∧
    (run demoEnv scoredTwiceEvents roundStart).score.asked = roundStart.score.asked + 2 ∧
    ¬ (run demoEnv scoredTwiceEvents roundStart).score.asked ≤ roundStart.score.asked + 1 := by
  refine ⟨⟨"easy-1oct", _, rfl⟩, ?_⟩
  rw [scoredTwice_eq, replayed_eq, roundStart_eq]
  simp [scoredTwiceEvents, replayedEvents, startsRound, updateControls]

/-! ## Claims about start, longest streak and the keyboard window -/

theorem roundOne_two_score :
    (run demoEnv (.answer "higher" :: nextRoundEvents 2 ++ [.answer "higher"]) roundOne).score
      = ⟨2, 2, 2, 0⟩ := by
  rw [run_score demoEnv _ roundOne (by simp [nextRoundEvents, isStart]), roundOne_log_two,
    roundOne_eq]
  rfl

/-- The roundings in `scorePercent` are visible in the result: with 201 correct
answers out of 400 the quotient rounds below `0.5025`, the product with 1000
is below `502.5`, and the percentage is the binary64 number `50.2`. -/
theorem scorePercent_rounds_down (g : Game) (h : g.score = ⟨400, 201, 0, 0⟩) :
    scorePercent g = fl (502 / 10) ∧ fl (502 / 10) = 3532510957718733 / 70368744177664 := by
  have h1 : fl ((201 : ℚ) / 400) = 1131529406376837 / 2251799813685248 := by
    rw [fl_eq_of_near _ (-53) 4526117625507348 (by norm_num) (by norm_num [abs_of_pos])
      (by norm_num [abs_of_pos]) (by norm_num) (by norm_num)]
    norm_num
  have h2 : fl ((1131529406376837 / 2251799813685248 : ℚ) * 1000) =
      8840073487319039 / 17592186044416 := by
    rw [fl_eq_of_near _ (-44) 8840073487319039 (by norm_num) (by norm_num [abs_of_pos])
      (by norm_num [abs_of_pos]) (by norm_num) (by norm_num)]
    norm_num
  have h3 : Int.floor ((8840073487319039 / 17592186044416 : ℚ) + 1 / 2) = 502 := by
    rw [Int.floor_eq_iff]; norm_num
  have h4 : fl ((502 : ℚ) / 10) = 3532510957718733 / 70368744177664 := by
    rw [fl_eq_of_near _ (-47) 7065021915437466 (by norm_num) (by norm_num [abs_of_pos])
      (by norm_num [abs_of_pos]) (by norm_num) (by norm_num)]
    norm_num
  refine ⟨?_, h4⟩
  unfold scorePercent
  rw [h, if_neg (by norm_num)]
  simp only [Nat.cast_ofNat]
  rw [h1, h2, h3]
  simp only [Int.cast_ofNat]

/-- C11: whatever the score was, `beginGame` (once resumed after its `await`)
and `restartGame` leave `asked`, `correct`, `streak` and `longestStored` at 0,
so `displayLongest()` and `scorePercent()` are 0; the same holds for a click on
the begin button followed, in a game not yet started, by the resumption of
`beginGame`. -/
theorem start_resets_score (env : Env) (g : Game) :
    (beginGameAfterResume env g).score = ⟨0, 0, 0, 0⟩ ∧
    displayLongest (beginGameAfterResume env g) = 0 ∧
    scorePercent (beginGameAfterResume env g) = 0 ∧
    (restartGame env g).score = ⟨0, 0, 0, 0⟩ ∧
    displayLongest (restartGame env g) = 0 ∧
    scorePercent (restartGame env g) = 0 ∧
    (g.started = false →
      (run env [.clickBegin, .resume .beginResume] g).score = ⟨0, 0, 0, 0⟩) ∧
    (g.started = true → (step env .clickBegin g).score = ⟨0, 0, 0, 0⟩) := by
  have hb : (beginGameAfterResume env g).score = ⟨0, 0, 0, 0⟩ := by
    simp only [beginGameAfterResume, startNewRound_score]
  have hr : (restartGame env g).score = ⟨0, 0, 0, 0⟩ := by
    simp only [restartGame, startNewRound_score]
  refine ⟨hb, ?_, ?_, hr, ?_, ?_, ?_, ?_⟩
  · simp [displayLongest, hb]
  · simp [scorePercent, hb]
  · simp [displayLongest, hr]
  · simp [scorePercent, hr]
  · intro hs
    simp only [run, List.foldl_cons, List.foldl_nil, step, hs, Bool.not_false, if_true,
      List.mem_append, List.mem_singleton, or_true, resumeTask, beginGameAfterResume,
      startNewRound_score]
  · intro hs
    simp only [step, hs, Bool.not_true, Bool.false_eq_true, if_false, hr]

theorem start_resets_score_witness :
    (run demoEnv [.clickBegin, .resume .beginResume] (initial "easy-1oct")).score
      = ⟨0, 0, 0, 0⟩ ∧
    (step demoEnv .clickBegin (answer "same" roundOne)).score = ⟨0, 0, 0, 0⟩ ∧
    (answer "same" roundOne).score.asked = 1 :=
  ⟨(start_resets_score demoEnv (initial "easy-1oct")).2.2.2.2.2.2.1 rfl,
   (start_resets_score demoEnv (answer "same" roundOne)).2.2.2.2.2.2.2
     (by rw [roundOne_eq]; rfl),
   by rw [roundOne_eq]; rfl⟩

/-- C14: in a session fragment without (re)start that begins with the reset
score, `displayLongest()` is the length of the longest run of consecutive
correct answers among the accepted answers, while `longestStored` never exceeds
it and may lag behind it. -/
theorem displayLongest_is_longest_run (env : Env) (es : List Event) (g : Game)
    (h0 : g.score = ⟨0, 0, 0, 0⟩) (hno : ∀ e ∈ es, isStart e = false) :
    IsLongestRun (answerLog env es g) (displayLongest (run env es g)) ∧
    (run env es g).score.longestStored ≤ displayLongest (run env es g) := by
  obtain ⟨h1, _, h3, h4⟩ := tally_runs (answerLog env es g)
  have hs := run_score env es g hno
  rw [h0] at hs
  unfold displayLongest IsLongestRun
  rw [hs]
  refine ⟨⟨?_, h4⟩, le_max_left _ _⟩
  rcases le_total (tally (answerLog env es g) ⟨0, 0, 0, 0⟩).longestStored
      (tally (answerLog env es g) ⟨0, 0, 0, 0⟩).streak with hle | hle
  · rw [max_eq_right hle]; exact h1.isInfix
  · rw [max_eq_left hle]; exact h3

theorem displayLongest_is_longest_run_witness :
    roundOne.score = ⟨0, 0, 0, 0⟩ ∧
    IsLongestRun [true, true]
      (displayLongest
        (run demoEnv (.answer "higher" :: nextRoundEvents 2 ++ [.answer "higher"]) roundOne)) ∧
    displayLongest
      (run demoEnv (.answer "higher" :: nextRoundEvents 2 ++ [.answer "higher"]) roundOne) = 2 ∧
    (run demoEnv (.answer "higher" :: nextRoundEvents 2 ++ [.answer "higher"])
      roundOne).score.longestStored = 0 :=
  have h := displayLongest_is_longest_run demoEnv
    (.answer "higher" :: nextRoundEvents 2 ++ [.answer "higher"]) roundOne
    (by rw [roundOne_eq]) (by simp [nextRoundEvents, isStart])
  ⟨by rw [roundOne_eq], by have h1 := h.1; rw [roundOne_log_two] at h1; exact h1,
   by unfold displayLongest; rw [roundOne_two_score]; rfl,
   by rw [roundOne_two_score]⟩

theorem ite_fin (c : Prop) [Decidable c] (x y : Int) :
    (if c then Num.fin (x : ℚ) else Num.fin (y : ℚ)) = Num.fin ((if c then x else y : Int) : ℚ) := by
  split_ifs <;> rfl

/-- On safe integers `computeTwoOctaveWindow` computes in binary64 what it computes over the
integers. -/
theorem computeTwoOctaveWindow_refines (g : Game) (p1 p2 : Int)
    (hmin : |g.pitchMin| ≤ 2 ^ 52) (hmax : |g.pitchMax| ≤ 2 ^ 52)
    (h1 : |p1| ≤ 2 ^ 52) (h2 : |p2| ≤ 2 ^ 52) :
    B64.computeTwoOctaveWindow (.fin g.pitchMin) (.fin g.pitchMax) (.fin p1) (.fin p2) =
      (computeTwoOctaveWindow g p1 p2).toNum := by
  rw [abs_le] at hmin hmax h1 h2
  have e0 : (0 : ℚ) = ((0 : Int) : ℚ) := by norm_num
  have e12 : (12 : ℚ) = ((12 : Int) : ℚ) := by norm_num
  have e24 : (24 : ℚ) = ((24 : Int) : ℚ) := by norm_num
  have hm1 : -(2 ^ 52) ≤ min p1 p2 ∧ min p1 p2 ≤ 2 ^ 52 := by
    constructor
    · exact le_min h1.1 h2.1
    · exact le_trans (min_le_left _ _) h1.2
  have hM1 : -(2 ^ 52) ≤ max p1 p2 ∧ max p1 p2 ≤ 2 ^ 52 := by
    constructor
    · exact le_trans h1.1 (le_max_left _ _)
    · exact max_le h1.2 h2.2
  have hoct := octFromPitch_refines (min p1 p2) (by rw [abs_le]; constructor <;> omega)
  have hoe := octFromPitch_eq_ediv (min p1 p2)
  have hpo := pitchFromPcOct_refines 0 (octFromPitch (min p1 p2))
    (by rw [abs_le, hoe]; constructor <;> omega) (by rw [abs_le, hoe]; constructor <;> omega)
  have hs0 : min p1 p2 - 11 ≤ pitchFromPcOct 0 (octFromPitch (min p1 p2)) ∧
      pitchFromPcOct 0 (octFromPitch (min p1 p2)) ≤ min p1 p2 := by
    rw [hoe]; unfold pitchFromPcOct; constructor <;> omega
  simp only [B64.computeTwoOctaveWindow, computeTwoOctaveWindow, Window.toNum, B64.clamp, clamp,
    Num.mathMin_int, Num.mathMax_int]
  rw [hoct, e0, hpo]
  generalize pitchFromPcOct 0 (octFromPitch (min p1 p2)) = s0 at hs0 ⊢
  generalize min p1 p2 = m at hm1 hs0 ⊢
  generalize max p1 p2 = M at hM1 ⊢
  rw [e24, e12, Num.add_int s0 24 (by rw [abs_le]; constructor <;> omega),
    Num.add_int s0 12 (by rw [abs_le]; constructor <;> omega)]
  simp only [Num.gt, Num.lt_int, decide_eq_true_eq, ite_fin]
  generalize hs1 : (if s0 + 24 < M then s0 + 12 else s0) = s1
  have hb1 : s0 ≤ s1 ∧ s1 ≤ s0 + 12 := by rw [← hs1]; split_ifs <;> constructor <;> omega
  rw [Num.add_int s1 24 (by rw [abs_le]; constructor <;> omega)]
  simp only [ite_fin, Num.lt_int, decide_eq_true_eq]
  generalize he1 : (if s0 + 24 < M then s1 + 24 else s0 + 24) = e1
  have hc1 : s0 + 24 ≤ e1 ∧ e1 ≤ s0 + 36 := by rw [← he1]; split_ifs <;> constructor <;> omega
  generalize hs2 : (if s1 < g.pitchMin then g.pitchMin else s1) = s2
  have hb2 : -(2 ^ 52) - 11 ≤ s2 ∧ s2 ≤ 2 ^ 52 + 12 := by
    rw [← hs2]; split_ifs <;> constructor <;> omega
  rw [Num.add_int s2 24 (by rw [abs_le]; constructor <;> omega)]
  simp only [ite_fin, Num.lt_int, decide_eq_true_eq]
  generalize he2 : (if s1 < g.pitchMin then s2 + 24 else e1) = e2
  have hc2 : -(2 ^ 52) - 11 ≤ e2 ∧ e2 ≤ 2 ^ 52 + 48 := by
    rw [← he2]; split_ifs <;> constructor <;> omega
  generalize he3 : (if g.pitchMax < e2 then g.pitchMax else e2) = e3
  have hc3 : -(2 ^ 52) - 11 ≤ e3 ∧ e3 ≤ 2 ^ 52 + 48 := by
    rw [← he3]; split_ifs <;> constructor <;> omega
  rw [Num.sub_int e3 24 (by rw [abs_le]; constructor <;> omega)]
  simp only [ite_fin, Num.mathMin_int, Num.mathMax_int]

theorem mem_pitchesFromTo (lo hi p : Int) : p ∈ pitchesFromTo lo hi ↔ lo ≤ p ∧ p ≤ hi := by
  unfold pitchesFromTo
  simp only [List.mem_map, List.mem_range]
  constructor
  · rintro ⟨i, hi1, rfl⟩
    constructor <;> omega
  · rintro ⟨h1, h2⟩
    exact ⟨(p - lo).toNat, by omega, by omega⟩

theorem whiteIndexByPitch_of_mem (ws : List Int) (p : Int) (h : p ∈ ws) :
    ∃ wi, whiteIndexByPitch ws p = some wi := by
  have hlt : ws.reverse.indexOf p < ws.length := by
    have := List.indexOf_lt_length.mpr (List.mem_reverse.mpr h)
    rwa [List.length_reverse] at this
  exact ⟨ws.length - 1 - ws.reverse.indexOf p, by simp only [whiteIndexByPitch, hlt, if_true]⟩

/-- The pitch class of a pitch is that of a white key or that of a black
key. -/
theorem white_or_black (p : Int) :
    (whiteIndexInOctave (pcFromPitch p)).isSome = true ∨
    (isBlackPc (pcFromPitch p) = true ∧
      ∃ leftPc, leftPcByBlack (pcFromPitch p) = some leftPc ∧
        pitchFromPcOct leftPc (octFromPitch p) = p - 1 ∧
        (whiteIndexInOctave (pcFromPitch (p - 1))).isSome = true ∧ p % 12 ≠ 0) := by
  have h0 : 0 ≤ p % 12 := Int.emod_nonneg p (by decide)
  have h1 : p % 12 < 12 := Int.emod_lt_of_pos p (by decide)
  have hm : (p - 1) % 12 = if p % 12 = 0 then 11 else p % 12 - 1 := by
    split_ifs <;> omega
  rw [pcFromPitch_eq_emod, pcFromPitch_eq_emod, octFromPitch_eq_ediv, hm]
  unfold pitchFromPcOct
  have hc : p % 12 = 0 ∨ p % 12 = 1 ∨ p % 12 = 2 ∨ p % 12 = 3 ∨ p % 12 = 4 ∨ p % 12 = 5 ∨
      p % 12 = 6 ∨ p % 12 = 7 ∨ p % 12 = 8 ∨ p % 12 = 9 ∨ p % 12 = 10 ∨ p % 12 = 11 := by
    omega
  rcases hc with h | h | h | h | h | h | h | h | h | h | h | h <;> rw [h] <;>
    first
      | (left; decide)
      | (right
         exact ⟨by decide, _, rfl, by omega, by decide, by decide⟩)

/-- A pitch inside a window that starts on a `C` is drawn, with the highlight
of each note it equals. -/
theorem key_drawn (g : Game) (p1 p2 n : Int)
    (hal : (computeTwoOctaveWindow g p1 p2).lo % 12 = 0)
    (hlo : (computeTwoOctaveWindow g p1 p2).lo ≤ n)
    (hhi : n ≤ (computeTwoOctaveWindow g p1 p2).hi) :
    ∃ k ∈ buildMiniKeyboard g (some p1) (some p2),
      k.pitch = n ∧ k.hl1 = decide (n = p1) ∧ k.hl2 = decide (n = p2) := by
  have hmem : n ∈ pitchesFromTo (computeTwoOctaveWindow g p1 p2).lo
      (computeTwoOctaveWindow g p1 p2).hi := (mem_pitchesFromTo _ _ _).mpr ⟨hlo, hhi⟩
  rcases white_or_black n with hw | ⟨hbk, leftPc, hleft, hpitch, hwl, hne⟩
  · have hin : n ∈ (pitchesFromTo (computeTwoOctaveWindow g p1 p2).lo
        (computeTwoOctaveWindow g p1 p2).hi).filter
        (fun p => (whiteIndexInOctave (pcFromPitch p)).isSome) :=
      List.mem_filter.mpr ⟨hmem, hw⟩
    have hlen := List.length_pos_of_mem hin
    obtain ⟨i, hi, hget⟩ := List.getElem_of_mem hin
    simp only [buildMiniKeyboard]
    rw [if_neg (by omega)]
    refine ⟨⟨n, false, 8 + (i : Int) * 26, decide (n = p1), decide (n = p2)⟩, ?_, rfl, rfl, rfl⟩
    apply List.mem_append_left
    rw [List.mem_map]
    refine ⟨i, List.mem_range.mpr hi, ?_⟩
    simp only [List.getD_eq_getElem _ _ hi, hget]
  · have hlm : (computeTwoOctaveWindow g p1 p2).lo ≤ n - 1 := by omega
    have hin : n - 1 ∈ (pitchesFromTo (computeTwoOctaveWindow g p1 p2).lo
        (computeTwoOctaveWindow g p1 p2).hi).filter
        (fun p => (whiteIndexInOctave (pcFromPitch p)).isSome) :=
      List.mem_filter.mpr ⟨(mem_pitchesFromTo _ _ _).mpr ⟨hlm, by omega⟩, hwl⟩
    have hlen := List.length_pos_of_mem hin
    obtain ⟨wi, hwi⟩ := whiteIndexByPitch_of_mem _ _ hin
    simp only [buildMiniKeyboard]
    rw [if_neg (by omega)]
    refine ⟨⟨n, true, 8 + (wi : Int) * 26 + 26 - 16 / 2, decide (n = p1), decide (n = p2)⟩,
      ?_, rfl, rfl, rfl⟩
    apply List.mem_append_right
    rw [List.mem_filterMap]
    refine ⟨n, hmem, ?_⟩
    simp only [hbk, Bool.not_true, Bool.false_eq_true, if_false, hleft, hpitch, hwi]

/-- The window of `computeTwoOctaveWindow` for bounds on octave boundaries and a round
inside them. -/
theorem window_props (g : Game) (k octaves p1 p2 : Int)
    (hmin : g.pitchMin = 12 * k) (hmax : g.pitchMax = g.pitchMin + 12 * octaves)
    (ho1 : 1 ≤ octaves) (ho4 : octaves ≤ 4)
    (h1lo : g.pitchMin ≤ p1) (h1hi : p1 ≤ g.pitchMax)
    (h2lo : g.pitchMin ≤ p2) (h2hi : p2 ≤ g.pitchMax)
    (hd : |p2 - p1| ≤ 3) :
    g.pitchMin ≤ (computeTwoOctaveWindow g p1 p2).lo ∧
    (computeTwoOctaveWindow g p1 p2).lo ≤ min p1 p2 ∧
    max p1 p2 ≤ (computeTwoOctaveWindow g p1 p2).hi ∧
    (computeTwoOctaveWindow g p1 p2).hi ≤ g.pitchMax ∧
    (computeTwoOctaveWindow g p1 p2).hi - (computeTwoOctaveWindow g p1 p2).lo ≤ 24 ∧
    (computeTwoOctaveWindow g p1 p2).lo % 12 = 0 ∧
    (computeTwoOctaveWindow g p1 p2).hi % 12 = 0 := by
  rw [abs_le] at hd
  simp only [computeTwoOctaveWindow, clamp, pitchFromPcOct, octFromPitch_eq_ediv]
  split_ifs <;> omega

/-- The bounds of each of the four modes have the shape the window needs: they
lie on octave boundaries, 1 to 4 octaves apart, and are safe integers. -/
theorem computePitchBounds_shape (key : String) (m : Mode) (hm : (key, m) ∈ RANGES)
    (s : Game) (hs : s.noteRange = key) :
    (computePitchBounds s).pitchMin = 12 * m.startOctave ∧
    (computePitchBounds s).pitchMax = (computePitchBounds s).pitchMin + 12 * m.octaves ∧
    |m.startOctave| ≤ 2 ^ 48 ∧ 1 ≤ m.octaves ∧ m.octaves ≤ 4 := by
  have hc := currentMode_of_mem key m hm s hs
  simp only [RANGES, List.mem_cons, Prod.mk.injEq, List.mem_singleton, List.not_mem_nil,
    or_false] at hm
  simp only [computePitchBounds, hc, pitchFromPcOct]
  rcases hm with ⟨rfl, rfl⟩ | ⟨rfl, rfl⟩ | ⟨rfl, rfl⟩ | ⟨rfl, rfl⟩ <;>
    simp [expert4oct, abs_le]

/-- C15: when `pitchMin = 12 * k` is a multiple of 12 (with `|k| ≤ 2^48`, which
covers every mode and keeps all pitches safe integers), `pitchMax` lies 1 to 4
octaves above it and the two pitches lie within the bounds at most 3 semitones
apart, the window that `computeTwoOctaveWindow` computes in binary64 is the window of
integers `{lo, hi}` of the integer version; it starts at or above `pitchMin` and
at or below the lower pitch, ends at or above the higher pitch and at or below
`pitchMax`, spans at most 24 semitones and starts on a `C` (a multiple of 12);
and `buildMiniKeyboard` draws a key for every pitch of the window, so it draws a key
for the first note with the highlight `hl1` and a key for the second note with
the highlight `hl2`.  The bounds of each of the four modes satisfy the
hypotheses on the bounds. -/
theorem window_contains_round (g : Game) (k octaves p1 p2 : Int)
    (hmin : g.pitchMin = 12 * k) (hmax : g.pitchMax = g.pitchMin + 12 * octaves)
    (hk : |k| ≤ 2 ^ 48) (ho1 : 1 ≤ octaves) (ho4 : octaves ≤ 4)
    (h1lo : g.pitchMin ≤ p1) (h1hi : p1 ≤ g.pitchMax)
    (h2lo : g.pitchMin ≤ p2) (h2hi : p2 ≤ g.pitchMax)
    (hd : |p2 - p1| ≤ 3) :
    B64.computeTwoOctaveWindow (.fin g.pitchMin) (.fin g.pitchMax) (.fin p1) (.fin p2) =
      (computeTwoOctaveWindow g p1 p2).toNum ∧
    g.pitchMin ≤ (computeTwoOctaveWindow g p1 p2).lo ∧
    (computeTwoOctaveWindow g p1 p2).lo ≤ min p1 p2 ∧
    max p1 p2 ≤ (computeTwoOctaveWindow g p1 p2).hi ∧
    (computeTwoOctaveWindow g p1 p2).hi ≤ g.pitchMax ∧
    (computeTwoOctaveWindow g p1 p2).hi - (computeTwoOctaveWindow g p1 p2).lo ≤ 24 ∧
    (computeTwoOctaveWindow g p1 p2).lo % 12 = 0 ∧
    (∀ n, (computeTwoOctaveWindow g p1 p2).lo ≤ n → n ≤ (computeTwoOctaveWindow g p1 p2).hi →
      ∃ key ∈ buildMiniKeyboard g (some p1) (some p2),
        key.pitch = n ∧ (key.hl1 = true ↔ n = p1) ∧ (key.hl2 = true ↔ n = p2)) ∧
    (∃ key ∈ buildMiniKeyboard g (some p1) (some p2), key.pitch = p1 ∧ key.hl1 = true) ∧
    (∃ key ∈ buildMiniKeyboard g (some p1) (some p2), key.pitch = p2 ∧ key.hl2 = true) ∧
    (∀ (key : String) (m : Mode) (s : Game), (key, m) ∈ RANGES → s.noteRange = key →
      (computePitchBounds s).pitchMin = 12 * m.startOctave ∧
      (computePitchBounds s).pitchMax = (computePitchBounds s).pitchMin + 12 * m.octaves ∧
      |m.startOctave| ≤ 2 ^ 48 ∧ 1 ≤ m.octaves ∧ m.octaves ≤ 4) := by
  obtain ⟨w1, w2, w3, w4, w5, w6, _⟩ :=
    window_props g k octaves p1 p2 hmin hmax ho1 ho4 h1lo h1hi h2lo h2hi hd
  have b1 : (computeTwoOctaveWindow g p1 p2).lo ≤ p1 := le_trans w2 (min_le_left _ _)
  have b2 : (computeTwoOctaveWindow g p1 p2).lo ≤ p2 := le_trans w2 (min_le_right _ _)
  have b3 : p1 ≤ (computeTwoOctaveWindow g p1 p2).hi := le_trans (le_max_left _ _) w3
  have b4 : p2 ≤ (computeTwoOctaveWindow g p1 p2).hi := le_trans (le_max_right _ _) w3
  obtain ⟨k1, hk1, e1, f1, _⟩ := key_drawn g p1 p2 p1 w6 b1 b3
  obtain ⟨k2, hk2, e2, _, f2⟩ := key_drawn g p1 p2 p2 w6 b2 b4
  have hrf := computeTwoOctaveWindow_refines g p1 p2
    (by rw [abs_le] at hk ⊢; constructor <;> omega) (by rw [abs_le] at hk ⊢; constructor <;> omega)
    (by rw [abs_le] at hk ⊢; constructor <;> omega) (by rw [abs_le] at hk ⊢; constructor <;> omega)
  refine ⟨hrf, w1, w2, w3, w4, w5, w6, ?_, ⟨k1, hk1, e1, by rw [f1]; simp⟩,
    ⟨k2, hk2, e2, by rw [f2]; simp⟩,
    fun key m s hm hs => computePitchBounds_shape key m hm s hs⟩
  intro n hn1 hn2
  obtain ⟨key, hkey, e, f, f'⟩ := key_drawn g p1 p2 n w6 hn1 hn2
  exact ⟨key, hkey, e, by rw [f]; simp, by rw [f']; simp⟩

theorem window_contains_round_witness :
    roundOne.pitchMin = 12 * 4 ∧ roundOne.pitchMax = roundOne.pitchMin + 12 * 1 ∧
    (B64.computeTwoOctaveWindow (.fin roundOne.pitchMin) (.fin roundOne.pitchMax)
        (.fin ((54 : Int) : ℚ)) (.fin ((55 : Int) : ℚ)) =
      (computeTwoOctaveWindow roundOne 54 55).toNum ∧
    roundOne.pitchMin ≤ (computeTwoOctaveWindow roundOne 54 55).lo ∧
    (computeTwoOctaveWindow roundOne 54 55).lo ≤ min 54 55 ∧
    max 54 55 ≤ (computeTwoOctaveWindow roundOne 54 55).hi ∧
    (computeTwoOctaveWindow roundOne 54 55).hi ≤ roundOne.pitchMax ∧
    (computeTwoOctaveWindow roundOne 54 55).hi - (computeTwoOctaveWindow roundOne 54 55).lo
      ≤ 24 ∧
    (computeTwoOctaveWindow roundOne 54 55).lo % 12 = 0 ∧
    (∀ n, (computeTwoOctaveWindow roundOne 54 55).lo ≤ n →
      n ≤ (computeTwoOctaveWindow roundOne 54 55).hi →
      ∃ key ∈ buildMiniKeyboard roundOne (some 54) (some 55),
        key.pitch = n ∧ (key.hl1 = true ↔ n = 54) ∧ (key.hl2 = true ↔ n = 55)) ∧
    (∃ key ∈ buildMiniKeyboard roundOne (some 54) (some 55),
      key.pitch = 54 ∧ key.hl1 = true) ∧
    (∃ key ∈ buildMiniKeyboard roundOne (some 54) (some 55),
      key.pitch = 55 ∧ key.hl2 = true) ∧
    (∀ (key : String) (m : Mode) (s : Game), (key, m) ∈ RANGES → s.noteRange = key →
      (computePitchBounds s).pitchMin = 12 * m.startOctave ∧
      (computePitchBounds s).pitchMax = (computePitchBounds s).pitchMin + 12 * m.octaves ∧
      |m.startOctave| ≤ 2 ^ 48 ∧ 1 ≤ m.octaves ∧ m.octaves ≤ 4)) :=
  ⟨by rw [roundOne_eq]; rfl, by rw [roundOne_eq]; rfl,
   window_contains_round roundOne 4 1 54 55 (by rw [roundOne_eq]; rfl)
     (by rw [roundOne_eq]; rfl) (by decide) (by decide) (by decide)
     (by rw [roundOne_eq]; decide) (by rw [roundOne_eq]; decide)
     (by rw [roundOne_eq]; decide) (by rw [roundOne_eq]; decide) (by decide)⟩

/-! ## The notes of a round and the keyboard window in reachable states -/

theorem currentMode_octaves (g : Game) :
    1 ≤ (currentMode g).octaves ∧ (currentMode g).octaves ≤ 4 := by
  simp only [currentMode, RANGES, List.lookup, expert4oct]
  cases (g.noteRange == "easy-1oct") <;> cases (g.noteRange == "med-2oct") <;>
    cases (g.noteRange == "hard-3oct") <;> cases (g.noteRange == "expert-4oct") <;> simp

theorem RoundOk.of_same {g g2 : Game} (h : RoundOk g)
    (h1 : g2.pitchMin = g.pitchMin) (h2 : g2.pitchMax = g.pitchMax)
    (h3 : g2.noteRange = g.noteRange) (h4 : g2.started = g.started)
    (h5 : g2.note1 = g.note1) (h6 : g2.note2 = g.note2) : RoundOk g2 := by
  have hm : currentMode g2 = currentMode g := by simp only [currentMode, h3]
  unfold RoundOk at h ⊢
  rw [h1, h2, h4, h5, h6, hm]
  exact h

theorem startNewRound_roundOk (env : Env) (hr : ∀ i, IsDouble (env.rnd i) ∧ 0 ≤ env.rnd i ∧ env.rnd i < 1)
    (ap : Bool) (g : Game) (h : g.started = false → RoundOk g) :
    RoundOk (startNewRound env ap g) := by
  cases hs : g.started with
  | false =>
    have : startNewRound env ap g = g := by simp [startNewRound, hs]
    rw [this]; exact h hs
  | true =>
    have hsafe := computePitchBounds_safe g
    have hb := pickPairRun_bounds env.rnd (computePitchBounds g).pitchMin
      (computePitchBounds g).pitchMax g.rngPos (le_of_lt (computePitchBounds_lt g))
      (by omega) (hr g.rngPos).1 (hr g.rngPos).2.1 (hr g.rngPos).2.2
    unfold RoundOk
    simp only [startNewRound, hs, Bool.not_true, Bool.false_eq_true, if_false, pickPair]
    split_ifs
    all_goals
      simp only [computePitchBounds, pitchFromPcOct, currentMode] at hb ⊢
      refine ⟨by omega, by omega, by simp, ?_⟩
      intro n1 n2 h1 h2
      simp only [Option.some.injEq] at h1 h2
      subst h1 h2
      exact hb

theorem playPair_same (env : Env) (al : Bool) (g : Game) :
    (playPair env al g).pitchMin = g.pitchMin ∧ (playPair env al g).pitchMax = g.pitchMax ∧
    (playPair env al g).noteRange = g.noteRange ∧ (playPair env al g).started = g.started ∧
    (playPair env al g).note1 = g.note1 ∧ (playPair env al g).note2 = g.note2 := by
  unfold playPair
  split_ifs <;> exact ⟨rfl, rfl, rfl, rfl, rfl, rfl⟩

theorem answer_same (c : String) (g : Game) :
    (answer c g).pitchMin = g.pitchMin ∧ (answer c g).pitchMax = g.pitchMax ∧
    (answer c g).noteRange = g.noteRange ∧ (answer c g).started = g.started ∧
    (answer c g).note1 = g.note1 ∧ (answer c g).note2 = g.note2 := by
  simp only [answer, lockAfterAnswer, considerStreakForLongestOnFail]
  split_ifs <;> exact ⟨rfl, rfl, rfl, rfl, rfl, rfl⟩

theorem step_roundOk (env : Env) (hr : ∀ i, IsDouble (env.rnd i) ∧ 0 ≤ env.rnd i ∧ env.rnd i < 1)
    (e : Event) (g : Game) (h : RoundOk g) : RoundOk (step env e g) := by
  cases e with
  | clickBegin =>
    simp only [step]
    split_ifs
    · exact h.of_same rfl rfl rfl rfl rfl rfl
    · apply startNewRound_roundOk env hr
      intro hs
      exact ⟨h.1, h.2.1, fun _ => ⟨rfl, rfl⟩, fun n1 n2 h1 _ => by cases h1⟩
  | replay =>
    simp only [step, replay]
    split_ifs
    · exact h
    · obtain ⟨h1, h2, h3, h4, h5, h6⟩ := playPair_same env true { g with awaitingNext := false }
      exact h.of_same h1 h2 h3 h4 h5 h6
  | answer c =>
    obtain ⟨h1, h2, h3, h4, h5, h6⟩ := answer_same c g
    exact h.of_same h1 h2 h3 h4 h5 h6
  | next =>
    simp only [step, goNext]
    split_ifs
    · exact h
    · exact startNewRound_roundOk env hr true g (fun _ => h)
  | rangeChange v =>
    have hcm : currentMode (computePitchBounds { g with noteRange := v }) =
        currentMode { g with noteRange := v } := rfl
    have hk : RoundOk (computePitchBounds { g with noteRange := v }) →
        RoundOk (step env (.rangeChange v) g) := by
      intro hk
      simp only [step]
      split_ifs
      · exact startNewRound_roundOk env hr true _ (fun _ => hk)
      · exact hk
    cases hs : g.started with
    | true =>
      simp only [step]
      have : (computePitchBounds { g with noteRange := v }).started = true := hs
      rw [if_pos this]
      apply startNewRound_roundOk env hr
      intro hf
      rw [this] at hf; cases hf
    | false =>
      apply hk
      obtain ⟨hn1, hn2⟩ := h.2.2.1 hs
      refine ⟨?_, ?_, fun _ => ⟨hn1, hn2⟩, ?_⟩
      · rw [hcm]; simp only [computePitchBounds, pitchFromPcOct]; omega
      · rw [hcm]; simp only [computePitchBounds, pitchFromPcOct]; omega
      · intro n1 n2 h1 _
        have : g.note1 = some n1 := h1
        rw [hn1] at this; cases this
  | resume t =>
    simp only [step]
    split_ifs
    · have he : RoundOk { g with pending := g.pending.erase t } :=
        h.of_same rfl rfl rfl rfl rfl rfl
      cases t with
      | beginResume =>
        apply startNewRound_roundOk env hr
        intro hf; cases hf
      | frame =>
        obtain ⟨h1, h2, h3, h4, h5, h6⟩ := playPair_same env true
          { g with pending := g.pending.erase .frame }
        exact he.of_same h1 h2 h3 h4 h5 h6
      | firstNote tk p al =>
        simp only [resumeTask, playPairAfterFirst]
        split_ifs
        · exact he
        · exact h.of_same rfl rfl rfl rfl rfl rfl
      | secondNote tk p al =>
        simp only [resumeTask, playPairAfterSecond]
        split_ifs
        · exact he
        · exact h.of_same rfl rfl rfl rfl rfl rfl
        · exact he
      | unlock tk =>
        simp only [resumeTask, unlockCallback]
        split_ifs
        · exact he
        · exact h.of_same rfl rfl rfl rfl rfl rfl
    · exact h

theorem initial_roundOk (sel : String) : RoundOk (initial sel) := by
  unfold RoundOk
  simp only [initial, computePitchBounds, currentMode, pitchFromPcOct]
  refine ⟨by omega, by omega, by simp, by simp⟩

theorem reachable_roundOk (env : Env) (hr : ∀ i, IsDouble (env.rnd i) ∧ 0 ≤ env.rnd i ∧ env.rnd i < 1)
    (g : Game) (h : Reachable env g) : RoundOk g := by
  obtain ⟨sel, es, rfl⟩ := h
  have : ∀ (es : List Event) (s : Game), RoundOk s → RoundOk (run env es s) := by
    intro es
    induction es with
    | nil => intro s hs; exact hs
    | cons e es ih => intro s hs; exact ih _ (step_roundOk env hr e s hs)
  exact this es _ (initial_roundOk sel)

/-- In every state a session can reach (with draws of `Math.random` that are
binary64 numbers in `[0, 1)`), the window that `answer` passes to the mini
keyboard for the notes of the round lies within the bounds, spans at most 24
semitones, starts on a `C` and contains both notes, and `buildMiniKeyboard`
draws a key for each note with its highlight. -/
theorem window_shows_round_notes (env : Env)
    (hr : ∀ i, IsDouble (env.rnd i) ∧ 0 ≤ env.rnd i ∧ env.rnd i < 1)
    (g : Game) (hg : Reachable env g) (n1 n2 : Int)
    (h1 : g.note1 = some n1) (h2 : g.note2 = some n2) :
    g.pitchMin ≤ (computeTwoOctaveWindow g n1 n2).lo ∧
    (computeTwoOctaveWindow g n1 n2).lo ≤ n1 ∧ n1 ≤ (computeTwoOctaveWindow g n1 n2).hi ∧
    (computeTwoOctaveWindow g n1 n2).lo ≤ n2 ∧ n2 ≤ (computeTwoOctaveWindow g n1 n2).hi ∧
    (computeTwoOctaveWindow g n1 n2).hi ≤ g.pitchMax ∧
    (computeTwoOctaveWindow g n1 n2).hi - (computeTwoOctaveWindow g n1 n2).lo ≤ 24 ∧
    (computeTwoOctaveWindow g n1 n2).lo % 12 = 0 ∧
    (∃ key ∈ buildMiniKeyboard g g.note1 g.note2, key.pitch = n1 ∧ key.hl1 = true) ∧
    (∃ key ∈ buildMiniKeyboard g g.note1 g.note2, key.pitch = n2 ∧ key.hl2 = true) := by
  obtain ⟨hmin, hmax, _, hn⟩ := reachable_roundOk env hr g hg
  obtain ⟨ho1, ho4⟩ := currentMode_octaves g
  obtain ⟨a1, a2, a3, a4, a5⟩ := hn n1 n2 h1 h2
  obtain ⟨w1, w2, w3, w4, w5, w6, _⟩ :=
    window_props g (currentMode g).startOctave (currentMode g).octaves n1 n2 hmin hmax ho1 ho4
      a1 a2 a3 a4 a5
  have b1 : (computeTwoOctaveWindow g n1 n2).lo ≤ n1 := le_trans w2 (min_le_left _ _)
  have b2 : (computeTwoOctaveWindow g n1 n2).lo ≤ n2 := le_trans w2 (min_le_right _ _)
  have b3 : n1 ≤ (computeTwoOctaveWindow g n1 n2).hi := le_trans (le_max_left _ _) w3
  have b4 : n2 ≤ (computeTwoOctaveWindow g n1 n2).hi := le_trans (le_max_right _ _) w3
  obtain ⟨k1, hk1, e1, f1, _⟩ := key_drawn g n1 n2 n1 w6 b1 b3
  obtain ⟨k2, hk2, e2, _, f2⟩ := key_drawn g n1 n2 n2 w6 b2 b4
  rw [h1, h2]
  exact ⟨w1, b1, b3, b2, b4, w4, w5, w6, ⟨k1, hk1, e1, by rw [f1]; simp⟩,
    ⟨k2, hk2, e2, by rw [f2]; simp⟩⟩

end HigherOrLower
